import Mathlib

set_option maxRecDepth 8000
set_option maxHeartbeats 2000000

namespace LPlibNgb

/-- Tetrahedron record mirroring TetSct of tetrahedra_neighbours.c: four
vertex indices (positions 0..3 of the C array idx[4]) and a material
reference. Vertex indices are modelled as Nat: the C ints hold nonnegative
mesh vertex ids, for which the 64-bit hash arithmetic below is exact. -/
structure TetSct where
  idx : Nat → Nat
  ref : Int

/-- Volume mesh, the part of MshSct the neighbour algorithm reads: the
tetrahedra, stored 1-based. Slot 0 mirrors the C array's never-initialized
slot 0 (malloc leaves it arbitrary), so the model keeps it as an
unconstrained part of the mesh value. -/
structure MshSct where
  NmbTet : Nat
  tet : Nat → TetSct

/-- Output triangle mirroring TriSct: three vertex indices and a reference. -/
structure TriSct where
  v0 : Nat
  v1 : Nat
  v2 : Nat
  ref : Int
  deriving DecidableEq

/-- Hash-table slot mirroring HshSct: owner tet id (0 = empty slot), the
face position voy, the canonical positions min/mid/max, and the overflow
link nex (0 = end of chain). -/
structure HshSct where
  tet : Nat
  voy : Nat
  min : Nat
  mid : Nat
  max : Nat
  nex : Nat
  deriving DecidableEq

/-- The all-zero slot that calloc leaves in a fresh table. -/
def HshSct.zero : HshSct := ⟨0, 0, 0, 0, 0, 0⟩

/-- One step of the min/max position scan shared by ParNgb1 (lines 449-458)
and ParNgb2 (lines 543-552): skip position j, move min on a strictly
smaller vertex index, else move max on a strictly larger one. -/
def canonStep (t : TetSct) (j : Nat) (mm : Nat × Nat) (k : Nat) : Nat × Nat :=
  if k = j then mm
  else if t.idx k < t.idx mm.1 then (k, mm.2)
  else if t.idx mm.2 < t.idx k then (mm.1, k)
  else mm

/-- Positions of the smallest and largest vertex index of face j (the face
opposite position j), as computed by the scan starting from
min = max = (j+1) mod 4. -/
def canonMM (t : TetSct) (j : Nat) : Nat × Nat :=
  [0, 1, 2, 3].foldl (canonStep t j) ((j + 1) % 4, (j + 1) % 4)

/-- The remaining face position, computed as mid = 6 - min - max - j
(ParNgb1 line 460, ParNgb2 line 554). -/
def canonMid (t : TetSct) (j : Nat) : Nat :=
  6 - (canonMM t j).1 - (canonMM t j).2 - j

/-- Canonical (min, mid, max) vertex values of face j of a tet. -/
def trip (t : TetSct) (j : Nat) : Nat × Nat × Nat :=
  (t.idx (canonMM t j).1, t.idx (canonMid t j), t.idx (canonMM t j).2)

/-- Fuel-driven search for the smallest exponent d with m <= 2^d, starting
at d (structural recursion, so that concrete runs reduce in the kernel). -/
def clog2go : Nat → Nat → Nat → Nat
  | 0, _, d => d
  | fuel + 1, m, d => if m ≤ 2 ^ d then d else clog2go fuel m (d + 1)

/-- Ceiling base-2 logarithm: the smallest d with m <= 2^d. -/
def ceilLog2 (m : Nat) : Nat := clog2go m m 0

/-- Hash size chosen by SetNgb lines 351-352: HshSiz = 2^dec with
dec = ceil(log2(1 + 2*NmbTet/NmbCpu)). The C computes dec with double
precision logarithms over the exact quotient 2.*NmbTet/NmbCpu; the model
takes the exact ceiling of the rational 1 + 2*T/N, whose integer ceiling
is 1 + (2*T + N - 1)/N. -/
def hshSiz (T N : Nat) : Nat := 2 ^ ceilLog2 (1 + (2 * T + N - 1) / N)

/-- Hash key of the canonical face (ParNgb1 lines 461-463, and the int
variant at ParNgb2 line 556): the masked sum 31*vmin + 7*vmid + 3*vmax
with HshMsk = HshSiz - 1. -/
def hshKey (H : Nat) (t : TetSct) (j : Nat) : Nat :=
  (31 * t.idx (canonMM t j).1 + 7 * t.idx (canonMid t j)
    + 3 * t.idx (canonMM t j).2) &&& (H - 1)

/-- Subdomain begin for worker i: par[i].beg = i*MshSiz + 1 with
MshSiz = NmbTet / NmbCpu (SetNgb lines 353, 360). -/
def begOf (T N i : Nat) : Nat := i * (T / N) + 1

/-- Subdomain end for worker i: (i+1)*MshSiz, with the last worker's end
replaced by NmbTet (SetNgb lines 361 and 371). -/
def endOf (T N i : Nat) : Nat := if i = N - 1 then T else (i + 1) * (T / N)

/-- The (tet, face) pairs a loop from bg to en visits, in loop order. -/
def facetsFromTo (bg en : Nat) : List (Nat × Nat) :=
  (List.range' bg (en + 1 - bg)).flatMap fun i => [(i, 0), (i, 1), (i, 2), (i, 3)]

/-- Shared mutable state of SetNgb's two parallel phases: every worker's
private hash table and overflow cursor (par[c].tab and par[c].ColPos),
the shared neighbour table NgbTab and the per-tet match counters FlgTab.
visP and visC are ghost instrumentation of phase two only: the tet ids
phase two reads at primary probes respectively at chain (nex) probes of
other workers' tables. -/
structure GSt where
  tab : Nat → Nat → HshSct
  ColPos : Nat → Nat
  NgbTab : Nat × Nat → Nat
  FlgTab : Nat → Nat
  visP : List Nat
  visC : List Nat

/-- Write slot s of worker c's table. -/
def setTab (st : GSt) (c s : Nat) (e : HshSct) : GSt :=
  { st with tab := Function.update st.tab c (Function.update (st.tab c) s e) }

/-- NgbTab[i][j] = m. -/
def setNgb (st : GSt) (i j m : Nat) : GSt :=
  { st with NgbTab := Function.update st.NgbTab (i, j) m }

/-- FlgTab[i]++. -/
def incFlg (st : GSt) (i : Nat) : GSt :=
  { st with FlgTab := Function.update st.FlgTab i (st.FlgTab i + 1) }

/-- The do-while chain walk of ParNgb1 (lines 477-509), entered when the
primary bucket is occupied: on a canonical-triple match link both tets and
bump both flags; otherwise follow nex, and at chain end append a fresh
overflow slot at ColPos and advance ColPos. fuel only bounds the chain
length; since nex links strictly increase, ColPos + 1 steps suffice. -/
def p1walk (msh : MshSct) (c i j mn md mx : Nat) :
    Nat → Nat → GSt → GSt
  | 0, _, st => st
  | fuel + 1, key, st =>
    match st.tab c key with
    | HshSct.mk et ev emn emd emx enex =>
      if (msh.tet et).idx emn = (msh.tet i).idx mn ∧ (msh.tet et).idx emd = (msh.tet i).idx md
          ∧ (msh.tet et).idx emx = (msh.tet i).idx mx then
        incFlg (setNgb (incFlg (setNgb st i j et) i) et ev i) et
      else if enex ≠ 0 then
        p1walk msh c i j mn md mx fuel enex st
      else
        -- the C writes tet, voy, min, mid, max of the fresh slot at ColPos and
        -- leaves its nex as calloc left it: slots at or beyond ColPos were
        -- never written, so that nex is 0
        let st1 := setTab st c key (HshSct.mk et ev emn emd emx (st.ColPos c))
        let st2 := setTab st1 c (st.ColPos c) (HshSct.mk i j mn md mx 0)
        { st2 with ColPos := Function.update st2.ColPos c (st.ColPos c + 1) }

/-- Per-face body of ParNgb1's main loop (lines 446-510): compute the
canonical face and its key; fill the primary bucket when empty, otherwise
run the chain walk. -/
def p1face (msh : MshSct) (H c : Nat) (st : GSt) (f : Nat × Nat) : GSt :=
  let i := f.1
  let j := f.2
  let t := msh.tet i
  let mn := (canonMM t j).1
  let mx := (canonMM t j).2
  let md := canonMid t j
  let key := hshKey H t j
  match st.tab c key with
  | HshSct.mk et _ _ _ _ enex =>
    if et = 0 then
      -- the C fills tet, voy, min, mid, max of the empty bucket, keeping nex
      setTab st c key (HshSct.mk i j mn md mx enex)
    else
      p1walk msh c i j mn md mx (st.ColPos c + 1) key st

/-- ParNgb1 run by worker c over its subdomain (lines 431-512). Modelled
from the spec: LaunchParallel (whose code is not under src/) gives each
worker one packet and invokes the callback once per worker id; phase-one
workers write disjoint state (their own table and cursor, and NgbTab and
FlgTab cells of their own subdomain only), so the launch is modelled as
sequential composition of the workers in index order. -/
def ParNgb1 (msh : MshSct) (H bg en c : Nat) (st : GSt) : GSt :=
  (facetsFromTo bg en).foldl (p1face msh H c) st

/-- First LaunchParallel of SetNgb (line 377). -/
def phase1 (msh : MshSct) (T N H : Nat) (st : GSt) : GSt :=
  (List.range N).foldl
    (fun st c => ParNgb1 msh H (begOf T N c) (endOf T N c) c st) st

/-- Ghost push of a primary-probe read (instrumentation only). -/
def pushP (st : GSt) (v : Nat) : GSt := { st with visP := v :: st.visP }

/-- Ghost push of a chain-probe read (instrumentation only). -/
def pushC (st : GSt) (v : Nat) : GSt := { st with visC := v :: st.visC }

/-- Chain walk of ParNgb2 inside worker n's table (lines 566-583): the code
dereferences msh->tet[tab[key].tet] first, even on an empty slot, then
compares the canonical triples; on match it writes NgbTab[i][j] and
reports success. first marks the primary probe, for the ghost log only. -/
def p2walk (msh : MshSct) (n i j mn md mx : Nat) :
    Nat → Nat → Bool → GSt → GSt × Bool
  | 0, _, _, st => (st, false)
  | fuel + 1, key, first, st =>
    match st.tab n key with
    | HshSct.mk et _ emn emd emx enex =>
      let st1 := if first then pushP st et else pushC st et
      if (msh.tet et).idx emn = (msh.tet i).idx mn ∧ (msh.tet et).idx emd = (msh.tet i).idx md
          ∧ (msh.tet et).idx emx = (msh.tet i).idx mx then
        (setNgb st1 i j et, true)
      else if enex ≠ 0 then
        p2walk msh n i j mn md mx fuel enex false st1
      else
        (st1, false)

/-- The for-n probe loop of ParNgb2 (lines 558-587): walk every other
worker's table at the same key until one reports a match. -/
def p2probe (msh : MshSct) (c i j mn md mx key : Nat) :
    List Nat → GSt → GSt
  | [], st => st
  | n :: ns, st =>
    if n = c then p2probe msh c i j mn md mx key ns st
    else
      let r := p2walk msh n i j mn md mx (st.ColPos n + 1) key true st
      if r.2 then r.1 else p2probe msh c i j mn md mx key ns r.1

/-- Per-face body of ParNgb2 (lines 536-588): only faces still without a
neighbour are probed across the other subdomains. -/
def p2face (msh : MshSct) (H N c : Nat) (st : GSt) (f : Nat × Nat) : GSt :=
  let i := f.1
  let j := f.2
  if st.NgbTab (i, j) ≠ 0 then st
  else
    let t := msh.tet i
    let mn := (canonMM t j).1
    let mx := (canonMM t j).2
    let md := canonMid t j
    let key := hshKey H t j
    p2probe msh c i j mn md mx key (List.range N) st

/-- Per-tet body of ParNgb2 (lines 527-589): a tet that already holds four
links is skipped. -/
def p2tet (msh : MshSct) (H N c : Nat) (st : GSt) (i : Nat) : GSt :=
  if st.FlgTab i = 4 then st
  else [(i, 0), (i, 1), (i, 2), (i, 3)].foldl (p2face msh H N c) st

/-- ParNgb2 run by worker c over its subdomain (lines 519-590), under the
same launch model as ParNgb1. -/
def ParNgb2 (msh : MshSct) (H N bg en c : Nat) (st : GSt) : GSt :=
  (List.range' bg (en + 1 - bg)).foldl (p2tet msh H N c) st

/-- Second LaunchParallel of SetNgb (line 380). -/
def phase2 (msh : MshSct) (T N H : Nat) (st : GSt) : GSt :=
  (List.range N).foldl
    (fun st c => ParNgb2 msh H N (begOf T N c) (endOf T N c) c st) st

/-- State after SetNgb's setup (lines 354-371): calloc'ed tables, every
ColPos at HshSiz. -/
def initSt (H : Nat) : GSt :=
  { tab := fun _ _ => HshSct.zero
    ColPos := fun _ => H
    NgbTab := fun _ => 0
    FlgTab := fun _ => 0
    visP := []
    visC := [] }

/-- The tvpf table (SetNgb line 340). -/
def tvpf (j k : Nat) : Nat :=
  (([[1, 2, 3], [2, 0, 3], [3, 0, 1], [0, 2, 1]].getD j []).getD k 0)

/-- Emission predicate of the boundary-extraction loops (SetNgb lines
390-391 and 403-404): no neighbour through the face, or a neighbour with a
different reference and an id strictly below i. -/
def triPred (msh : MshSct) (Ngb : Nat × Nat → Nat) (f : Nat × Nat) : Bool :=
  decide (Ngb f = 0 ∨ ((msh.tet f.1).ref ≠ (msh.tet (Ngb f)).ref ∧ Ngb f < f.1))

/-- Triangle written for an emitted facet (SetNgb lines 408-414): vertices
through tvpf, reference 0 for an external face and 1 for an interface. -/
def mkTri (msh : MshSct) (Ngb : Nat × Nat → Nat) (f : Nat × Nat) : TriSct :=
  { v0 := (msh.tet f.1).idx (tvpf f.2 0)
    v1 := (msh.tet f.1).idx (tvpf f.2 1)
    v2 := (msh.tet f.1).idx (tvpf f.2 2)
    ref := if Ngb f = 0 then 0 else 1 }

/-- The boundary-extraction double loop (SetNgb lines 386-415), as the list
of triangles appended in loop order; NmbTri is its length. -/
def extract (msh : MshSct) (Ngb : Nat × Nat → Nat) : List TriSct :=
  (facetsFromTo 1 msh.NmbTet).foldl
    (fun acc f => if triPred msh Ngb f then acc ++ [mkTri msh Ngb f] else acc) []

/-- Full SetNgb pipeline (lines 336-424): hash sizing, subdomain setup,
phase one, phase two when more than one worker, boundary extraction. -/
def SetNgb (msh : MshSct) (N : Nat) : GSt × List TriSct :=
  let T := msh.NmbTet
  let H := hshSiz T N
  let st1 := phase1 msh T N H (initSt H)
  let st2 := if 1 < N then phase2 msh T N H st1 else st1
  (st2, extract msh st2.NgbTab)

/-- A tet whose four vertex indices are pairwise distinct. -/
def TetDistinct (t : TetSct) : Prop :=
  ∀ k < 4, ∀ l < 4, k ≠ l → t.idx k ≠ t.idx l

/-- Every tet of the mesh has pairwise distinct vertex indices. -/
def MshDistinct (msh : MshSct) : Prop :=
  ∀ i < msh.NmbTet + 1, 1 ≤ i → TetDistinct (msh.tet i)

/-- A facet is a (tet id, face position) pair of the mesh. -/
def ValidF (msh : MshSct) (f : Nat × Nat) : Prop :=
  1 ≤ f.1 ∧ f.1 ≤ msh.NmbTet ∧ f.2 < 4

/-- Canonical triple of a facet. -/
def tripF (msh : MshSct) (f : Nat × Nat) : Nat × Nat × Nat :=
  trip (msh.tet f.1) f.2

/-- No three pairwise different facets carry the same canonical triple:
every face of the mesh is shared by at most two tetrahedra. -/
def AtMostTwoPerFace (msh : MshSct) : Prop :=
  ∀ f ∈ facetsFromTo 1 msh.NmbTet, ∀ g ∈ facetsFromTo 1 msh.NmbTet,
    ∀ h ∈ facetsFromTo 1 msh.NmbTet,
      f ≠ g → f ≠ h → g ≠ h → tripF msh f = tripF msh g → tripF msh f ≠ tripF msh h

/-- Decidability of the bounded distinctness predicate. -/
instance (t : TetSct) : Decidable (TetDistinct t) := by
  unfold TetDistinct; infer_instance

/-- Decidability of mesh-wide distinctness. -/
instance (msh : MshSct) : Decidable (MshDistinct msh) := by
  unfold MshDistinct; infer_instance

/-- Decidability of the at-most-two-sharing hypothesis. -/
instance (msh : MshSct) : Decidable (AtMostTwoPerFace msh) := by
  unfold AtMostTwoPerFace
  infer_instance

/-- Helper for concrete meshes: a tet from four vertex ids and a reference. -/
def tet4 (a b c d : Nat) (r : Int) : TetSct :=
  { idx := fun k => [a, b, c, d].getD k 0, ref := r }

/-- Stand-in for the uninitialized tet slot 0 of concrete test meshes. -/
def junkTet : TetSct := { idx := fun _ => 0, ref := 0 }

/-- Scenario S1 mesh: a single tet. -/
def mshS1 : MshSct :=
  { NmbTet := 1, tet := fun i => if i = 1 then tet4 1 2 3 4 0 else junkTet }

/-- Scenario S2 mesh: two tets sharing face (1,2,3), equal references. -/
def mshS2 : MshSct :=
  { NmbTet := 2
    tet := fun i =>
      if i = 1 then tet4 1 2 3 4 0 else if i = 2 then tet4 1 2 3 5 0 else junkTet }

/-- Scenario S3 mesh: two tets sharing face (1,2,3), references 0 and 1. -/
def mshS3 : MshSct :=
  { NmbTet := 2
    tet := fun i =>
      if i = 1 then tet4 1 2 3 4 0 else if i = 2 then tet4 1 2 3 5 1 else junkTet }

/-- Degenerate mesh: two tets over the same four vertices, so that all four
faces are shared between tet 1 and tet 2. -/
def mshDup : MshSct :=
  { NmbTet := 2
    tet := fun i =>
      if i = 1 then tet4 1 2 3 4 0 else if i = 2 then tet4 1 2 4 3 0 else junkTet }

/-- Two disjoint tets whose faces hash so that one probe of phase two hits
an empty primary bucket of the other worker's table. -/
def mshDisj2 : MshSct :=
  { NmbTet := 2
    tet := fun i =>
      if i = 1 then tet4 1 2 3 4 0 else if i = 2 then tet4 5 6 7 9 0 else junkTet }

/-- Three pairwise disjoint tets (twelve distinct faces). -/
def mshDisj3 : MshSct :=
  { NmbTet := 3
    tet := fun i =>
      if i = 1 then tet4 1 2 3 4 0
      else if i = 2 then tet4 5 6 7 8 0
      else if i = 3 then tet4 9 10 11 12 0 else junkTet }

/-- Slots reachable from slot s0 by following nonzero nex links. -/
inductive SufReach (tb : Nat → HshSct) (s0 : Nat) : Nat → Prop where
  | refl : SufReach tb s0 s0
  | tail {s s' : Nat} : SufReach tb s0 s → (tb s).nex = s' → s' ≠ 0 → SufReach tb s0 s'

/-- Specification-side search for the partner facet: the first facet of the
mesh, in loop order, distinct from f and carrying the same canonical
triple. -/
def mateF (msh : MshSct) (f : Nat × Nat) : Option (Nat × Nat) :=
  (facetsFromTo 1 msh.NmbTet).find? fun g =>
    decide (g ≠ f) && decide (tripF msh g = tripF msh f)

/-- Specification-side adjacency: the partner tet id, or 0 on a boundary
face. -/
def AdjOf (msh : MshSct) (f : Nat × Nat) : Nat :=
  match mateF msh f with
  | some g => g.1
  | none => 0

/-- Facet f has a partner with the same canonical triple inside the list P. -/
def MatedIn (msh : MshSct) (P : List (Nat × Nat)) (f : Nat × Nat) : Prop :=
  ∃ g ∈ P, g ≠ f ∧ tripF msh g = tripF msh f

/-- Decidability of in-list matchedness. -/
instance (msh : MshSct) (P : List (Nat × Nat)) (f : Nat × Nat) :
    Decidable (MatedIn msh P f) := by
  unfold MatedIn; infer_instance

/-- Number of faces of tet i matched within the processed list P; FlgTab[i]
holds exactly this count during phase one. -/
def mCnt (msh : MshSct) (P : List (Nat × Nat)) (i : Nat) : Nat :=
  (List.range 4).countP fun j => decide ((i, j) ∈ P ∧ MatedIn msh P (i, j))

/-- The facet list of worker c's subdomain. -/
def Fw (msh : MshSct) (N c : Nat) : List (Nat × Nat) :=
  facetsFromTo (begOf msh.NmbTet N c) (endOf msh.NmbTet N c)

/-- State after the first n workers of phase one have run, under the
sequential launch model. -/
def p1run (msh : MshSct) (N H n : Nat) : GSt :=
  (List.range n).foldl
    (fun st c => ParNgb1 msh H (begOf msh.NmbTet N c) (endOf msh.NmbTet N c) c st)
    (initSt H)

/-- State after the first n workers of phase two have run from st, under
the sequential launch model. -/
def p2run (msh : MshSct) (N H n : Nat) (st : GSt) : GSt :=
  (List.range n).foldl
    (fun st c => ParNgb2 msh H N (begOf msh.NmbTet N c) (endOf msh.NmbTet N c) c st)
    st

/-- Phase-one bookkeeping invariant of the shared NgbTab and FlgTab tables
relative to the worker's start state st0, after the worker has processed
the facet list P: matched pairs are mutually linked, untouched and
unmatched facets keep their start values, and every tet's flag counts its
matched faces. -/
structure MInv (msh : MshSct) (st0 : GSt) (P : List (Nat × Nat)) (st : GSt) : Prop where
  ngbM : ∀ f ∈ P, ∀ g ∈ P, g ≠ f → tripF msh g = tripF msh f → st.NgbTab f = g.1
  ngbOut : ∀ f, f ∉ P → st.NgbTab f = st0.NgbTab f
  ngbUnm : ∀ f ∈ P, (∀ g ∈ P, g ≠ f → tripF msh g ≠ tripF msh f) →
    st.NgbTab f = st0.NgbTab f
  flg : ∀ i, st.FlgTab i = st0.FlgTab i + mCnt msh P i

/-- Invariant of one worker's hash table after processing the facet list P:
slots beyond the cursor are untouched, overflow slots below it are
occupied, every entry records the canonical positions of a processed
facet, entries are pairwise distinct facets, nex links increase and stay
below the cursor, and every entry is chained from its primary bucket. -/
structure TabInv (msh : MshSct) (H : Nat) (tb : Nat → HshSct) (col : Nat)
    (P : List (Nat × Nat)) : Prop where
  colH : H ≤ col
  zeroBeyond : ∀ s, col ≤ s → tb s = HshSct.zero
  occBetween : ∀ s, H ≤ s → s < col → (tb s).tet ≠ 0
  content : ∀ s, (tb s).tet ≠ 0 →
    ((tb s).tet, (tb s).voy) ∈ P ∧
    (tb s).min = (canonMM (msh.tet (tb s).tet) (tb s).voy).1 ∧
    (tb s).mid = canonMid (msh.tet (tb s).tet) (tb s).voy ∧
    (tb s).max = (canonMM (msh.tet (tb s).tet) (tb s).voy).2
  inj : ∀ s s', (tb s).tet ≠ 0 → (tb s').tet ≠ 0 →
    (tb s).tet = (tb s').tet → (tb s).voy = (tb s').voy → s = s'
  nexLink : ∀ s, (tb s).nex ≠ 0 →
    (tb s).tet ≠ 0 ∧ s < (tb s).nex ∧ H ≤ (tb s).nex ∧ (tb s).nex < col
  emptyNex : ∀ s, (tb s).tet = 0 → (tb s).nex = 0
  emptyZero : ∀ s, (tb s).tet = 0 → tb s = HshSct.zero
  reach : ∀ s, (tb s).tet ≠ 0 →
    SufReach tb (hshKey H (msh.tet (tb s).tet) (tb s).voy) s

-- ===================== theorems =====================

section Projections

@[simp] theorem setTab_tab (st : GSt) (c s : Nat) (e : HshSct) :
    (setTab st c s e).tab = Function.update st.tab c (Function.update (st.tab c) s e) := rfl

@[simp] theorem setTab_ColPos (st : GSt) (c s : Nat) (e : HshSct) :
    (setTab st c s e).ColPos = st.ColPos := rfl

@[simp] theorem setTab_NgbTab (st : GSt) (c s : Nat) (e : HshSct) :
    (setTab st c s e).NgbTab = st.NgbTab := rfl

@[simp] theorem setTab_FlgTab (st : GSt) (c s : Nat) (e : HshSct) :
    (setTab st c s e).FlgTab = st.FlgTab := rfl

@[simp] theorem setTab_visP (st : GSt) (c s : Nat) (e : HshSct) :
    (setTab st c s e).visP = st.visP := rfl

@[simp] theorem setTab_visC (st : GSt) (c s : Nat) (e : HshSct) :
    (setTab st c s e).visC = st.visC := rfl

@[simp] theorem setNgb_tab (st : GSt) (i j m : Nat) : (setNgb st i j m).tab = st.tab := rfl

@[simp] theorem setNgb_ColPos (st : GSt) (i j m : Nat) :
    (setNgb st i j m).ColPos = st.ColPos := rfl

@[simp] theorem setNgb_NgbTab (st : GSt) (i j m : Nat) :
    (setNgb st i j m).NgbTab = Function.update st.NgbTab (i, j) m := rfl

@[simp] theorem setNgb_FlgTab (st : GSt) (i j m : Nat) :
    (setNgb st i j m).FlgTab = st.FlgTab := rfl

@[simp] theorem setNgb_visP (st : GSt) (i j m : Nat) : (setNgb st i j m).visP = st.visP := rfl

@[simp] theorem setNgb_visC (st : GSt) (i j m : Nat) : (setNgb st i j m).visC = st.visC := rfl

@[simp] theorem incFlg_tab (st : GSt) (i : Nat) : (incFlg st i).tab = st.tab := rfl

@[simp] theorem incFlg_ColPos (st : GSt) (i : Nat) : (incFlg st i).ColPos = st.ColPos := rfl

@[simp] theorem incFlg_NgbTab (st : GSt) (i : Nat) : (incFlg st i).NgbTab = st.NgbTab := rfl

@[simp] theorem incFlg_FlgTab (st : GSt) (i : Nat) :
    (incFlg st i).FlgTab = Function.update st.FlgTab i (st.FlgTab i + 1) := rfl

@[simp] theorem incFlg_visP (st : GSt) (i : Nat) : (incFlg st i).visP = st.visP := rfl

@[simp] theorem incFlg_visC (st : GSt) (i : Nat) : (incFlg st i).visC = st.visC := rfl

@[simp] theorem pushP_tab (st : GSt) (v : Nat) : (pushP st v).tab = st.tab := rfl

@[simp] theorem pushP_ColPos (st : GSt) (v : Nat) : (pushP st v).ColPos = st.ColPos := rfl

@[simp] theorem pushP_NgbTab (st : GSt) (v : Nat) : (pushP st v).NgbTab = st.NgbTab := rfl

@[simp] theorem pushP_FlgTab (st : GSt) (v : Nat) : (pushP st v).FlgTab = st.FlgTab := rfl

@[simp] theorem pushC_tab (st : GSt) (v : Nat) : (pushC st v).tab = st.tab := rfl

@[simp] theorem pushC_ColPos (st : GSt) (v : Nat) : (pushC st v).ColPos = st.ColPos := rfl

@[simp] theorem pushC_NgbTab (st : GSt) (v : Nat) : (pushC st v).NgbTab = st.NgbTab := rfl

@[simp] theorem pushC_FlgTab (st : GSt) (v : Nat) : (pushC st v).FlgTab = st.FlgTab := rfl

@[simp] theorem pushP_visP (st : GSt) (v : Nat) : (pushP st v).visP = v :: st.visP := rfl

@[simp] theorem pushP_visC (st : GSt) (v : Nat) : (pushP st v).visC = st.visC := rfl

@[simp] theorem pushC_visP (st : GSt) (v : Nat) : (pushC st v).visP = st.visP := rfl

@[simp] theorem pushC_visC (st : GSt) (v : Nat) : (pushC st v).visC = v :: st.visC := rfl

end Projections



/-- One scan step preserves the min/max invariant over the set of visited
positions. -/
theorem canonStep_inv (t : TetSct) (j k : Nat) (mm : Nat × Nat) (S : Nat → Prop)
    (h1 : S mm.1) (h2 : S mm.2)
    (hmin : ∀ l, S l → t.idx mm.1 ≤ t.idx l)
    (hmax : ∀ l, S l → t.idx l ≤ t.idx mm.2) :
    (S (canonStep t j mm k).1 ∨ (k ≠ j ∧ (canonStep t j mm k).1 = k)) ∧
    (S (canonStep t j mm k).2 ∨ (k ≠ j ∧ (canonStep t j mm k).2 = k)) ∧
    (∀ l, S l ∨ (k ≠ j ∧ l = k) → t.idx (canonStep t j mm k).1 ≤ t.idx l) ∧
    (∀ l, S l ∨ (k ≠ j ∧ l = k) → t.idx l ≤ t.idx (canonStep t j mm k).2) := by
  have h12 : t.idx mm.1 ≤ t.idx mm.2 := hmax mm.1 h1
  unfold canonStep
  split_ifs with hkj hlt hgt
  · exact ⟨Or.inl h1, Or.inl h2,
      fun l hl => hmin l (hl.resolve_right fun h => absurd hkj h.1),
      fun l hl => hmax l (hl.resolve_right fun h => absurd hkj h.1)⟩
  · refine ⟨Or.inr ⟨hkj, rfl⟩, Or.inl h2, fun l hl => ?_, fun l hl => ?_⟩
    · rcases hl with hl | ⟨_, rfl⟩
      · exact le_trans (le_of_lt hlt) (hmin l hl)
      · exact le_refl _
    · rcases hl with hl | ⟨_, rfl⟩
      · exact hmax l hl
      · exact le_trans (le_of_lt hlt) h12
  · refine ⟨Or.inl h1, Or.inr ⟨hkj, rfl⟩, fun l hl => ?_, fun l hl => ?_⟩
    · rcases hl with hl | ⟨_, rfl⟩
      · exact hmin l hl
      · exact le_trans h12 (le_of_lt hgt)
    · rcases hl with hl | ⟨_, rfl⟩
      · exact le_trans (hmax l hl) (le_of_lt hgt)
      · exact le_refl _
  · refine ⟨Or.inl h1, Or.inl h2, fun l hl => ?_, fun l hl => ?_⟩
    · rcases hl with hl | ⟨_, rfl⟩
      · exact hmin l hl
      · exact le_of_not_lt hlt
    · rcases hl with hl | ⟨_, rfl⟩
      · exact hmax l hl
      · exact le_of_not_lt hgt

/-- After the whole scan, min and max are face positions realizing the
smallest and largest vertex index of the face opposite position j. -/
theorem canonMM_bounds (t : TetSct) (j : Nat) (hj : j < 4) :
    ((canonMM t j).1 < 4 ∧ (canonMM t j).1 ≠ j) ∧
    ((canonMM t j).2 < 4 ∧ (canonMM t j).2 ≠ j) ∧
    (∀ l, l < 4 → l ≠ j → t.idx (canonMM t j).1 ≤ t.idx l ∧ t.idx l ≤ t.idx (canonMM t j).2) := by
  set m := (j + 1) % 4 with hm
  have hstep0 := canonStep_inv t j 0 (m, m) (fun l => l = m)
    rfl rfl (fun l hl => by rw [hl]) (fun l hl => by rw [hl])
  have hstep1 := canonStep_inv t j 1 (canonStep t j (m, m) 0)
    (fun l => (l = m) ∨ (0 ≠ j ∧ l = 0))
    hstep0.1 hstep0.2.1 hstep0.2.2.1 hstep0.2.2.2
  have hstep2 := canonStep_inv t j 2 (canonStep t j (canonStep t j (m, m) 0) 1)
    (fun l => ((l = m) ∨ (0 ≠ j ∧ l = 0)) ∨ (1 ≠ j ∧ l = 1))
    hstep1.1 hstep1.2.1 hstep1.2.2.1 hstep1.2.2.2
  have hstep3 := canonStep_inv t j 3
    (canonStep t j (canonStep t j (canonStep t j (m, m) 0) 1) 2)
    (fun l => (((l = m) ∨ (0 ≠ j ∧ l = 0)) ∨ (1 ≠ j ∧ l = 1)) ∨ (2 ≠ j ∧ l = 2))
    hstep2.1 hstep2.2.1 hstep2.2.2.1 hstep2.2.2.2
  have heq : canonMM t j
      = canonStep t j (canonStep t j (canonStep t j (canonStep t j (m, m) 0) 1) 2) 3 := rfl
  rw [heq]
  obtain ⟨f1, f2, fmin, fmax⟩ := hstep3
  have hset : ∀ l : Nat,
      ((((l = m ∨ (0 ≠ j ∧ l = 0)) ∨ (1 ≠ j ∧ l = 1)) ∨ (2 ≠ j ∧ l = 2)) ∨ (3 ≠ j ∧ l = 3))
      ↔ (l < 4 ∧ l ≠ j) := by
    intro l
    omega
  refine ⟨?_, ?_, fun l hl4 hlj => ?_⟩
  · exact (hset _).mp f1
  · exact (hset _).mp f2
  · exact ⟨fmin l ((hset l).mpr ⟨hl4, hlj⟩), fmax l ((hset l).mpr ⟨hl4, hlj⟩)⟩

/-- The canonical scan of ParNgb1/ParNgb2: for a tet with pairwise distinct
vertex indices the computed positions min, mid, max together with j are
four distinct positions in 0..3, min holds the smallest and max the largest
vertex index of the face opposite j, and mid the remaining one. -/
theorem canon_props (t : TetSct) (j : Nat) (hj : j < 4) (hd : TetDistinct t) :
    ((canonMM t j).1 < 4 ∧ (canonMM t j).2 < 4 ∧ canonMid t j < 4) ∧
    ((canonMM t j).1 ≠ j ∧ (canonMM t j).2 ≠ j ∧ canonMid t j ≠ j) ∧
    ((canonMM t j).1 ≠ (canonMM t j).2 ∧ (canonMM t j).1 ≠ canonMid t j ∧
      canonMid t j ≠ (canonMM t j).2) ∧
    (∀ k < 4, k ≠ j → t.idx (canonMM t j).1 ≤ t.idx k ∧ t.idx k ≤ t.idx (canonMM t j).2) := by
  obtain ⟨⟨hmn4, hmnj⟩, ⟨hmx4, hmxj⟩, hspan⟩ := canonMM_bounds t j hj
  have hne : (canonMM t j).1 ≠ (canonMM t j).2 := by
    intro hpe
    obtain ⟨l, hl4, hlj, hlp⟩ : ∃ l, l < 4 ∧ l ≠ j ∧ l ≠ (canonMM t j).1 := by
      refine ⟨if j = 0 then (if (canonMM t j).1 = 1 then 2 else 1)
        else (if (canonMM t j).1 = 0 then (if j = 1 then 2 else 1) else 0), ?_, ?_, ?_⟩ <;>
        split_ifs <;> omega
    have hle := hspan l hl4 hlj
    rw [← hpe] at hle
    exact hd (canonMM t j).1 hmn4 l hl4 (fun h => hlp h.symm) (le_antisymm hle.1 hle.2)
  have hmid : canonMid t j = 6 - (canonMM t j).1 - (canonMM t j).2 - j := rfl
  refine ⟨⟨hmn4, hmx4, by omega⟩, ⟨hmnj, hmxj, by omega⟩, ⟨hne, by omega, by omega⟩,
    fun k hk4 hkj => hspan k hk4 hkj⟩

/-- C4: for a tet with pairwise distinct vertex indices and a face position
j in 0..3, the scan of ParNgb1 (identical in ParNgb2) computes min and max
with tet.idx[min] the smallest and tet.idx[max] the largest vertex index of
the face opposite j, and mid = 6 - min - max - j is the remaining face
position in 0..3, distinct from j, min and max, holding the middle vertex
index. -/
theorem C4_canonicalization (t : TetSct) (j : Nat) (hj : j < 4) (hd : TetDistinct t) :
    (∀ k < 4, k ≠ j → t.idx (canonMM t j).1 ≤ t.idx k ∧ t.idx k ≤ t.idx (canonMM t j).2) ∧
    canonMid t j = 6 - (canonMM t j).1 - (canonMM t j).2 - j ∧
    (canonMid t j < 4 ∧ canonMid t j ≠ j ∧ canonMid t j ≠ (canonMM t j).1 ∧
      canonMid t j ≠ (canonMM t j).2) ∧
    (t.idx (canonMM t j).1 < t.idx (canonMid t j) ∧
      t.idx (canonMid t j) < t.idx (canonMM t j).2) := by
  obtain ⟨⟨h1, h2, h3⟩, ⟨h4, h5, h6⟩, ⟨h7, h8, h9⟩, hspan⟩ := canon_props t j hj hd
  have hmd := hspan (canonMid t j) h3 h6
  refine ⟨fun k hk hkj => hspan k hk hkj, rfl, ⟨h3, h6, fun h => h8 h.symm, h9⟩, ?_, ?_⟩
  · exact lt_of_le_of_ne hmd.1 (hd _ h1 _ h3 h8)
  · exact lt_of_le_of_ne hmd.2 (hd _ h3 _ h2 h9)

/-- Witness for C4 at a concrete tet and face. -/
theorem C4_witness :
    (2 < 4 ∧ TetDistinct (tet4 7 3 9 5 0)) ∧
    canonMid (tet4 7 3 9 5 0) 2
      = 6 - (canonMM (tet4 7 3 9 5 0) 2).1 - (canonMM (tet4 7 3 9 5 0) 2).2 - 2 :=
  ⟨⟨by decide, by decide⟩,
    (C4_canonicalization (tet4 7 3 9 5 0) 2 (by decide) (by decide)).2.1⟩

/-- Fuel-based clog2go finds an exponent whose power bounds m, provided the
fuel-extended range contains one. -/
theorem clog2go_le (fuel : Nat) : ∀ (m d : Nat), m ≤ 2 ^ (d + fuel) →
    m ≤ 2 ^ clog2go fuel m d := by
  induction fuel with
  | zero => intro m d h; simpa using h
  | succ fuel ih =>
    intro m d h
    show m ≤ 2 ^ (if m ≤ 2 ^ d then d else clog2go fuel m (d + 1))
    split_ifs with hle
    · exact hle
    · refine ih m (d + 1) ?_
      have he : d + (fuel + 1) = (d + 1) + fuel := by omega
      rwa [he] at h

/-- clog2go never overshoots an admissible exponent at or above its start. -/
theorem clog2go_min (fuel : Nat) : ∀ (m d e : Nat), d ≤ e → m ≤ 2 ^ e →
    clog2go fuel m d ≤ e := by
  induction fuel with
  | zero => intro m d e hde _; exact hde
  | succ fuel ih =>
    intro m d e hde he
    show (if m ≤ 2 ^ d then d else clog2go fuel m (d + 1)) ≤ e
    split_ifs with hle
    · exact hde
    · refine ih m (d + 1) e ?_ he
      rcases Nat.eq_or_lt_of_le hde with rfl | h
      · exact absurd he hle
      · omega

/-- m is at most 2 ^ ceilLog2 m. -/
theorem ceilLog2_le (m : Nat) : m ≤ 2 ^ ceilLog2 m :=
  clog2go_le m m 0 (by simpa using Nat.le_of_lt (Nat.lt_two_pow m))

/-- ceilLog2 m is the least exponent whose power reaches m. -/
theorem ceilLog2_min (m e : Nat) (h : m ≤ 2 ^ e) : ceilLog2 m ≤ e :=
  clog2go_min m m 0 e (Nat.zero_le e) h

/-- Ceiling division adjunction: (a + N - 1) / N ≤ s iff a ≤ N * s. -/
theorem ceilDiv_le_iff (a N s : Nat) (hN : 0 < N) : (a + N - 1) / N ≤ s ↔ a ≤ N * s := by
  rw [Nat.div_le_iff_le_mul_add_pred hN]
  omega

/-- C5 (amended): HshSiz is a power of two, the smallest one strictly
greater than 2*NmbTet/NmbCpu (that is, at least 1 + 2*NmbTet/NmbCpu, the
argument of the C code's log2), and the masked hash key equals the mod-H
reduction of 31*vmin + 7*vmid + 3*vmax. The original claim's bound
2*NmbTet/NmbCpu fails: see the counterexample. -/
theorem C5_hash_size_and_key (T N : Nat) (hN : 1 ≤ N) :
    (∃ d, hshSiz T N = 2 ^ d) ∧
    2 * T ≤ N * (hshSiz T N - 1) ∧
    (∀ d, 2 * T ≤ N * (2 ^ d - 1) → hshSiz T N ≤ 2 ^ d) ∧
    (∀ t j, hshKey (hshSiz T N) t j
        = (31 * t.idx (canonMM t j).1 + 7 * t.idx (canonMid t j)
            + 3 * t.idx (canonMM t j).2) % hshSiz T N) := by
  have hNpos : 0 < N := hN
  have hpow : hshSiz T N = 2 ^ ceilLog2 (1 + (2 * T + N - 1) / N) := rfl
  have hle := ceilLog2_le (1 + (2 * T + N - 1) / N)
  refine ⟨⟨_, hpow⟩, ?_, ?_, ?_⟩
  · rw [← (ceilDiv_le_iff (2 * T) N (hshSiz T N - 1) hNpos)]
    have h1 : (1 : Nat) ≤ hshSiz T N := by
      rw [hpow]; exact Nat.one_le_two_pow
    omega
  · intro d hd
    rw [← (ceilDiv_le_iff (2 * T) N (2 ^ d - 1) hNpos)] at hd
    have h2 : (1 : Nat) ≤ 2 ^ d := Nat.one_le_two_pow
    have h3 : 1 + (2 * T + N - 1) / N ≤ 2 ^ d := by omega
    rw [hpow]
    exact Nat.pow_le_pow_right (by omega) (ceilLog2_min _ d h3)
  · intro t j
    rw [hshKey, hpow, Nat.and_pow_two_sub_one_eq_mod]

/-- Witness for C5 (amended) at T = 5, N = 2 (HshSiz there is 8). -/
theorem C5_witness :
    1 ≤ 2 ∧ 2 * 5 ≤ 2 * (hshSiz 5 2 - 1) :=
  ⟨by decide, (C5_hash_size_and_key 5 2 (by decide)).2.1⟩

/-- C5 counterexample: for NmbTet = 4, NmbCpu = 1 the smallest power of two
at or above 2*NmbTet/NmbCpu = 8 is 8 itself, but the code computes
ceil(log2(1 + 8)) = 4 and HshSiz = 16, so HshSiz is not that smallest
power. -/
theorem C5_counterexample :
    hshSiz 4 1 = 16 ∧ (2 : Nat) ^ 3 = 8 ∧ 2 * 4 / 1 ≤ 8 ∧ (8 : Nat) < hshSiz 4 1 := by
  decide

/-- Two distinct workers, the smaller one not being the last, cannot both
contain a tet index (their ranges are separated by the block arithmetic). -/
theorem ranges_disjoint (T N x c1 c2 : Nat) (hx : 1 ≤ x) (hlt : c1 < c2) (hc2 : c2 < N)
    (he1 : x ≤ endOf T N c1) (hb2 : begOf T N c2 ≤ x) : False := by
  have hc1 : c1 ≠ N - 1 := by omega
  have he : endOf T N c1 = (c1 + 1) * (T / N) := by
    simp only [endOf, if_neg hc1]
  have hmul : (c1 + 1) * (T / N) ≤ c2 * (T / N) := Nat.mul_le_mul_right _ (by omega)
  have hb : begOf T N c2 = c2 * (T / N) + 1 := rfl
  rw [he] at he1
  rw [hb] at hb2
  have hxB : x ≤ c2 * (T / N) := le_trans he1 hmul
  have hBx : c2 * (T / N) < x := lt_of_lt_of_le (Nat.lt_succ_self _) hb2
  exact absurd hxB (not_le.mpr hBx)

/-- C6: for NmbTet >= 1 and 1 <= NmbCpu <= 128 the subdomain ranges set up
by SetNgb cover every tet index in 1..NmbTet exactly once: each index lies
in the range of one and only one worker. -/
theorem C6_subdomain_partition (T N : Nat) (hT : 1 ≤ T) (hN1 : 1 ≤ N) (hN128 : N ≤ 128) :
    ∀ x, 1 ≤ x → x ≤ T → ∃! c, c < N ∧ begOf T N c ≤ x ∧ x ≤ endOf T N c := by
  intro x hx1 hxT
  have hend : endOf T N (N - 1) = T := by simp [endOf]
  have hex : ∃ c, c < N ∧ begOf T N c ≤ x ∧ x ≤ endOf T N c := by
    obtain ⟨q, hq⟩ : ∃ q, T / N = q := ⟨_, rfl⟩
    obtain ⟨c0, hc0⟩ : ∃ c0, (x - 1) / q = c0 := ⟨_, rfl⟩
    obtain ⟨r, hr⟩ : ∃ r, (x - 1) % q = r := ⟨_, rfl⟩
    have hbg : ∀ c, begOf T N c = c * q + 1 := fun c => by
      show c * (T / N) + 1 = c * q + 1
      rw [hq]
    have henn : ∀ c, c ≠ N - 1 → endOf T N c = c * q + q := fun c hc => by
      have h1 : endOf T N c = (c + 1) * (T / N) := by simp only [endOf, if_neg hc]
      rw [h1, hq]
      ring
    have hF1 : c0 * q ≤ x - 1 := by
      rw [← hc0]
      exact Nat.div_mul_le_self _ _
    by_cases hq0 : q = 0
    · refine ⟨N - 1, by omega, ?_, by rw [hend]; exact hxT⟩
      rw [hbg, hq0]
      omega
    · have hdm : q * c0 + r = x - 1 := by
        rw [← hc0, ← hr]
        exact Nat.div_add_mod _ _
      have hmlt : r < q := by
        rw [← hr]
        exact Nat.mod_lt _ (Nat.pos_of_ne_zero hq0)
      have hcm : q * c0 = c0 * q := Nat.mul_comm _ _
      by_cases hle : c0 ≤ N - 1
      · refine ⟨c0, by omega, ?_, ?_⟩
        · rw [hbg]
          omega
        · by_cases hcN : c0 = N - 1
          · rw [hcN, hend]; exact hxT
          · rw [henn c0 hcN]
            omega
      · push_neg at hle
        have h2 : (N - 1) * q ≤ c0 * q := Nat.mul_le_mul_right _ (by omega)
        refine ⟨N - 1, by omega, ?_, by rw [hend]; exact hxT⟩
        rw [hbg]
        omega
  obtain ⟨c, hc⟩ := hex
  refine ⟨c, hc, fun c' hc' => ?_⟩
  rcases Nat.lt_trichotomy c' c with h | h | h
  · exact (ranges_disjoint T N x c' c hx1 h hc.1 hc'.2.2 hc.2.1).elim
  · exact h
  · exact (ranges_disjoint T N x c c' hx1 h hc'.1 hc.2.2 hc'.2.1).elim

/-- Witness for C6 at T = 10, N = 3, x = 7. -/
theorem C6_witness :
    (1 ≤ 10 ∧ 1 ≤ 3 ∧ 3 ≤ 128 ∧ 1 ≤ 7 ∧ 7 ≤ 10) ∧
    (∃! c, c < 3 ∧ begOf 10 3 c ≤ 7 ∧ 7 ≤ endOf 10 3 c) :=
  ⟨⟨by decide, by decide, by decide, by decide, by decide⟩,
    C6_subdomain_partition 10 3 (by decide) (by decide) (by decide) 7 (by decide) (by decide)⟩

/-- Left fold that appends on a predicate equals the filtered map. -/
theorem foldl_append_filter {α β : Type} (p : α → Bool) (g : α → β) :
    ∀ (L : List α) (acc : List β),
      L.foldl (fun a f => if p f then a ++ [g f] else a) acc
        = acc ++ (L.filter p).map g := by
  intro L
  induction L with
  | nil => intro acc; simp
  | cons f L ih =>
    intro acc
    by_cases hp : p f
    · simp [hp, ih, List.filter_cons]
    · simp [hp, ih, List.filter_cons]

/-- C1: the boundary-extraction loop of SetNgb emits one triangle exactly
for the facets satisfying the emission predicate (no neighbour, or a
neighbour of different reference with smaller id), in loop order, with
vertices taken through tvpf and reference 0 for external and 1 for
interface faces; NmbTri is the number of such facets. -/
theorem C1_boundary_extraction (msh : MshSct) (N : Nat) :
    (SetNgb msh N).2
      = ((facetsFromTo 1 msh.NmbTet).filter (triPred msh (SetNgb msh N).1.NgbTab)).map
          (mkTri msh (SetNgb msh N).1.NgbTab) ∧
    (SetNgb msh N).2.length
      = ((facetsFromTo 1 msh.NmbTet).countP (triPred msh (SetNgb msh N).1.NgbTab)) := by
  have h1 : (SetNgb msh N).2 = extract msh (SetNgb msh N).1.NgbTab := rfl
  have h2 := foldl_append_filter (triPred msh (SetNgb msh N).1.NgbTab)
    (mkTri msh (SetNgb msh N).1.NgbTab) (facetsFromTo 1 msh.NmbTet) []
  rw [h1, extract, h2]
  simp [List.countP_eq_length_filter]

/-- C9 counterexample: on scenario S3 run with one worker the adjacency is
mutual, but the single reference-1 interface triangle is emitted from the
tet with the LARGER id: the emission predicate is false at facet (1,3) of
tet 1 and true at facet (2,3) of tet 2, and the reference-1 triangle is
the last of the seven, built from tet 2's index table. -/
theorem C9_counterexample :
    (SetNgb mshS3 1).1.NgbTab (1, 3) = 2 ∧
    (SetNgb mshS3 1).1.NgbTab (2, 3) = 1 ∧
    (mshS3.tet 1).ref ≠ (mshS3.tet 2).ref ∧
    triPred mshS3 (SetNgb mshS3 1).1.NgbTab (1, 3) = false ∧
    triPred mshS3 (SetNgb mshS3 1).1.NgbTab (2, 3) = true ∧
    ((SetNgb mshS3 1).2.filter (fun t => t.ref == 1)).length = 1 ∧
    (SetNgb mshS3 1).2.getLast? = some (mkTri mshS3 (SetNgb mshS3 1).1.NgbTab (2, 3)) := by
  decide

/-- C9 (amended): scenario S3 yields mutual adjacency entries and exactly
one interface triangle of reference 1, emitted from the tet with the
larger id (tet 2), whose vertices (1,3,2) are read from tet 2's index
table through tvpf. -/
theorem C9_amended :
    (SetNgb mshS3 1).1.NgbTab (1, 3) = 2 ∧
    (SetNgb mshS3 1).1.NgbTab (2, 3) = 1 ∧
    ((SetNgb mshS3 1).2.filter (fun t => t.ref == 1))
      = [{ v0 := 1, v1 := 3, v2 := 2, ref := 1 }] ∧
    mkTri mshS3 (SetNgb mshS3 1).1.NgbTab (2, 3) = { v0 := 1, v1 := 3, v2 := 2, ref := 1 } := by
  decide

/-- C7 counterexample: with NmbTet = 3 and NmbCpu = 6, HshSiz is 2 and the
last worker (id 5) owns all three pairwise disjoint tets; its twelve facet
insertions drive its ColPos to 12, reaching and passing 5*HshSiz = 10, so
the overflow cursor does overrun the 5H allocated slots. -/
theorem C7_counterexample :
    hshSiz 3 6 = 2 ∧ begOf 3 6 5 = 1 ∧ endOf 3 6 5 = 3 ∧
    (SetNgb mshDisj3 6).1.ColPos 5 = 12 ∧
    5 * hshSiz 3 6 = 10 := by
  decide

/-- Phase-two chain walk frame: apart from ghost logs it can write only
NgbTab[i][j]; tables, cursors and flags are untouched. -/
theorem p2walk_frame (msh : MshSct) (n i j mn md mx : Nat) :
    ∀ (fuel key : Nat) (first : Bool) (st : GSt),
      (p2walk msh n i j mn md mx fuel key first st).1.tab = st.tab ∧
      (p2walk msh n i j mn md mx fuel key first st).1.ColPos = st.ColPos ∧
      (p2walk msh n i j mn md mx fuel key first st).1.FlgTab = st.FlgTab ∧
      ∀ f' : Nat × Nat, f' ≠ (i, j) →
        (p2walk msh n i j mn md mx fuel key first st).1.NgbTab f' = st.NgbTab f' := by
  intro fuel
  induction fuel with
  | zero => intro key first st; exact ⟨rfl, rfl, rfl, fun _ _ => rfl⟩
  | succ fuel ih =>
    intro key first st
    rcases htab : st.tab n key with ⟨et, ev, emn, emd, emx, enex⟩
    have hst1tab : (if first then pushP st et else pushC st et).tab = st.tab := by
      cases first <;> simp
    have hst1Col : (if first then pushP st et else pushC st et).ColPos = st.ColPos := by
      cases first <;> simp
    have hst1Flg : (if first then pushP st et else pushC st et).FlgTab = st.FlgTab := by
      cases first <;> simp
    have hst1Ngb : (if first then pushP st et else pushC st et).NgbTab = st.NgbTab := by
      cases first <;> simp
    by_cases hm : (msh.tet et).idx emn = (msh.tet i).idx mn
        ∧ (msh.tet et).idx emd = (msh.tet i).idx md
        ∧ (msh.tet et).idx emx = (msh.tet i).idx mx
    · have heq : p2walk msh n i j mn md mx (fuel + 1) key first st
          = (setNgb (if first then pushP st et else pushC st et) i j et, true) := by
        simp only [p2walk, htab, if_pos hm]
      rw [heq]
      refine ⟨by simp [hst1tab], by simp [hst1Col], by simp [hst1Flg], fun f' hf' => ?_⟩
      simp only [setNgb_NgbTab, hst1Ngb]
      exact Function.update_noteq hf' _ _
    · by_cases hn : enex ≠ 0
      · have heq : p2walk msh n i j mn md mx (fuel + 1) key first st
            = p2walk msh n i j mn md mx fuel enex false
                (if first then pushP st et else pushC st et) := by
          simp only [p2walk, htab, if_neg hm, if_pos hn]
        rw [heq]
        obtain ⟨a1, a2, a3, a4⟩ := ih enex false (if first then pushP st et else pushC st et)
        exact ⟨a1.trans hst1tab, a2.trans hst1Col, a3.trans hst1Flg,
          fun f' hf' => (a4 f' hf').trans (by rw [hst1Ngb])⟩
      · have heq : p2walk msh n i j mn md mx (fuel + 1) key first st
            = ((if first then pushP st et else pushC st et), false) := by
          simp only [p2walk, htab, if_neg hm, if_neg hn]
        rw [heq]
        exact ⟨hst1tab, hst1Col, hst1Flg, fun f' _ => by rw [hst1Ngb]⟩

/-- Probe-loop frame: same footprint as the walks it runs. -/
theorem p2probe_frame (msh : MshSct) (c i j mn md mx key : Nat) :
    ∀ (ns : List Nat) (st : GSt),
      (p2probe msh c i j mn md mx key ns st).tab = st.tab ∧
      (p2probe msh c i j mn md mx key ns st).ColPos = st.ColPos ∧
      (p2probe msh c i j mn md mx key ns st).FlgTab = st.FlgTab ∧
      ∀ f' : Nat × Nat, f' ≠ (i, j) →
        (p2probe msh c i j mn md mx key ns st).NgbTab f' = st.NgbTab f' := by
  intro ns
  induction ns with
  | nil => intro st; exact ⟨rfl, rfl, rfl, fun _ _ => rfl⟩
  | cons n ns ih =>
    intro st
    by_cases hnc : n = c
    · have heq : p2probe msh c i j mn md mx key (n :: ns) st
          = p2probe msh c i j mn md mx key ns st := by
        simp only [p2probe, if_pos hnc]
      rw [heq]
      exact ih st
    · obtain ⟨w1, w2, w3, w4⟩ := p2walk_frame msh n i j mn md mx (st.ColPos n + 1) key true st
      by_cases hflg : (p2walk msh n i j mn md mx (st.ColPos n + 1) key true st).2 = true
      · have heq : p2probe msh c i j mn md mx key (n :: ns) st
            = (p2walk msh n i j mn md mx (st.ColPos n + 1) key true st).1 := by
          simp only [p2probe, if_neg hnc, if_pos hflg]
        rw [heq]
        exact ⟨w1, w2, w3, w4⟩
      · have heq : p2probe msh c i j mn md mx key (n :: ns) st
            = p2probe msh c i j mn md mx key ns
                (p2walk msh n i j mn md mx (st.ColPos n + 1) key true st).1 := by
          simp only [p2probe, if_neg hnc, if_neg hflg]
        rw [heq]
        obtain ⟨b1, b2, b3, b4⟩ :=
          ih (p2walk msh n i j mn md mx (st.ColPos n + 1) key true st).1
        exact ⟨b1.trans w1, b2.trans w2, b3.trans w3,
          fun f' hf' => (b4 f' hf').trans (w4 f' hf')⟩

/-- Per-face frame of phase two: only NgbTab at that very facet can move. -/
theorem p2face_frame (msh : MshSct) (H N c : Nat) (st : GSt) (f : Nat × Nat) :
    (p2face msh H N c st f).tab = st.tab ∧
    (p2face msh H N c st f).ColPos = st.ColPos ∧
    (p2face msh H N c st f).FlgTab = st.FlgTab ∧
    ∀ f' : Nat × Nat, f' ≠ f →
      (p2face msh H N c st f).NgbTab f' = st.NgbTab f' := by
  by_cases hngb : st.NgbTab (f.1, f.2) ≠ 0
  · have heq : p2face msh H N c st f = st := by
      simp only [p2face, if_pos hngb]
    rw [heq]
    exact ⟨rfl, rfl, rfl, fun _ _ => rfl⟩
  · have heq : p2face msh H N c st f
        = p2probe msh c f.1 f.2 (canonMM (msh.tet f.1) f.2).1 (canonMid (msh.tet f.1) f.2)
            (canonMM (msh.tet f.1) f.2).2 (hshKey H (msh.tet f.1) f.2) (List.range N) st := by
      simp only [p2face, if_neg hngb]
    rw [heq]
    obtain ⟨a1, a2, a3, a4⟩ := p2probe_frame msh c f.1 f.2 (canonMM (msh.tet f.1) f.2).1
      (canonMid (msh.tet f.1) f.2) (canonMM (msh.tet f.1) f.2).2
      (hshKey H (msh.tet f.1) f.2) (List.range N) st
    exact ⟨a1, a2, a3, fun f' hf' => a4 f' hf'⟩

/-- Per-tet frame of phase two: only row i of NgbTab can move. -/
theorem p2tet_frame (msh : MshSct) (H N c : Nat) (st : GSt) (i : Nat) :
    (p2tet msh H N c st i).tab = st.tab ∧
    (p2tet msh H N c st i).ColPos = st.ColPos ∧
    (p2tet msh H N c st i).FlgTab = st.FlgTab ∧
    ∀ f' : Nat × Nat, f'.1 ≠ i →
      (p2tet msh H N c st i).NgbTab f' = st.NgbTab f' := by
  by_cases hflg : st.FlgTab i = 4
  · have heq : p2tet msh H N c st i = st := by
      simp only [p2tet, if_pos hflg]
    rw [heq]
    exact ⟨rfl, rfl, rfl, fun _ _ => rfl⟩
  · have heq : p2tet msh H N c st i
        = [(i, 0), (i, 1), (i, 2), (i, 3)].foldl (p2face msh H N c) st := by
      simp only [p2tet, if_neg hflg]
    rw [heq]
    have hne : ∀ (f' : Nat × Nat) (k : Nat), f'.1 ≠ i → f' ≠ (i, k) := by
      intro f' k h he
      exact h (by rw [he])
    obtain ⟨a1, a2, a3, a4⟩ := p2face_frame msh H N c st (i, 0)
    obtain ⟨b1, b2, b3, b4⟩ := p2face_frame msh H N c (p2face msh H N c st (i, 0)) (i, 1)
    obtain ⟨c1, c2, c3, c4⟩ := p2face_frame msh H N c
      (p2face msh H N c (p2face msh H N c st (i, 0)) (i, 1)) (i, 2)
    obtain ⟨d1, d2, d3, d4⟩ := p2face_frame msh H N c
      (p2face msh H N c (p2face msh H N c (p2face msh H N c st (i, 0)) (i, 1)) (i, 2)) (i, 3)
    refine ⟨?_, ?_, ?_, ?_⟩
    · exact (d1.trans c1).trans (b1.trans a1)
    · exact (d2.trans c2).trans (b2.trans a2)
    · exact (d3.trans c3).trans (b3.trans a3)
    · intro f' hf'
      exact (((d4 f' (hne f' 3 hf')).trans (c4 f' (hne f' 2 hf'))).trans
        (b4 f' (hne f' 1 hf'))).trans (a4 f' (hne f' 0 hf'))

/-- Folding p2tet over a tet-id list keeps every NgbTab row outside the
list unchanged, and all other state components equal. -/
theorem p2fold_frame (msh : MshSct) (H N c : Nat) :
    ∀ (L : List Nat) (st : GSt),
      (L.foldl (p2tet msh H N c) st).tab = st.tab ∧
      (L.foldl (p2tet msh H N c) st).ColPos = st.ColPos ∧
      (L.foldl (p2tet msh H N c) st).FlgTab = st.FlgTab ∧
      ∀ f' : Nat × Nat, (∀ x ∈ L, f'.1 ≠ x) →
        (L.foldl (p2tet msh H N c) st).NgbTab f' = st.NgbTab f' := by
  intro L
  induction L with
  | nil => intro st; exact ⟨rfl, rfl, rfl, fun _ _ => rfl⟩
  | cons x L ih =>
    intro st
    obtain ⟨a1, a2, a3, a4⟩ := p2tet_frame msh H N c st x
    obtain ⟨b1, b2, b3, b4⟩ := ih (p2tet msh H N c st x)
    refine ⟨b1.trans a1, b2.trans a2, b3.trans a3, fun f' hf' => ?_⟩
    have h1 := b4 f' (fun y hy => hf' y (List.mem_cons_of_mem x hy))
    have h2 := a4 f' (hf' x (List.mem_cons_self x L))
    exact h1.trans h2

/-- C8: every write of ParNgb2 running as worker c targets NgbTab[i][j]
with i inside the caller's own range [beg, end]: rows of NgbTab outside
that range, all of FlgTab, and every worker's hash table and cursor are
left exactly as phase one produced them (the ghost probe logs are model
instrumentation, not program state). -/
theorem C8_phase2_frame (msh : MshSct) (H N bg en c : Nat) (st : GSt) :
    (ParNgb2 msh H N bg en c st).tab = st.tab ∧
    (ParNgb2 msh H N bg en c st).ColPos = st.ColPos ∧
    (ParNgb2 msh H N bg en c st).FlgTab = st.FlgTab ∧
    ∀ i j : Nat, (i < bg ∨ en < i) →
      (ParNgb2 msh H N bg en c st).NgbTab (i, j) = st.NgbTab (i, j) := by
  obtain ⟨a1, a2, a3, a4⟩ := p2fold_frame msh H N c (List.range' bg (en + 1 - bg)) st
  refine ⟨a1, a2, a3, fun i j hij => a4 (i, j) ?_⟩
  intro x hx h
  rw [List.mem_range'_1] at hx
  subst h
  omega

/-- Witness for C8 at a concrete state and out-of-range row. -/
theorem C8_witness :
    (5 < 1 ∨ 3 < 5) ∧
    (ParNgb2 mshS3 8 2 1 3 0 (initSt 8)).NgbTab (5, 0) = (initSt 8).NgbTab (5, 0) :=
  ⟨Or.inr (by decide),
    (C8_phase2_frame mshS3 8 2 1 3 0 (initSt 8)).2.2.2 5 0 (Or.inr (by decide))⟩

/-- Phase-one chain walk moves the worker's cursor up by at most one and
leaves other cursors alone. -/
theorem p1walk_ColPos (msh : MshSct) (c i j mn md mx : Nat) :
    ∀ (fuel key : Nat) (st : GSt),
      st.ColPos c ≤ (p1walk msh c i j mn md mx fuel key st).ColPos c ∧
      (p1walk msh c i j mn md mx fuel key st).ColPos c ≤ st.ColPos c + 1 ∧
      ∀ w, w ≠ c → (p1walk msh c i j mn md mx fuel key st).ColPos w = st.ColPos w := by
  intro fuel
  induction fuel with
  | zero => intro key st; exact ⟨Nat.le_refl _, Nat.le_succ _, fun _ _ => rfl⟩
  | succ fuel ih =>
    intro key st
    rcases htab : st.tab c key with ⟨et, ev, emn, emd, emx, enex⟩
    by_cases hm : (msh.tet et).idx emn = (msh.tet i).idx mn
        ∧ (msh.tet et).idx emd = (msh.tet i).idx md
        ∧ (msh.tet et).idx emx = (msh.tet i).idx mx
    · have heq : p1walk msh c i j mn md mx (fuel + 1) key st
          = incFlg (setNgb (incFlg (setNgb st i j et) i) et ev i) et := by
        simp only [p1walk, htab, if_pos hm]
      rw [heq]
      exact ⟨by simp, by simp, fun _ _ => by simp⟩
    · by_cases hn : enex ≠ 0
      · have heq : p1walk msh c i j mn md mx (fuel + 1) key st
            = p1walk msh c i j mn md mx fuel enex st := by
          simp only [p1walk, htab, if_neg hm, if_pos hn]
        rw [heq]
        exact ih enex st
      · have heq : (p1walk msh c i j mn md mx (fuel + 1) key st).ColPos
            = Function.update
                (setTab (setTab st c key (HshSct.mk et ev emn emd emx (st.ColPos c))) c
                  (st.ColPos c) (HshSct.mk i j mn md mx 0)).ColPos c (st.ColPos c + 1) := by
          simp only [p1walk, htab, if_neg hm, if_neg hn]
        refine ⟨?_, ?_, ?_⟩
        · rw [heq]; simp
        · rw [heq]; simp
        · intro w hw
          rw [heq]
          simp [Function.update_noteq hw]

/-- Per-facet cursor accounting for phase one. -/
theorem p1face_ColPos (msh : MshSct) (H c : Nat) (st : GSt) (f : Nat × Nat) :
    st.ColPos c ≤ (p1face msh H c st f).ColPos c ∧
    (p1face msh H c st f).ColPos c ≤ st.ColPos c + 1 ∧
    ∀ w, w ≠ c → (p1face msh H c st f).ColPos w = st.ColPos w := by
  rcases htab : st.tab c (hshKey H (msh.tet f.1) f.2) with ⟨et, ev, emn, emd, emx, enex⟩
  by_cases he : et = 0
  · have heq : p1face msh H c st f
        = setTab st c (hshKey H (msh.tet f.1) f.2)
            (HshSct.mk f.1 f.2 (canonMM (msh.tet f.1) f.2).1 (canonMid (msh.tet f.1) f.2)
              (canonMM (msh.tet f.1) f.2).2 enex) := by
      simp only [p1face, htab, if_pos he]
    rw [heq]
    exact ⟨by simp, by simp, fun _ _ => by simp⟩
  · have heq : p1face msh H c st f
        = p1walk msh c f.1 f.2 (canonMM (msh.tet f.1) f.2).1 (canonMid (msh.tet f.1) f.2)
            (canonMM (msh.tet f.1) f.2).2 (st.ColPos c + 1) (hshKey H (msh.tet f.1) f.2) st := by
      simp only [p1face, htab, if_neg he]
    rw [heq]
    exact p1walk_ColPos msh c f.1 f.2 _ _ _ _ _ st

/-- Folding p1face grows the cursor by at most the facet count. -/
theorem p1fold_ColPos (msh : MshSct) (H c : Nat) :
    ∀ (L : List (Nat × Nat)) (st : GSt),
      st.ColPos c ≤ (L.foldl (p1face msh H c) st).ColPos c ∧
      (L.foldl (p1face msh H c) st).ColPos c ≤ st.ColPos c + L.length := by
  intro L
  induction L with
  | nil => intro st; exact ⟨Nat.le_refl _, Nat.le_refl _⟩
  | cons f L ih =>
    intro st
    obtain ⟨a1, a2, _⟩ := p1face_ColPos msh H c st f
    obtain ⟨b1, b2⟩ := ih (p1face msh H c st f)
    refine ⟨le_trans a1 b1, ?_⟩
    calc (L.foldl (p1face msh H c) (p1face msh H c st f)).ColPos c
        ≤ (p1face msh H c st f).ColPos c + L.length := b2
      _ ≤ st.ColPos c + 1 + L.length := by omega
      _ = st.ColPos c + (f :: L).length := by simp [List.length_cons]; omega

/-- The facet list of a worker has four entries per tet of its range. -/
theorem facetsFromTo_length (bg en : Nat) :
    (facetsFromTo bg en).length = 4 * (en + 1 - bg) := by
  unfold facetsFromTo
  generalize en + 1 - bg = n
  induction n generalizing bg with
  | zero => simp
  | succ n ih =>
    rw [List.range'_succ]
    simp only [List.flatMap_cons, List.length_append]
    rw [ih (bg + 1)]
    simp
    omega

/-- C7 (amended): the overflow cursor of ParNgb1 only grows, by at most one
per facet, so worker c ends with ColPos at most its start plus 4 times its
tet count; when the worker starts at HshSiz and owns at most HshSiz tets
(true of every worker except possibly the last, whose range can be larger),
ColPos stays within the 5*HshSiz allocated slots. The original bound fails
for a last worker owning more than HshSiz tets: see the counterexample. -/
theorem C7_amended_colpos_bound (msh : MshSct) (H bg en c : Nat) (st : GSt) :
    st.ColPos c ≤ (ParNgb1 msh H bg en c st).ColPos c ∧
    (ParNgb1 msh H bg en c st).ColPos c ≤ st.ColPos c + 4 * (en + 1 - bg) ∧
    (st.ColPos c = H → en + 1 - bg ≤ H →
      (ParNgb1 msh H bg en c st).ColPos c ≤ 5 * H) := by
  have hdef : ParNgb1 msh H bg en c st = (facetsFromTo bg en).foldl (p1face msh H c) st := rfl
  rw [hdef]
  obtain ⟨h1, h2⟩ := p1fold_ColPos msh H c (facetsFromTo bg en) st
  rw [facetsFromTo_length] at h2
  exact ⟨h1, h2, fun hcol hrange => by omega⟩

/-- Witness for C7 (amended) at scenario S3's single worker. -/
theorem C7_amended_witness :
    ((initSt 8).ColPos 0 = 8 ∧ 2 + 1 - 1 ≤ 8) ∧
    (ParNgb1 mshS3 8 1 2 0 (initSt 8)).ColPos 0 ≤ 5 * 8 :=
  ⟨⟨by decide, by decide⟩,
    (C7_amended_colpos_bound mshS3 8 1 2 0 (initSt 8)).2.2 (by decide) (by decide)⟩

/-- Membership in a worker facet list. -/
theorem mem_facetsFromTo (bg en : Nat) (f : Nat × Nat) :
    f ∈ facetsFromTo bg en ↔ bg ≤ f.1 ∧ f.1 ≤ en ∧ f.2 < 4 := by
  rcases f with ⟨a, b⟩
  unfold facetsFromTo
  rw [List.mem_flatMap]
  constructor
  · rintro ⟨i, hi, hf⟩
    rw [List.mem_range'_1] at hi
    simp only [List.mem_cons, List.not_mem_nil, or_false, Prod.mk.injEq] at hf
    rcases hf with ⟨rfl, rfl⟩ | ⟨rfl, rfl⟩ | ⟨rfl, rfl⟩ | ⟨rfl, rfl⟩ <;>
      exact ⟨by omega, by omega, by omega⟩
  · rintro ⟨h1, h2, h3⟩
    refine ⟨a, by rw [List.mem_range'_1]; omega, ?_⟩
    interval_cases b <;> simp

/-- The hash key is a function of the canonical triple alone. -/
theorem hshKey_congr (H : Nat) (msh : MshSct) (f g : Nat × Nat)
    (h : tripF msh f = tripF msh g) :
    hshKey H (msh.tet f.1) f.2 = hshKey H (msh.tet g.1) g.2 := by
  have e1 : hshKey H (msh.tet f.1) f.2
      = (31 * (tripF msh f).1 + 7 * (tripF msh f).2.1 + 3 * (tripF msh f).2.2) &&& (H - 1) := rfl
  have e2 : hshKey H (msh.tet g.1) g.2
      = (31 * (tripF msh g).1 + 7 * (tripF msh g).2.1 + 3 * (tripF msh g).2.2) &&& (H - 1) := rfl
  rw [e1, e2, h]

/-- The three-comparison test of the walks is canonical-triple equality. -/
theorem trip_eq_iff (msh : MshSct) (a b : Nat × Nat) :
    tripF msh a = tripF msh b ↔
      ((msh.tet a.1).idx (canonMM (msh.tet a.1) a.2).1
          = (msh.tet b.1).idx (canonMM (msh.tet b.1) b.2).1 ∧
       (msh.tet a.1).idx (canonMid (msh.tet a.1) a.2)
          = (msh.tet b.1).idx (canonMid (msh.tet b.1) b.2) ∧
       (msh.tet a.1).idx (canonMM (msh.tet a.1) a.2).2
          = (msh.tet b.1).idx (canonMM (msh.tet b.1) b.2).2) := by
  unfold tripF trip
  simp [Prod.ext_iff]

/-- Sharing a face with two others is impossible: the partner facet is
unique. -/
theorem mate_unique (msh : MshSct) (h2 : AtMostTwoPerFace msh) (f g g' : Nat × Nat)
    (hf : f ∈ facetsFromTo 1 msh.NmbTet) (hg : g ∈ facetsFromTo 1 msh.NmbTet)
    (hg' : g' ∈ facetsFromTo 1 msh.NmbTet)
    (hgf : g ≠ f) (hg'f : g' ≠ f)
    (htg : tripF msh g = tripF msh f) (htg' : tripF msh g' = tripF msh f) : g = g' := by
  by_contra hne
  exact h2 f hf g hg g' hg' (Ne.symm hgf) (Ne.symm hg'f) hne htg.symm htg'.symm

/-- Two different faces of one tet have different canonical triples. -/
theorem trip_ne_same_tet (msh : MshSct) (i j j' : Nat) (hi1 : 1 ≤ i)
    (hiT : i ≤ msh.NmbTet) (hj : j < 4) (hj' : j' < 4) (hne : j ≠ j')
    (hd : MshDistinct msh) : tripF msh (i, j) ≠ tripF msh (i, j') := by
  intro heq
  have hdt : TetDistinct (msh.tet i) := hd i (by omega) hi1
  obtain ⟨⟨hmn4, hmx4, hmd4⟩, ⟨hmnj, hmxj, hmdj⟩, ⟨hab, hac, hcb⟩, hspan⟩ :=
    canon_props (msh.tet i) j hj hdt
  obtain ⟨⟨hmn4', hmx4', hmd4'⟩, ⟨hmnj', hmxj', hmdj'⟩, _, hspan'⟩ :=
    canon_props (msh.tet i) j' hj' hdt
  rw [trip_eq_iff] at heq
  obtain ⟨e1, e2, e3⟩ := heq
  simp only at e1 e2 e3
  have hj'mem : j' = (canonMM (msh.tet i) j).1 ∨ j' = canonMid (msh.tet i) j
      ∨ j' = (canonMM (msh.tet i) j).2 := by omega
  rcases hj'mem with h | h | h
  · exact hdt _ hmn4' _ hj' hmnj'
      (((congrArg (msh.tet i).idx h).trans e1).symm)
  · exact hdt _ hmd4' _ hj' hmdj'
      (((congrArg (msh.tet i).idx h).trans e2).symm)
  · exact hdt _ hmx4' _ hj' hmxj'
      (((congrArg (msh.tet i).idx h).trans e3).symm)

/-- Partner facets live on different tets. -/
theorem mate_ne_tet (msh : MshSct) (hd : MshDistinct msh) (f g : Nat × Nat)
    (hf : f ∈ facetsFromTo 1 msh.NmbTet) (hg : g ∈ facetsFromTo 1 msh.NmbTet)
    (hne : f ≠ g) (ht : tripF msh f = tripF msh g) : f.1 ≠ g.1 := by
  intro h1
  rw [mem_facetsFromTo] at hf hg
  rcases f with ⟨a, b⟩
  rcases g with ⟨a', b'⟩
  simp only at h1
  subst h1
  have hbb : b ≠ b' := fun h => hne (by rw [h])
  exact trip_ne_same_tet msh a b b' hf.1 hf.2.1 hf.2.2 hg.2.2 hbb hd ht

/-- The walk's comparison never succeeds against the all-zero slot, whose
three position fields coincide: the facet's canonical values are pairwise
distinct. -/
theorem zero_slot_no_match (msh : MshSct) (i j : Nat) (hdt : TetDistinct (msh.tet i))
    (hj : j < 4) :
    ¬((msh.tet 0).idx 0 = (msh.tet i).idx (canonMM (msh.tet i) j).1 ∧
      (msh.tet 0).idx 0 = (msh.tet i).idx (canonMid (msh.tet i) j) ∧
      (msh.tet 0).idx 0 = (msh.tet i).idx (canonMM (msh.tet i) j).2) := by
  rintro ⟨e1, e2, e3⟩
  obtain ⟨⟨hmn4, hmx4, hmd4⟩, _, ⟨hab, hac, hcb⟩, _⟩ := canon_props (msh.tet i) j hj hdt
  exact hdt _ hmn4 _ hmd4 hac (e1.symm.trans e2)

/-- Chain reachability is transitive. -/
theorem SufReach.trans' {tb : Nat → HshSct} {a b c : Nat}
    (h1 : SufReach tb a b) (h2 : SufReach tb b c) : SufReach tb a c := by
  induction h2 with
  | refl => exact h1
  | tail hsuf hnex hne ih => exact SufReach.tail ih hnex hne

/-- A chain from s either stays at s or continues through its nex. -/
theorem SufReach_step_decomp {tb : Nat → HshSct} {s u s' : Nat}
    (hnex : (tb s).nex = u) (hu : u ≠ 0) (h : SufReach tb s s') :
    s' = s ∨ SufReach tb u s' := by
  induction h with
  | refl => exact Or.inl rfl
  | tail hsuf hx hne ih =>
    rcases ih with rfl | hsu
    · right
      rw [hnex] at hx
      rw [← hx]
      exact SufReach.refl
    · exact Or.inr (SufReach.tail hsu hx hne)

/-- A chain from a slot with nil nex never leaves it. -/
theorem SufReach_end {tb : Nat → HshSct} {s s' : Nat}
    (hnex : (tb s).nex = 0) (h : SufReach tb s s') : s' = s := by
  induction h with
  | refl => rfl
  | tail hsuf hx hne ih =>
    subst ih
    rw [hnex] at hx
    exact absurd hx.symm hne

/-- Along a chain from an occupied slot every slot is occupied, below the
cursor. -/
theorem SufReach_occ {msh : MshSct} {H : Nat} {tb : Nat → HshSct} {col : Nat}
    {P : List (Nat × Nat)} (inv : TabInv msh H tb col P) {s s' : Nat}
    (hocc : (tb s).tet ≠ 0) (h : SufReach tb s s') :
    (tb s').tet ≠ 0 ∧ s' < col := by
  have hlt : ∀ u, (tb u).tet ≠ 0 → u < col := by
    intro u hu
    by_contra hge
    rw [inv.zeroBeyond u (by omega)] at hu
    exact hu rfl
  induction h with
  | refl => exact ⟨hocc, hlt s hocc⟩
  | tail hsuf hx hne ih =>
    obtain ⟨ho, _⟩ := ih
    have hn := inv.nexLink _ (by rw [hx]; exact hne)
    rw [hx] at hn
    exact ⟨inv.occBetween _ hn.2.2.1 hn.2.2.2, hn.2.2.2⟩

/-- Chains survive table updates that do not disturb nonzero nex fields. -/
theorem SufReach_preserve {tb tb' : Nat → HshSct} {a b : Nat}
    (hsame : ∀ u, (tb u).nex ≠ 0 → (tb' u).nex = (tb u).nex)
    (h : SufReach tb a b) : SufReach tb' a b := by
  induction h with
  | refl => exact SufReach.refl
  | tail hsuf hx hne ih =>
    refine SufReach.tail ih ?_ hne
    rw [hsame _ (by rw [hx]; exact hne), hx]

/-- The masked hash key lands among the H primary buckets. -/
theorem hshKey_lt (H : Nat) (hH : 1 ≤ H) (t : TetSct) (j : Nat) : hshKey H t j < H := by
  have h := Nat.and_le_right (n := 31 * t.idx (canonMM t j).1 + 7 * t.idx (canonMid t j)
    + 3 * t.idx (canonMM t j).2) (m := H - 1)
  have : hshKey H t j ≤ H - 1 := h
  omega

/-- Case analysis of the phase-one chain walk from an occupied slot s on
the chain: either it finds an entry with the probe facet's canonical
triple and links both sides, or the chain holds no such entry and the walk
appends the facet at the cursor. -/
theorem p1walk_cases (msh : MshSct) (H c i j : Nat) (P : List (Nat × Nat)) (st : GSt)
    (inv : TabInv msh H (st.tab c) (st.ColPos c) P) :
    ∀ (fuel s : Nat),
      (st.tab c s).tet ≠ 0 →
      st.ColPos c ≤ s + fuel →
      (∃ s', SufReach (st.tab c) s s' ∧ (st.tab c s').tet ≠ 0 ∧
          tripF msh ((st.tab c s').tet, (st.tab c s').voy) = tripF msh (i, j) ∧
          p1walk msh c i j (canonMM (msh.tet i) j).1 (canonMid (msh.tet i) j)
              (canonMM (msh.tet i) j).2 fuel s st
            = incFlg (setNgb (incFlg (setNgb st i j (st.tab c s').tet) i)
                (st.tab c s').tet (st.tab c s').voy i) (st.tab c s').tet)
      ∨ ((∀ s', SufReach (st.tab c) s s' → (st.tab c s').tet ≠ 0 →
            tripF msh ((st.tab c s').tet, (st.tab c s').voy) ≠ tripF msh (i, j)) ∧
         ∃ se, SufReach (st.tab c) s se ∧ (st.tab c se).tet ≠ 0 ∧ (st.tab c se).nex = 0 ∧
           p1walk msh c i j (canonMM (msh.tet i) j).1 (canonMid (msh.tet i) j)
               (canonMM (msh.tet i) j).2 fuel s st
             = { setTab (setTab st c se (HshSct.mk (st.tab c se).tet (st.tab c se).voy
                   (st.tab c se).min (st.tab c se).mid (st.tab c se).max (st.ColPos c)))
                   c (st.ColPos c) (HshSct.mk i j (canonMM (msh.tet i) j).1
                     (canonMid (msh.tet i) j) (canonMM (msh.tet i) j).2 0) with
                 ColPos := Function.update st.ColPos c (st.ColPos c + 1) }) := by
  intro fuel
  induction fuel with
  | zero =>
    intro s hocc hfuel
    have hlt : s < st.ColPos c := by
      by_contra hge
      rw [inv.zeroBeyond s (by omega)] at hocc
      exact hocc rfl
    omega
  | succ fuel ih =>
    intro s hocc hfuel
    obtain ⟨et, ev, emn, emd, emx, enex, htab⟩ :
        ∃ et ev emn emd emx enex, st.tab c s = HshSct.mk et ev emn emd emx enex :=
      ⟨_, _, _, _, _, _, rfl⟩
    have htet : (st.tab c s).tet = et := by rw [htab]
    have hvoy : (st.tab c s).voy = ev := by rw [htab]
    have hnexv : (st.tab c s).nex = enex := by rw [htab]
    have hcontent := inv.content s hocc
    have hcmn : emn = (canonMM (msh.tet et) ev).1 := by
      have h := hcontent.2.1
      rw [htab] at h
      rw [← htet, ← hvoy]
      rw [htab]
      exact h
    have hcmd : emd = canonMid (msh.tet et) ev := by
      have h := hcontent.2.2.1
      rw [htab] at h
      rw [← htet, ← hvoy]
      rw [htab]
      exact h
    have hcmx : emx = (canonMM (msh.tet et) ev).2 := by
      have h := hcontent.2.2.2
      rw [htab] at h
      rw [← htet, ← hvoy]
      rw [htab]
      exact h
    by_cases hm : (msh.tet et).idx emn = (msh.tet i).idx (canonMM (msh.tet i) j).1
        ∧ (msh.tet et).idx emd = (msh.tet i).idx (canonMid (msh.tet i) j)
        ∧ (msh.tet et).idx emx = (msh.tet i).idx (canonMM (msh.tet i) j).2
    · left
      have htrip : tripF msh ((st.tab c s).tet, (st.tab c s).voy) = tripF msh (i, j) := by
        rw [htet, hvoy, trip_eq_iff]
        simp only
        rw [← hcmn, ← hcmd, ← hcmx]
        exact hm
      refine ⟨s, SufReach.refl, hocc, htrip, ?_⟩
      have heq : p1walk msh c i j (canonMM (msh.tet i) j).1 (canonMid (msh.tet i) j)
          (canonMM (msh.tet i) j).2 (fuel + 1) s st
          = incFlg (setNgb (incFlg (setNgb st i j et) i) et ev i) et := by
        simp only [p1walk, htab, if_pos hm]
      rw [heq, htet, hvoy]
    · by_cases hn : enex ≠ 0
      · have hnl := inv.nexLink s (hnexv ▸ hn)
        rw [hnexv] at hnl
        have hoccn : (st.tab c enex).tet ≠ 0 := inv.occBetween enex hnl.2.2.1 hnl.2.2.2
        have hfn : st.ColPos c ≤ enex + fuel := by
          have h := hnl.2.1
          omega
        have heq : p1walk msh c i j (canonMM (msh.tet i) j).1 (canonMid (msh.tet i) j)
            (canonMM (msh.tet i) j).2 (fuel + 1) s st
            = p1walk msh c i j (canonMM (msh.tet i) j).1 (canonMid (msh.tet i) j)
                (canonMM (msh.tet i) j).2 fuel enex st := by
          simp only [p1walk, htab, if_neg hm, if_pos hn]
        have hstep : SufReach (st.tab c) s enex := SufReach.tail SufReach.refl hnexv hn
        rcases ih enex hoccn hfn with ⟨s', ha, hb, hc2, hres⟩ | ⟨hnone, se, ha, hb, hc2, hres⟩
        · exact Or.inl ⟨s', hstep.trans' ha, hb, hc2, by rw [heq]; exact hres⟩
        · refine Or.inr ⟨?_, se, hstep.trans' ha, hb, hc2, by rw [heq]; exact hres⟩
          intro s' hsuf hocc' htr
          rcases SufReach_step_decomp hnexv hn hsuf with heqs | hsuf'
          · apply hm
            rw [heqs, htet, hvoy, trip_eq_iff] at htr
            simp only at htr
            rw [hcmn, hcmd, hcmx]
            exact htr
          · exact hnone s' hsuf' hocc' htr
      · push_neg at hn
        right
        have hnex0 : (st.tab c s).nex = 0 := by rw [hnexv, hn]
        refine ⟨?_, s, SufReach.refl, hocc, hnex0, ?_⟩
        · intro s' hsuf hocc' htr
          have heqs := SufReach_end hnex0 hsuf
          apply hm
          rw [heqs, htet, hvoy, trip_eq_iff] at htr
          simp only at htr
          rw [hcmn, hcmd, hcmx]
          exact htr
        · have heq : p1walk msh c i j (canonMM (msh.tet i) j).1 (canonMid (msh.tet i) j)
              (canonMM (msh.tet i) j).2 (fuel + 1) s st
              = { setTab (setTab st c s (HshSct.mk et ev emn emd emx (st.ColPos c)))
                    c (st.ColPos c) (HshSct.mk i j (canonMM (msh.tet i) j).1
                      (canonMid (msh.tet i) j) (canonMM (msh.tet i) j).2 0) with
                  ColPos := Function.update st.ColPos c (st.ColPos c + 1) } := by
            simp only [p1walk, htab, if_neg hm,
              if_neg (show ¬(enex ≠ 0) by omega), setTab_ColPos]
          rw [heq, htet, hvoy]
          rw [show (st.tab c s).min = emn from by rw [htab]]
          rw [show (st.tab c s).mid = emd from by rw [htab]]
          rw [show (st.tab c s).max = emx from by rw [htab]]

/-- The table invariant only ever consumes a larger processed list. -/
theorem TabInv_mono (msh : MshSct) (H : Nat) (tb : Nat → HshSct) (col : Nat)
    (P P' : List (Nat × Nat)) (hsub : ∀ g ∈ P, g ∈ P')
    (inv : TabInv msh H tb col P) : TabInv msh H tb col P' where
  colH := inv.colH
  zeroBeyond := inv.zeroBeyond
  occBetween := inv.occBetween
  content s hs := ⟨hsub _ (inv.content s hs).1, (inv.content s hs).2.1,
    (inv.content s hs).2.2.1, (inv.content s hs).2.2.2⟩
  inj := inv.inj
  nexLink := inv.nexLink
  emptyNex := inv.emptyNex
  emptyZero := inv.emptyZero
  reach := inv.reach

/-- Filling an empty primary bucket maintains the table invariant with the
facet appended to the processed list. -/
theorem TabInv_insert (msh : MshSct) (H : Nat) (tb : Nat → HshSct) (col : Nat)
    (P : List (Nat × Nat)) (inv : TabInv msh H tb col P) (i j : Nat)
    (hH : 1 ≤ H) (hi : 1 ≤ i) (hfP : (i, j) ∉ P)
    (hkey : (tb (hshKey H (msh.tet i) j)).tet = 0) :
    TabInv msh H
      (Function.update tb (hshKey H (msh.tet i) j)
        (HshSct.mk i j (canonMM (msh.tet i) j).1 (canonMid (msh.tet i) j)
          (canonMM (msh.tet i) j).2 ((tb (hshKey H (msh.tet i) j)).nex)))
      col (P ++ [(i, j)]) := by
  have hkH : hshKey H (msh.tet i) j < H := hshKey_lt H hH (msh.tet i) j
  have hnx : (tb (hshKey H (msh.tet i) j)).nex = 0 := inv.emptyNex _ hkey
  obtain ⟨k, hk⟩ : ∃ k, hshKey H (msh.tet i) j = k := ⟨_, rfl⟩
  rw [hk] at hkH hnx ⊢
  have hcolH := inv.colH
  set e : HshSct := HshSct.mk i j (canonMM (msh.tet i) j).1 (canonMid (msh.tet i) j)
    (canonMM (msh.tet i) j).2 ((tb k).nex) with he
  have hetet : e.tet = i := rfl
  have hevoy : e.voy = j := rfl
  have henex : e.nex = (tb k).nex := rfl
  have hupd : ∀ s, s ≠ k → Function.update tb k e s = tb s :=
    fun s hs => Function.update_noteq hs _ _
  have hupdk : Function.update tb k e k = e := Function.update_same _ _ _
  have hpres : ∀ u, (tb u).nex ≠ 0 → (Function.update tb k e u).nex = (tb u).nex := by
    intro u hu
    by_cases huk : u = k
    · subst huk
      exact absurd hnx hu
    · rw [hupd u huk]
  refine ⟨inv.colH, ?_, ?_, ?_, ?_, ?_, ?_, ?_, ?_⟩
  · intro s hs
    rw [hupd s (by omega)]
    exact inv.zeroBeyond s hs
  · intro s h1 h2
    rw [hupd s (by omega)]
    exact inv.occBetween s h1 h2
  · intro s hs
    by_cases hsk : s = k
    · subst hsk
      rw [hupdk]
      refine ⟨List.mem_append_right _ (List.mem_singleton.mpr ?_), rfl, rfl, rfl⟩
      rw [hetet, hevoy]
    · rw [hupd s hsk] at hs ⊢
      obtain ⟨ha, hb, hc, hd2⟩ := inv.content s hs
      exact ⟨List.mem_append_left _ ha, hb, hc, hd2⟩
  · intro s s' hs hs' ht hv
    by_cases hsk : s = k <;> by_cases hs'k : s' = k
    · rw [hsk, hs'k]
    · subst hsk
      rw [hupdk] at hs ht hv
      rw [hupd s' hs'k] at hs' ht hv
      have hmem := (inv.content s' hs').1
      rw [← ht, ← hv, hetet, hevoy] at hmem
      exact absurd hmem hfP
    · subst hs'k
      rw [hupdk] at hs' ht hv
      rw [hupd s hsk] at hs ht hv
      have hmem := (inv.content s hs).1
      rw [ht, hv, hetet, hevoy] at hmem
      exact absurd hmem hfP
    · rw [hupd s hsk] at hs ht hv
      rw [hupd s' hs'k] at hs' ht hv
      exact inv.inj s s' hs hs' ht hv
  · intro s hs
    by_cases hsk : s = k
    · subst hsk
      rw [hupdk] at hs
      rw [henex] at hs
      exact absurd hnx hs
    · rw [hupd s hsk] at hs ⊢
      exact inv.nexLink s hs
  · intro s hs
    by_cases hsk : s = k
    · subst hsk
      rw [hupdk, hetet] at hs
      omega
    · rw [hupd s hsk] at hs ⊢
      exact inv.emptyNex s hs
  · intro s hs
    by_cases hsk : s = k
    · subst hsk
      rw [hupdk, hetet] at hs
      omega
    · rw [hupd s hsk] at hs ⊢
      exact inv.emptyZero s hs
  · intro s hs
    by_cases hsk : s = k
    · subst hsk
      rw [hupdk, hetet, hevoy, hk]
      exact SufReach.refl
    · rw [hupd s hsk] at hs ⊢
      exact SufReach_preserve hpres (inv.reach s hs)

/-- Appending a fresh overflow slot at the cursor maintains the table
invariant with the facet appended to the processed list. -/
theorem TabInv_append (msh : MshSct) (H : Nat) (tb : Nat → HshSct) (col : Nat)
    (P : List (Nat × Nat)) (inv : TabInv msh H tb col P) (i j se : Nat)
    (hH : 1 ≤ H) (hi : 1 ≤ i) (hfP : (i, j) ∉ P)
    (hse : (tb se).tet ≠ 0) (hsenex : (tb se).nex = 0)
    (hreach : SufReach tb (hshKey H (msh.tet i) j) se) :
    TabInv msh H
      (Function.update
        (Function.update tb se (HshSct.mk (tb se).tet (tb se).voy (tb se).min (tb se).mid
          (tb se).max col))
        col (HshSct.mk i j (canonMM (msh.tet i) j).1 (canonMid (msh.tet i) j)
          (canonMM (msh.tet i) j).2 0))
      (col + 1) (P ++ [(i, j)]) := by
  have hselt : se < col := by
    by_contra hge
    rw [inv.zeroBeyond se (by omega)] at hse
    exact hse rfl
  have hcolH := inv.colH
  set e1 : HshSct := HshSct.mk (tb se).tet (tb se).voy (tb se).min (tb se).mid (tb se).max col
    with he1
  set e2 : HshSct := HshSct.mk i j (canonMM (msh.tet i) j).1 (canonMid (msh.tet i) j)
    (canonMM (msh.tet i) j).2 0 with he2
  have he1tet : e1.tet = (tb se).tet := rfl
  have he1voy : e1.voy = (tb se).voy := rfl
  have he1nex : e1.nex = col := rfl
  have he2tet : e2.tet = i := rfl
  have he2voy : e2.voy = j := rfl
  have he2nex : e2.nex = 0 := rfl
  set tb' := Function.update (Function.update tb se e1) col e2 with htb'
  have hsne : se ≠ col := by omega
  have hat : ∀ s, s ≠ se → s ≠ col → tb' s = tb s := by
    intro s h1 h2
    rw [htb', Function.update_noteq h2, Function.update_noteq h1]
  have hatse : tb' se = e1 := by
    rw [htb', Function.update_noteq hsne, Function.update_same]
  have hatcol : tb' col = e2 := by
    rw [htb', Function.update_same]
  have hcolzero : tb col = HshSct.zero := inv.zeroBeyond col (le_refl _)
  have hpres : ∀ u, (tb u).nex ≠ 0 → (tb' u).nex = (tb u).nex := by
    intro u hu
    by_cases h1 : u = se
    · subst h1
      exact absurd hsenex hu
    · by_cases h2 : u = col
      · subst h2
        rw [hcolzero] at hu
        exact absurd rfl hu
      · rw [hat u h1 h2]
  refine ⟨by omega, ?_, ?_, ?_, ?_, ?_, ?_, ?_, ?_⟩
  · intro s hs
    rw [hat s (by omega) (by omega)]
    exact inv.zeroBeyond s (by omega)
  · intro s h1 h2
    by_cases hc2 : s = col
    · subst hc2
      rw [hatcol, he2tet]
      omega
    · by_cases hc1 : s = se
      · subst hc1
        rw [hatse, he1tet]
        exact hse
      · rw [hat s hc1 hc2]
        exact inv.occBetween s h1 (by omega)
  · intro s hs
    by_cases hc2 : s = col
    · subst hc2
      rw [hatcol]
      refine ⟨List.mem_append_right _ (List.mem_singleton.mpr ?_), rfl, rfl, rfl⟩
      rw [he2tet, he2voy]
    · by_cases hc1 : s = se
      · subst hc1
        rw [hatse] at hs ⊢
        rw [he1tet] at hs
        obtain ⟨ha, hb, hc, hd2⟩ := inv.content s hs
        rw [he1tet, he1voy]
        exact ⟨List.mem_append_left _ ha, hb, hc, hd2⟩
      · rw [hat s hc1 hc2] at hs ⊢
        obtain ⟨ha, hb, hc, hd2⟩ := inv.content s hs
        exact ⟨List.mem_append_left _ ha, hb, hc, hd2⟩
  · intro s s' hs hs' ht hv
    have key : ∀ u, (tb' u).tet ≠ 0 → u ≠ col →
        (tb' u).tet = (tb u).tet ∧ (tb' u).voy = (tb u).voy ∧ (tb u).tet ≠ 0 := by
      intro u hu hucol
      by_cases huse : u = se
      · subst huse
        rw [hatse]
        exact ⟨he1tet, he1voy, hse⟩
      · rw [hat u huse hucol] at hu ⊢
        exact ⟨rfl, rfl, hu⟩
    by_cases hc2 : s = col <;> by_cases hc2' : s' = col
    · rw [hc2, hc2']
    · subst hc2
      obtain ⟨ka, kb, kc⟩ := key s' hs' hc2'
      rw [hatcol] at ht hv
      rw [ka, he2tet] at ht
      rw [kb, he2voy] at hv
      have hmem := (inv.content s' kc).1
      rw [← ht, ← hv] at hmem
      exact absurd hmem hfP
    · subst hc2'
      obtain ⟨ka, kb, kc⟩ := key s hs hc2
      rw [hatcol] at ht hv
      rw [ka, he2tet] at ht
      rw [kb, he2voy] at hv
      have hmem := (inv.content s kc).1
      rw [ht, hv] at hmem
      exact absurd hmem hfP
    · obtain ⟨ka, kb, kc⟩ := key s hs hc2
      obtain ⟨ka', kb', kc'⟩ := key s' hs' hc2'
      rw [ka, ka'] at ht
      rw [kb, kb'] at hv
      exact inv.inj s s' kc kc' ht hv
  · intro s hs
    by_cases hc2 : s = col
    · subst hc2
      rw [hatcol, he2nex] at hs
      exact absurd rfl hs
    · by_cases hc1 : s = se
      · subst hc1
        rw [hatse, he1nex, he1tet]
        exact ⟨hse, by omega, by omega, by omega⟩
      · rw [hat s hc1 hc2] at hs ⊢
        obtain ⟨ha, hb, hc, hd2⟩ := inv.nexLink s hs
        exact ⟨ha, hb, hc, by omega⟩
  · intro s hs
    by_cases hc2 : s = col
    · subst hc2
      rw [hatcol, he2tet] at hs
      omega
    · by_cases hc1 : s = se
      · subst hc1
        rw [hatse, he1tet] at hs
        exact absurd hs hse
      · rw [hat s hc1 hc2] at hs ⊢
        exact inv.emptyNex s hs
  · intro s hs
    by_cases hc2 : s = col
    · subst hc2
      rw [hatcol, he2tet] at hs
      omega
    · by_cases hc1 : s = se
      · subst hc1
        rw [hatse, he1tet] at hs
        exact absurd hs hse
      · rw [hat s hc1 hc2] at hs ⊢
        exact inv.emptyZero s hs
  · intro s hs
    by_cases hc2 : s = col
    · subst hc2
      rw [hatcol, he2tet, he2voy]
      have h1 : SufReach tb' (hshKey H (msh.tet i) j) se := SufReach_preserve hpres hreach
      refine SufReach.tail h1 ?_ (by omega)
      rw [hatse, he1nex]
    · by_cases hc1 : s = se
      · subst hc1
        rw [hatse, he1tet] at hs
        rw [hatse, he1tet, he1voy]
        exact SufReach_preserve hpres (inv.reach s hs)
      · rw [hat s hc1 hc2] at hs ⊢
        exact SufReach_preserve hpres (inv.reach s hs)

/-- Full specification of one phase-one facet step: frames, table
invariant and storedness are maintained, and the step either links the
facet with its unique already-stored mate or stores the facet, leaving
NgbTab and FlgTab alone. -/
theorem p1face_spec (msh : MshSct) (H c : Nat) (st : GSt) (P : List (Nat × Nat)) (i j : Nat)
    (h2 : AtMostTwoPerFace msh) (hH : 1 ≤ H)
    (inv : TabInv msh H (st.tab c) (st.ColPos c) P)
    (hstored : ∀ g ∈ P, (∀ g' ∈ P, g' ≠ g → tripF msh g' ≠ tripF msh g) →
      ∃ s, (((st.tab c s).tet, (st.tab c s).voy) = g ∧ (st.tab c s).tet ≠ 0))
    (hPval : ∀ g ∈ P, g ∈ facetsFromTo 1 msh.NmbTet)
    (hfval : (i, j) ∈ facetsFromTo 1 msh.NmbTet)
    (hfP : (i, j) ∉ P) :
    ((∀ w, w ≠ c → (p1face msh H c st (i, j)).tab w = st.tab w) ∧
     (∀ w, w ≠ c → (p1face msh H c st (i, j)).ColPos w = st.ColPos w) ∧
     (p1face msh H c st (i, j)).visP = st.visP ∧
     (p1face msh H c st (i, j)).visC = st.visC) ∧
    TabInv msh H ((p1face msh H c st (i, j)).tab c) ((p1face msh H c st (i, j)).ColPos c)
      (P ++ [(i, j)]) ∧
    (∀ g ∈ P ++ [(i, j)],
      (∀ g' ∈ P ++ [(i, j)], g' ≠ g → tripF msh g' ≠ tripF msh g) →
      ∃ s, ((((p1face msh H c st (i, j)).tab c s).tet,
              ((p1face msh H c st (i, j)).tab c s).voy) = g
        ∧ ((p1face msh H c st (i, j)).tab c s).tet ≠ 0)) ∧
    ((∃ g, g ∈ P ∧ g ≠ (i, j) ∧ tripF msh g = tripF msh (i, j) ∧
        p1face msh H c st (i, j)
          = incFlg (setNgb (incFlg (setNgb st i j g.1) i) g.1 g.2 i) g.1)
     ∨ ((∀ g ∈ P, g ≠ (i, j) → tripF msh g ≠ tripF msh (i, j)) ∧
        (p1face msh H c st (i, j)).NgbTab = st.NgbTab ∧
        (p1face msh H c st (i, j)).FlgTab = st.FlgTab)) := by
  have hi1 : 1 ≤ i := ((mem_facetsFromTo _ _ _).mp hfval).1
  have hkH : hshKey H (msh.tet i) j < H := hshKey_lt H hH (msh.tet i) j
  have htabc : ∀ (st' : GSt) (s : Nat) (e : HshSct),
      (setTab st' c s e).tab c = Function.update (st'.tab c) s e := by
    intro st' s e
    rw [setTab_tab, Function.update_same]
  -- no mate of (i, j) exists in P when no stored entry carries its triple
  have hnomate : (∀ s, (st.tab c s).tet ≠ 0 →
      tripF msh ((st.tab c s).tet, (st.tab c s).voy) ≠ tripF msh (i, j)) →
      ∀ g ∈ P, g ≠ (i, j) → tripF msh g ≠ tripF msh (i, j) := by
    intro hnos g hgP hgne htg
    have hgunm : ∀ g' ∈ P, g' ≠ g → tripF msh g' ≠ tripF msh g := by
      intro g' hg'P hg'g htg'
      exact h2 g' (hPval g' hg'P) g (hPval g hgP) (i, j) hfval hg'g
        (fun h => hfP (h ▸ hg'P)) hgne htg' (htg'.trans htg)
    obtain ⟨s, hfacet, hocc⟩ := hstored g hgP hgunm
    exact hnos s hocc (by rw [hfacet]; exact htg)
  obtain ⟨et, ev, emn, emd, emx, enex, htab⟩ :
      ∃ et ev emn emd emx enex,
        st.tab c (hshKey H (msh.tet i) j) = HshSct.mk et ev emn emd emx enex :=
    ⟨_, _, _, _, _, _, rfl⟩
  by_cases hempty : et = 0
  · -- empty primary bucket: store the facet
    subst hempty
    have hkey0 : (st.tab c (hshKey H (msh.tet i) j)).tet = 0 := by rw [htab]
    have heq : p1face msh H c st (i, j)
        = setTab st c (hshKey H (msh.tet i) j)
            (HshSct.mk i j (canonMM (msh.tet i) j).1 (canonMid (msh.tet i) j)
              (canonMM (msh.tet i) j).2 enex) := by
      simp only [p1face, htab, if_true]
    have henex : (st.tab c (hshKey H (msh.tet i) j)).nex = enex := by rw [htab]
    have hnos : ∀ s, (st.tab c s).tet ≠ 0 →
        tripF msh ((st.tab c s).tet, (st.tab c s).voy) ≠ tripF msh (i, j) := by
      intro s hocc htr
      have hr := inv.reach s hocc
      rw [hshKey_congr H msh ((st.tab c s).tet, (st.tab c s).voy) (i, j) htr] at hr
      have hnx : (st.tab c (hshKey H (msh.tet i) j)).nex = 0 := inv.emptyNex _ hkey0
      have := SufReach_end hnx hr
      subst this
      exact hocc hkey0
    refine ⟨?_, ?_, ?_, ?_⟩
    · rw [heq]
      refine ⟨fun w hw => ?_, fun w hw => by simp, by simp, by simp⟩
      rw [setTab_tab, Function.update_noteq hw]
    · rw [heq, htabc, setTab_ColPos]
      have := TabInv_insert msh H (st.tab c) (st.ColPos c) P inv i j hH hi1 hfP hkey0
      rw [henex] at this
      exact this
    · intro g hgmem hgunm
      rw [heq, htabc]
      rcases List.mem_append.mp hgmem with hgP | hgf
      · have hgunmP : ∀ g' ∈ P, g' ≠ g → tripF msh g' ≠ tripF msh g := by
          intro g' hg' h1 h3
          exact hgunm g' (List.mem_append_left _ hg') h1 h3
        obtain ⟨s, hfacet, hocc⟩ := hstored g hgP hgunmP
        refine ⟨s, ?_, ?_⟩
        · rw [Function.update_noteq (fun h => hocc (by rw [h]; exact hkey0))]
          exact hfacet
        · rw [Function.update_noteq (fun h => hocc (by rw [h]; exact hkey0))]
          exact hocc
      · rw [List.mem_singleton.mp hgf]
        refine ⟨hshKey H (msh.tet i) j, ?_, ?_⟩
        · rw [Function.update_same]
        · rw [Function.update_same]
          show i ≠ 0
          omega
    · right
      refine ⟨hnomate hnos, ?_, ?_⟩
      · rw [heq, setTab_NgbTab]
      · rw [heq, setTab_FlgTab]
  · -- occupied primary bucket: run the chain walk
    have hocc0 : (st.tab c (hshKey H (msh.tet i) j)).tet ≠ 0 := by
      rw [htab]
      exact hempty
    have heq : p1face msh H c st (i, j)
        = p1walk msh c i j (canonMM (msh.tet i) j).1 (canonMid (msh.tet i) j)
            (canonMM (msh.tet i) j).2 (st.ColPos c + 1) (hshKey H (msh.tet i) j) st := by
      simp only [p1face, htab, if_neg hempty]
    have hfuel : st.ColPos c ≤ hshKey H (msh.tet i) j + (st.ColPos c + 1) := by omega
    rcases p1walk_cases msh H c i j P st inv (st.ColPos c + 1) (hshKey H (msh.tet i) j)
        hocc0 hfuel with ⟨s', hsuf, hocc', htrip, hres⟩ | ⟨hnone, se, hsuf, hocc', hnex0, hres⟩
    · -- matched: link with the stored mate
      have hgP : ((st.tab c s').tet, (st.tab c s').voy) ∈ P := (inv.content s' hocc').1
      have hgne : ((st.tab c s').tet, (st.tab c s').voy) ≠ (i, j) :=
        fun h => hfP (h ▸ hgP)
      have hres' : p1face msh H c st (i, j)
          = incFlg (setNgb (incFlg (setNgb st i j (st.tab c s').tet) i)
              (st.tab c s').tet (st.tab c s').voy i) (st.tab c s').tet := by
        rw [heq]
        exact hres
      refine ⟨?_, ?_, ?_, Or.inl ⟨((st.tab c s').tet, (st.tab c s').voy),
        hgP, hgne, htrip, hres'⟩⟩
      · rw [hres']
        exact ⟨fun w hw => by simp, fun w hw => by simp, by simp, by simp⟩
      · rw [hres']
        simp only [incFlg_tab, setNgb_tab, incFlg_ColPos, setNgb_ColPos]
        exact TabInv_mono msh H (st.tab c) (st.ColPos c) P _
          (fun g hg => List.mem_append_left _ hg) inv
      · intro g hgmem hgunm
        rw [hres']
        simp only [incFlg_tab, setNgb_tab]
        rcases List.mem_append.mp hgmem with hgP2 | hgf
        · refine hstored g hgP2 ?_
          intro g' hg' h1 h3
          exact hgunm g' (List.mem_append_left _ hg') h1 h3
        · exfalso
          refine hgunm ((st.tab c s').tet, (st.tab c s').voy)
            (List.mem_append_left _ hgP) ?_ ?_
          · rw [List.mem_singleton.mp hgf]
            exact hgne
          · rw [List.mem_singleton.mp hgf]
            exact htrip
    · -- not found: append
      have hres' : p1face msh H c st (i, j)
          = { setTab (setTab st c se (HshSct.mk (st.tab c se).tet (st.tab c se).voy
                (st.tab c se).min (st.tab c se).mid (st.tab c se).max (st.ColPos c)))
                c (st.ColPos c) (HshSct.mk i j (canonMM (msh.tet i) j).1
                  (canonMid (msh.tet i) j) (canonMM (msh.tet i) j).2 0) with
              ColPos := Function.update st.ColPos c (st.ColPos c + 1) } := by
        rw [heq]
        exact hres
      have hnos : ∀ s, (st.tab c s).tet ≠ 0 →
          tripF msh ((st.tab c s).tet, (st.tab c s).voy) ≠ tripF msh (i, j) := by
        intro s hocc htr
        have hr := inv.reach s hocc
        rw [hshKey_congr H msh ((st.tab c s).tet, (st.tab c s).voy) (i, j) htr] at hr
        exact hnone s hr hocc htr
      have hselt : se < st.ColPos c := by
        by_contra hge
        rw [inv.zeroBeyond se (by omega)] at hocc'
        exact hocc' rfl
      have htabres : (p1face msh H c st (i, j)).tab c
          = Function.update
              (Function.update (st.tab c) se (HshSct.mk (st.tab c se).tet (st.tab c se).voy
                (st.tab c se).min (st.tab c se).mid (st.tab c se).max (st.ColPos c)))
              (st.ColPos c) (HshSct.mk i j (canonMM (msh.tet i) j).1
                (canonMid (msh.tet i) j) (canonMM (msh.tet i) j).2 0) := by
        rw [hres']
        simp only [setTab_tab, Function.update_same]
      have hcolres : (p1face msh H c st (i, j)).ColPos c = st.ColPos c + 1 := by
        rw [hres']
        simp only [Function.update_same]
      refine ⟨?_, ?_, ?_, Or.inr ⟨hnomate hnos,
        by rw [hres']; simp only [setTab_NgbTab],
        by rw [hres']; simp only [setTab_FlgTab]⟩⟩
      · refine ⟨fun w hw => ?_, fun w hw => ?_,
          by rw [hres']; simp only [setTab_visP],
          by rw [hres']; simp only [setTab_visC]⟩
        · rw [hres']
          simp only [setTab_tab]
          rw [Function.update_noteq hw, Function.update_noteq hw]
        · rw [hres']
          exact Function.update_noteq hw _ _
      · rw [htabres, hcolres]
        exact TabInv_append msh H (st.tab c) (st.ColPos c) P inv i j se hH hi1 hfP
          hocc' hnex0 hsuf
      · intro g hgmem hgunm
        rw [htabres]
        rcases List.mem_append.mp hgmem with hgP2 | hgf
        · have hgunmP : ∀ g' ∈ P, g' ≠ g → tripF msh g' ≠ tripF msh g := by
            intro g' hg' h1 h3
            exact hgunm g' (List.mem_append_left _ hg') h1 h3
          obtain ⟨s, hfacet, hoccs⟩ := hstored g hgP2 hgunmP
          have hslt : s < st.ColPos c := by
            by_contra hge
            rw [inv.zeroBeyond s (by omega)] at hoccs
            exact hoccs rfl
          by_cases hsse : s = se
          · subst hsse
            refine ⟨s, ?_, ?_⟩
            · rw [Function.update_noteq (by omega), Function.update_same]
              exact hfacet
            · rw [Function.update_noteq (by omega), Function.update_same]
              exact hoccs
          · refine ⟨s, ?_, ?_⟩
            · rw [Function.update_noteq (by omega), Function.update_noteq hsse]
              exact hfacet
            · rw [Function.update_noteq (by omega), Function.update_noteq hsse]
              exact hoccs
        · rw [List.mem_singleton.mp hgf]
          refine ⟨st.ColPos c, ?_, ?_⟩
          · rw [Function.update_same]
          · rw [Function.update_same]
            show i ≠ 0
            omega

/-- countP respects pointwise-equal predicates. -/
theorem countP_congr' {p q : Nat → Bool} :
    ∀ L : List Nat, (∀ x ∈ L, p x = q x) → L.countP p = L.countP q := by
  intro L
  induction L with
  | nil => intro h; rfl
  | cons x L ih =>
    intro h
    rw [List.countP_cons, List.countP_cons, h x (List.mem_cons_self x L),
      ih fun y hy => h y (List.mem_cons_of_mem x hy)]

/-- Flipping one predicate value from false to true raises countP by one. -/
theorem countP_flip {p q : Nat → Bool} (j0 : Nat) :
    ∀ L : List Nat, L.Nodup → j0 ∈ L → p j0 = false → q j0 = true →
      (∀ x ∈ L, x ≠ j0 → p x = q x) → L.countP q = L.countP p + 1 := by
  intro L
  induction L with
  | nil => intro _ h; exact absurd h (List.not_mem_nil j0)
  | cons x L ih =>
    intro hnd hmem hp hq hrest
    rw [List.countP_cons, List.countP_cons]
    by_cases hx : x = j0
    · subst hx
      have hxL : x ∉ L := (List.nodup_cons.mp hnd).1
      have heqc : L.countP q = L.countP p := by
        refine (countP_congr' L fun y hy => ?_).symm
        exact hrest y (List.mem_cons_of_mem x hy) fun h => hxL (h ▸ hy)
      rw [heqc, hp, hq]
      simp
    · have hmemL : j0 ∈ L := by
        rcases List.mem_cons.mp hmem with h | h
        · exact absurd h.symm hx
        · exact h
      have hpq : p x = q x := hrest x (List.mem_cons_self x L) hx
      rw [ih (List.nodup_cons.mp hnd).2 hmemL hp hq
        (fun y hy hyne => hrest y (List.mem_cons_of_mem x hy) hyne), hpq]
      omega

/-- Expanding a list of tet ids into their four facets keeps it nodup. -/
theorem facets_flat_nodup :
    ∀ L : List Nat, L.Nodup →
      (L.flatMap fun i => [(i, 0), (i, 1), (i, 2), (i, 3)]).Nodup := by
  intro L
  induction L with
  | nil => intro _; exact List.nodup_nil
  | cons i L ih =>
    intro hnd
    rw [List.flatMap_cons, List.nodup_append]
    refine ⟨by simp, ih (List.nodup_cons.mp hnd).2, ?_⟩
    intro a ha hb
    rw [List.mem_flatMap] at hb
    obtain ⟨i', hi', hai'⟩ := hb
    have h1 : a.1 = i := by
      simp only [List.mem_cons, List.not_mem_nil, or_false] at ha
      rcases ha with h | h | h | h <;> rw [h]
    have h2 : a.1 = i' := by
      simp only [List.mem_cons, List.not_mem_nil, or_false] at hai'
      rcases hai' with h | h | h | h <;> rw [h]
    exact (List.nodup_cons.mp hnd).1 (h1 ▸ h2 ▸ hi')

/-- The facet list of a range is nodup. -/
theorem facetsFromTo_nodup (bg en : Nat) : (facetsFromTo bg en).Nodup :=
  facets_flat_nodup _ (List.nodup_range' _ _)

/-- Counted-matches congruence across processed lists. -/
theorem mCnt_ext (msh : MshSct) (P Q : List (Nat × Nat)) (i : Nat)
    (h : ∀ j < 4, (((i, j) ∈ Q ∧ MatedIn msh Q (i, j))
      ↔ ((i, j) ∈ P ∧ MatedIn msh P (i, j)))) :
    mCnt msh Q i = mCnt msh P i := by
  unfold mCnt
  refine (countP_congr' _ fun x hx => ?_).symm
  rw [List.mem_range] at hx
  exact (decide_eq_decide.mpr (h x hx)).symm

/-- Counted matches grow by one when exactly one face flips to matched. -/
theorem mCnt_flip (msh : MshSct) (P Q : List (Nat × Nat)) (i j0 : Nat) (hj0 : j0 < 4)
    (hp : ¬((i, j0) ∈ P ∧ MatedIn msh P (i, j0)))
    (hq : (i, j0) ∈ Q ∧ MatedIn msh Q (i, j0))
    (h : ∀ x < 4, x ≠ j0 → (((i, x) ∈ Q ∧ MatedIn msh Q (i, x))
      ↔ ((i, x) ∈ P ∧ MatedIn msh P (i, x)))) :
    mCnt msh Q i = mCnt msh P i + 1 := by
  unfold mCnt
  refine countP_flip j0 _ (List.nodup_range 4) (by rw [List.mem_range]; exact hj0)
    (decide_eq_false hp) (decide_eq_true hq) ?_
  intro x hx hxne
  rw [List.mem_range] at hx
  exact decide_eq_decide.mpr (h x hx hxne).symm

/-- Unfolding lemma for in-list matchedness. -/
theorem matedIn_iff (msh : MshSct) (P : List (Nat × Nat)) (f : Nat × Nat) :
    MatedIn msh P f ↔ ∃ g ∈ P, g ≠ f ∧ tripF msh g = tripF msh f := Iff.rfl

/-- The bookkeeping invariant after processing a facet with no partner in
the already-processed list: NgbTab and FlgTab do not move. -/
theorem MInv_stepB (msh : MshSct) (st0 st st' : GSt) (P : List (Nat × Nat)) (i j : Nat)
    (minv : MInv msh st0 P st)
    (hfP : (i, j) ∉ P)
    (hnomate : ∀ g ∈ P, g ≠ (i, j) → tripF msh g ≠ tripF msh (i, j))
    (hN : st'.NgbTab = st.NgbTab) (hF : st'.FlgTab = st.FlgTab) :
    MInv msh st0 (P ++ [(i, j)]) st' where
  ngbM := by
    intro f' hf' g' hg' hne htr
    rw [hN]
    rcases List.mem_append.mp hf' with hfP' | hff
    · rcases List.mem_append.mp hg' with hgP' | hgf
      · exact minv.ngbM f' hfP' g' hgP' hne htr
      · rw [List.mem_singleton.mp hgf] at htr
        exact absurd htr.symm (hnomate f' hfP' fun he => hfP (he ▸ hfP'))
    · exfalso
      have hfeq := List.mem_singleton.mp hff
      rcases List.mem_append.mp hg' with hgP' | hgf
      · exact hnomate g' hgP' (fun he => hne (he.trans hfeq.symm))
          (by rw [hfeq] at htr; exact htr)
      · exact hne ((List.mem_singleton.mp hgf).trans hfeq.symm)
  ngbOut := by
    intro f' hf'
    rw [hN]
    exact minv.ngbOut f' fun h => hf' (List.mem_append_left _ h)
  ngbUnm := by
    intro f' hf' hunm
    rw [hN]
    rcases List.mem_append.mp hf' with hfP' | hff
    · exact minv.ngbUnm f' hfP' fun g hg hgne => hunm g (List.mem_append_left _ hg) hgne
    · rw [List.mem_singleton.mp hff]
      exact minv.ngbOut _ hfP
  flg := by
    intro i'
    rw [hF, minv.flg i']
    congr 1
    refine (mCnt_ext msh P (P ++ [(i, j)]) i' fun j' hj' => ?_).symm
    constructor
    · rintro ⟨hm, hmated⟩
      rw [matedIn_iff] at hmated
      obtain ⟨g'', hg'', hne'', htr''⟩ := hmated
      rcases List.mem_append.mp hm with hmP | hmf
      · refine ⟨hmP, ?_⟩
        rcases List.mem_append.mp hg'' with hgP | hgf
        · exact ⟨g'', hgP, hne'', htr''⟩
        · exfalso
          rw [List.mem_singleton.mp hgf] at htr''
          exact hnomate (i', j') hmP (fun he => hfP (he ▸ hmP)) htr''.symm
      · exfalso
        have hfeq := List.mem_singleton.mp hmf
        rcases List.mem_append.mp hg'' with hgP | hgf
        · exact hnomate g'' hgP (fun he => hne'' (he.trans hfeq.symm))
            (by rw [hfeq] at htr''; exact htr'')
        · exact hne'' ((List.mem_singleton.mp hgf).trans hfeq.symm)
    · rintro ⟨hm, hmated⟩
      rw [matedIn_iff] at hmated
      obtain ⟨g'', hg'', hne'', htr''⟩ := hmated
      exact ⟨List.mem_append_left _ hm,
        ⟨g'', List.mem_append_left _ hg'', hne'', htr''⟩⟩

/-- The bookkeeping invariant after processing a facet whose partner g lies
in the already-processed list: the cross links are written and both tets'
flags bump by one. -/
theorem MInv_stepA (msh : MshSct) (st0 st st' : GSt) (P : List (Nat × Nat)) (i j : Nat)
    (g : Nat × Nat)
    (hd : MshDistinct msh) (h2 : AtMostTwoPerFace msh)
    (hP : ∀ g' ∈ P, g' ∈ facetsFromTo 1 msh.NmbTet)
    (hfval : (i, j) ∈ facetsFromTo 1 msh.NmbTet)
    (minv : MInv msh st0 P st)
    (hfP : (i, j) ∉ P)
    (hgP : g ∈ P) (hgne : g ≠ (i, j)) (htr : tripF msh g = tripF msh (i, j))
    (hst' : st' = incFlg (setNgb (incFlg (setNgb st i j g.1) i) g.1 g.2 i) g.1) :
    MInv msh st0 (P ++ [(i, j)]) st' := by
  have hgval := hP g hgP
  have hg1i : i ≠ g.1 :=
    mate_ne_tet msh hd (i, j) g hfval hgval (Ne.symm hgne) htr.symm
  have huniq : ∀ g' ∈ P, g' ≠ (i, j) → tripF msh g' = tripF msh (i, j) → g' = g := by
    intro g' hg'P hg'ne htr'
    exact mate_unique msh h2 (i, j) g' g hfval (hP g' hg'P) hgval hg'ne hgne htr' htr
  have hgunm : ∀ g' ∈ P, g' ≠ g → tripF msh g' ≠ tripF msh g := by
    intro g' hg'P hg'g htr'
    exact hg'g (huniq g' hg'P (fun he => hfP (by rw [← he]; exact hg'P)) (htr'.trans htr))
  have hN : st'.NgbTab
      = Function.update (Function.update st.NgbTab (i, j) g.1) (g.1, g.2) i := by
    rw [hst']
    rfl
  have hF : ∀ i', st'.FlgTab i'
      = st.FlgTab i' + (if i' = i then 1 else 0) + (if i' = g.1 then 1 else 0) := by
    intro i'
    have he : st'.FlgTab = Function.update
        (Function.update st.FlgTab i (st.FlgTab i + 1)) g.1
        (Function.update st.FlgTab i (st.FlgTab i + 1) g.1 + 1) := by
      rw [hst']
      rfl
    rw [he]
    by_cases hc1 : i' = g.1
    · subst hc1
      rw [Function.update_same, Function.update_noteq (fun hh => hg1i hh.symm),
        if_neg (fun hh => hg1i hh.symm), if_pos rfl]
    · rw [Function.update_noteq hc1]
      by_cases hc2 : i' = i
      · subst hc2
        rw [Function.update_same, if_pos rfl, if_neg hc1]
      · rw [Function.update_noteq hc2, if_neg hc2, if_neg hc1]
        omega
  have hfv := (mem_facetsFromTo _ _ _).mp hfval
  have hgv := (mem_facetsFromTo _ _ _).mp hgval
  refine ⟨?_, ?_, ?_, ?_⟩
  · intro f' hf' g' hg' hne htr'
    rw [hN, Prod.mk.eta]
    rcases List.mem_append.mp hf' with hfP' | hff
    · by_cases hfg : f' = g
      · subst hfg
        have hg'eq : g' = (i, j) := by
          rcases List.mem_append.mp hg' with hgP' | hgf
          · exact absurd htr' (hgunm g' hgP' hne)
          · exact List.mem_singleton.mp hgf
        subst hg'eq
        rw [Function.update_same]
      · have hg'P : g' ∈ P := by
          rcases List.mem_append.mp hg' with h | h
          · exact h
          · exfalso
            rw [List.mem_singleton.mp h] at htr'
            exact hfg (huniq f' hfP' (fun he => hfP (by rw [← he]; exact hfP')) htr'.symm)
        rw [Function.update_noteq hfg,
          Function.update_noteq (fun he => hfP (by rw [← he]; exact hfP'))]
        exact minv.ngbM f' hfP' g' hg'P hne htr'
    · have hfeq := List.mem_singleton.mp hff
      subst hfeq
      have hg'P : g' ∈ P := by
        rcases List.mem_append.mp hg' with h | h
        · exact h
        · exact absurd (List.mem_singleton.mp h) hne
      have hg'g : g' = g := huniq g' hg'P hne htr'
      subst hg'g
      rw [Function.update_noteq (Ne.symm hgne), Function.update_same]
  · intro f' hf'
    have h1 : f' ∉ P := fun h => hf' (List.mem_append_left _ h)
    have h2' : f' ≠ (i, j) :=
      fun h => hf' (List.mem_append_right _ (List.mem_singleton.mpr h))
    rw [hN, Prod.mk.eta, Function.update_noteq (fun h => h1 (by rw [h]; exact hgP)),
      Function.update_noteq h2']
    exact minv.ngbOut f' h1
  · intro f' hf' hunm
    rcases List.mem_append.mp hf' with hfP' | hff
    · by_cases hfg : f' = g
      · exfalso
        subst hfg
        exact hunm (i, j) (List.mem_append_right _ (List.mem_singleton.mpr rfl))
          (Ne.symm hgne) htr.symm
      · rw [hN, Prod.mk.eta, Function.update_noteq hfg,
          Function.update_noteq (fun he => hfP (by rw [← he]; exact hfP'))]
        exact minv.ngbUnm f' hfP'
          fun g'' hg'' hne'' => hunm g'' (List.mem_append_left _ hg'') hne''
    · exfalso
      rw [List.mem_singleton.mp hff] at hunm
      exact hunm g (List.mem_append_left _ hgP) hgne htr
  · intro i'
    rw [hF i', minv.flg i']
    by_cases hc1 : i' = i
    · rw [hc1, if_pos rfl, if_neg hg1i]
      have hstep : mCnt msh (P ++ [(i, j)]) i = mCnt msh P i + 1 := by
        refine mCnt_flip msh P _ i j hfv.2.2 ?_ ?_ ?_
        · rintro ⟨hm, _⟩
          exact hfP hm
        · refine ⟨List.mem_append_right _ (List.mem_singleton.mpr rfl), ?_⟩
          rw [matedIn_iff]
          exact ⟨g, List.mem_append_left _ hgP, hgne, htr⟩
        · intro x hx hxne
          constructor
          · rintro ⟨hm, hmated⟩
            rw [matedIn_iff] at hmated
            obtain ⟨g'', hg'', hne'', htr''⟩ := hmated
            have hmP : (i, x) ∈ P := by
              rcases List.mem_append.mp hm with h | h
              · exact h
              · exfalso
                have := List.mem_singleton.mp h
                rw [Prod.mk.injEq] at this
                exact hxne this.2
            refine ⟨hmP, ?_⟩
            rw [matedIn_iff]
            rcases List.mem_append.mp hg'' with h | h
            · exact ⟨g'', h, hne'', htr''⟩
            · exfalso
              rw [List.mem_singleton.mp h] at htr''
              exact trip_ne_same_tet msh i j x hfv.1 hfv.2.1 hfv.2.2 hx
                (Ne.symm hxne) hd htr''
          · rintro ⟨hm, hmated⟩
            rw [matedIn_iff] at hmated
            obtain ⟨g'', hg'', hne'', htr''⟩ := hmated
            exact ⟨List.mem_append_left _ hm,
              ⟨g'', List.mem_append_left _ hg'', hne'', htr''⟩⟩
      rw [hstep]
      omega
    · by_cases hc2 : i' = g.1
      · rw [hc2, if_neg (fun hh => hg1i hh.symm), if_pos rfl]
        have hstep : mCnt msh (P ++ [(i, j)]) g.1 = mCnt msh P g.1 + 1 := by
          refine mCnt_flip msh P _ g.1 g.2 hgv.2.2 ?_ ?_ ?_
          · rintro ⟨hm, hmated⟩
            rw [matedIn_iff] at hmated
            obtain ⟨g'', hg'', hne'', htr''⟩ := hmated
            rw [Prod.mk.eta] at hne'' htr''
            exact hgunm g'' hg'' hne'' htr''
          · constructor
            · rw [Prod.mk.eta]
              exact List.mem_append_left _ hgP
            · rw [matedIn_iff]
              refine ⟨(i, j), List.mem_append_right _ (List.mem_singleton.mpr rfl), ?_, ?_⟩
              · rw [Prod.mk.eta]
                exact Ne.symm hgne
              · rw [Prod.mk.eta]
                exact htr.symm
          · intro x hx hxne
            constructor
            · rintro ⟨hm, hmated⟩
              rw [matedIn_iff] at hmated
              obtain ⟨g'', hg'', hne'', htr''⟩ := hmated
              have hmP : (g.1, x) ∈ P := by
                rcases List.mem_append.mp hm with h | h
                · exact h
                · exfalso
                  have := List.mem_singleton.mp h
                  rw [Prod.mk.injEq] at this
                  exact hg1i this.1.symm
              refine ⟨hmP, ?_⟩
              rw [matedIn_iff]
              rcases List.mem_append.mp hg'' with h | h
              · exact ⟨g'', h, hne'', htr''⟩
              · exfalso
                rw [List.mem_singleton.mp h] at htr''
                have htr3 : tripF msh (g.1, g.2) = tripF msh (g.1, x) := by
                  rw [Prod.mk.eta]
                  exact htr.trans htr''
                exact trip_ne_same_tet msh g.1 g.2 x hgv.1 hgv.2.1 hgv.2.2 hx
                  (Ne.symm hxne) hd htr3
            · rintro ⟨hm, hmated⟩
              rw [matedIn_iff] at hmated
              obtain ⟨g'', hg'', hne'', htr''⟩ := hmated
              exact ⟨List.mem_append_left _ hm,
                ⟨g'', List.mem_append_left _ hg'', hne'', htr''⟩⟩
        rw [hstep]
        omega
      · rw [if_neg hc1, if_neg hc2]
        have hstep : mCnt msh (P ++ [(i, j)]) i' = mCnt msh P i' := by
          refine mCnt_ext msh P _ i' fun x hx => ?_
          constructor
          · rintro ⟨hm, hmated⟩
            rw [matedIn_iff] at hmated
            obtain ⟨g'', hg'', hne'', htr''⟩ := hmated
            have hmP : (i', x) ∈ P := by
              rcases List.mem_append.mp hm with h | h
              · exact h
              · exfalso
                have := List.mem_singleton.mp h
                rw [Prod.mk.injEq] at this
                exact hc1 this.1
            refine ⟨hmP, ?_⟩
            rw [matedIn_iff]
            rcases List.mem_append.mp hg'' with h | h
            · exact ⟨g'', h, hne'', htr''⟩
            · exfalso
              rw [List.mem_singleton.mp h] at htr''
              have := huniq (i', x) hmP
                (fun he => hc1 (by rw [Prod.mk.injEq] at he; exact he.1)) htr''.symm
              rw [Prod.mk.injEq] at this
              exact hc2 this.1
          · rintro ⟨hm, hmated⟩
            rw [matedIn_iff] at hmated
            obtain ⟨g'', hg'', hne'', htr''⟩ := hmated
            exact ⟨List.mem_append_left _ hm,
              ⟨g'', List.mem_append_left _ hg'', hne'', htr''⟩⟩
        rw [hstep]
        omega

/-- Full specification of one worker's phase-one facet loop: frames on the
other workers' tables and the ghost logs, the table invariant and
storedness over all processed facets, and the NgbTab/FlgTab bookkeeping
invariant. -/
theorem p1fold_spec (msh : MshSct) (H c : Nat) (st0 : GSt)
    (hd : MshDistinct msh) (h2 : AtMostTwoPerFace msh) (hH : 1 ≤ H) :
    ∀ (F P : List (Nat × Nat)) (st : GSt),
      (P ++ F).Nodup →
      (∀ g ∈ P ++ F, g ∈ facetsFromTo 1 msh.NmbTet) →
      TabInv msh H (st.tab c) (st.ColPos c) P →
      (∀ g ∈ P, (∀ g' ∈ P, g' ≠ g → tripF msh g' ≠ tripF msh g) →
        ∃ s, (((st.tab c s).tet, (st.tab c s).voy) = g ∧ (st.tab c s).tet ≠ 0)) →
      MInv msh st0 P st →
      (∀ w, w ≠ c → (F.foldl (p1face msh H c) st).tab w = st.tab w) ∧
      (∀ w, w ≠ c → (F.foldl (p1face msh H c) st).ColPos w = st.ColPos w) ∧
      (F.foldl (p1face msh H c) st).visP = st.visP ∧
      (F.foldl (p1face msh H c) st).visC = st.visC ∧
      TabInv msh H ((F.foldl (p1face msh H c) st).tab c)
        ((F.foldl (p1face msh H c) st).ColPos c) (P ++ F) ∧
      (∀ g ∈ P ++ F, (∀ g' ∈ P ++ F, g' ≠ g → tripF msh g' ≠ tripF msh g) →
        ∃ s, ((((F.foldl (p1face msh H c) st).tab c s).tet,
                ((F.foldl (p1face msh H c) st).tab c s).voy) = g
          ∧ ((F.foldl (p1face msh H c) st).tab c s).tet ≠ 0)) ∧
      MInv msh st0 (P ++ F) (F.foldl (p1face msh H c) st) := by
  intro F
  induction F with
  | nil =>
    intro P st hnd hval inv hstored minv
    simp only [List.foldl_nil, List.append_nil]
    exact ⟨fun _ _ => trivial, fun _ _ => trivial, trivial, trivial, inv, hstored, minv⟩
  | cons f F ih =>
    intro P st hnd hval inv hstored minv
    rcases f with ⟨i, j⟩
    have hassoc : P ++ (i, j) :: F = (P ++ [(i, j)]) ++ F := by
      rw [List.append_assoc, List.singleton_append]
    have hfP : (i, j) ∉ P := by
      have hdisj := (List.nodup_append.mp hnd).2.2
      intro hmem
      exact hdisj hmem (List.mem_cons_self _ _)
    have hfval : (i, j) ∈ facetsFromTo 1 msh.NmbTet :=
      hval _ (List.mem_append_right _ (List.mem_cons_self _ _))
    have hPval : ∀ g ∈ P, g ∈ facetsFromTo 1 msh.NmbTet :=
      fun g hg => hval g (List.mem_append_left _ hg)
    obtain ⟨⟨ftab, fcol, fvp, fvc⟩, inv', hstored', hdisj⟩ :=
      p1face_spec msh H c st P i j h2 hH inv hstored hPval hfval hfP
    have minv' : MInv msh st0 (P ++ [(i, j)]) (p1face msh H c st (i, j)) := by
      rcases hdisj with ⟨g, hgP, hgne, htr, heq⟩ | ⟨hnomate, hNgb, hFlg⟩
      · exact MInv_stepA msh st0 st _ P i j g hd h2 hPval hfval minv hfP hgP hgne htr heq
      · exact MInv_stepB msh st0 st _ P i j minv hfP hnomate hNgb hFlg
    have hnd' : ((P ++ [(i, j)]) ++ F).Nodup := by
      rw [← hassoc]
      exact hnd
    have hval' : ∀ g ∈ (P ++ [(i, j)]) ++ F, g ∈ facetsFromTo 1 msh.NmbTet := by
      rw [← hassoc]
      exact hval
    obtain ⟨rtab, rcol, rvp, rvc, rinv, rstored, rminv⟩ :=
      ih (P ++ [(i, j)]) (p1face msh H c st (i, j)) hnd' hval' inv' hstored' minv'
    rw [List.foldl_cons, hassoc]
    refine ⟨?_, ?_, ?_, ?_, rinv, rstored, rminv⟩
    · intro w hw
      exact (rtab w hw).trans (ftab w hw)
    · intro w hw
      exact (rcol w hw).trans (fcol w hw)
    · exact rvp.trans fvp
    · exact rvc.trans fvc

/-- Counted matches vanish when no face of the tet is in the list. -/
theorem mCnt_zero (msh : MshSct) (P : List (Nat × Nat)) (i : Nat)
    (h : ∀ j, (i, j) ∉ P) : mCnt msh P i = 0 := by
  unfold mCnt
  rw [List.countP_eq_zero]
  intro x _
  simp only [decide_eq_true_eq]
  rintro ⟨hm, _⟩
  exact h x hm

/-- The untouched all-zero table satisfies the invariant for the empty
processed list. -/
theorem TabInv_init (msh : MshSct) (H : Nat) :
    TabInv msh H (fun _ => HshSct.zero) H [] where
  colH := le_refl H
  zeroBeyond := fun _ _ => rfl
  occBetween := fun s h1V h2V => by omega
  content := fun s hs => absurd rfl hs
  inj := fun s s' hs _ _ _ => absurd rfl hs
  nexLink := fun s hs => absurd rfl hs
  emptyNex := fun _ _ => rfl
  emptyZero := fun _ _ => rfl
  reach := fun s hs => absurd rfl hs

/-- The bookkeeping invariant is reflexive over the empty processed list. -/
theorem MInv_refl (msh : MshSct) (st : GSt) : MInv msh st [] st where
  ngbM := fun f hf => absurd hf (List.not_mem_nil f)
  ngbOut := fun _ _ => rfl
  ngbUnm := fun f hf => absurd hf (List.not_mem_nil f)
  flg := fun i => by
    rw [mCnt_zero msh [] i (fun j => List.not_mem_nil _)]
    omega

/-- Every worker's range ends inside the mesh. -/
theorem endOf_le (T N c : Nat) (hc : c < N) : endOf T N c ≤ T := by
  unfold endOf
  by_cases h : c = N - 1
  · rw [if_pos h]
  · rw [if_neg h]
    calc (c + 1) * (T / N) ≤ N * (T / N) := Nat.mul_le_mul_right _ (by omega)
    _ = T / N * N := Nat.mul_comm _ _
    _ ≤ T := Nat.div_mul_le_self _ _

/-- A worker's facets are facets of the mesh. -/
theorem Fw_subset (msh : MshSct) (N c : Nat) (hc : c < N) :
    ∀ f ∈ Fw msh N c, f ∈ facetsFromTo 1 msh.NmbTet := by
  intro f hf
  rw [Fw, mem_facetsFromTo] at hf
  rw [mem_facetsFromTo]
  have h1 : 1 ≤ begOf msh.NmbTet N c := by unfold begOf; omega
  have h2 := endOf_le msh.NmbTet N c hc
  exact ⟨by omega, by omega, hf.2.2⟩

/-- Different workers process disjoint facet sets. -/
theorem Fw_disjoint (msh : MshSct) (N c1 c2 : Nat) (hne : c1 ≠ c2) (h1 : c1 < N)
    (h2 : c2 < N) (f : Nat × Nat) (hf1 : f ∈ Fw msh N c1) (hf2 : f ∈ Fw msh N c2) :
    False := by
  rw [Fw, mem_facetsFromTo] at hf1 hf2
  have hx1 : 1 ≤ f.1 := le_trans (by unfold begOf; omega) hf1.1
  rcases Nat.lt_or_ge c1 c2 with h | h
  · exact ranges_disjoint msh.NmbTet N f.1 c1 c2 hx1 h h2 hf1.2.1 hf2.1
  · exact ranges_disjoint msh.NmbTet N f.1 c2 c1 hx1 (by omega) h1 hf2.2.1 hf1.1

/-- Every mesh index lies in some worker's range. -/
theorem range_cover (T N x : Nat) (hN : 1 ≤ N) (hx1 : 1 ≤ x) (hxT : x ≤ T) :
    ∃ c, c < N ∧ begOf T N c ≤ x ∧ x ≤ endOf T N c := by
  obtain ⟨q, hq⟩ : ∃ q, T / N = q := ⟨_, rfl⟩
  by_cases hq0 : q = 0
  · refine ⟨N - 1, by omega, ?_, ?_⟩
    · unfold begOf
      rw [hq, hq0]
      omega
    · unfold endOf
      rw [if_pos rfl]
      exact hxT
  · by_cases hbig : N - 1 ≤ (x - 1) / q
    · refine ⟨N - 1, by omega, ?_, ?_⟩
      · unfold begOf
        rw [hq]
        have ha : (N - 1) * q ≤ (x - 1) / q * q := Nat.mul_le_mul_right _ hbig
        have hb : (x - 1) / q * q ≤ x - 1 := Nat.div_mul_le_self _ _
        omega
      · unfold endOf
        rw [if_pos rfl]
        exact hxT
    · refine ⟨(x - 1) / q, by omega, ?_, ?_⟩
      · unfold begOf
        rw [hq]
        have hb : (x - 1) / q * q ≤ x - 1 := Nat.div_mul_le_self _ _
        omega
      · unfold endOf
        rw [hq, if_neg (by omega)]
        have hdm : q * ((x - 1) / q) + (x - 1) % q = x - 1 := Nat.div_add_mod _ _
        have hmod : (x - 1) % q < q := Nat.mod_lt _ (by omega)
        have hmul : ((x - 1) / q + 1) * q = q * ((x - 1) / q) + q := by ring
        omega

/-- Unfolding lemma: one more worker of phase one. -/
theorem p1run_succ (msh : MshSct) (N H n : Nat) :
    p1run msh N H (n + 1)
      = ParNgb1 msh H (begOf msh.NmbTet N n) (endOf msh.NmbTet N n) n
          (p1run msh N H n) := by
  unfold p1run
  rw [List.range_succ, List.foldl_append, List.foldl_cons, List.foldl_nil]

/-- Global induction over the workers of phase one: unprocessed tables are
pristine, processed workers satisfy the table invariant and storedness,
and NgbTab/FlgTab carry the global phase-one bookkeeping. -/
theorem phase1_fold_spec (msh : MshSct) (N H : Nat)
    (hd : MshDistinct msh) (h2 : AtMostTwoPerFace msh) (hH : 1 ≤ H) :
    ∀ n, n ≤ N →
      (∀ w, n ≤ w → (p1run msh N H n).tab w = fun _ => HshSct.zero) ∧
      (∀ w, n ≤ w → (p1run msh N H n).ColPos w = H) ∧
      (p1run msh N H n).visP = [] ∧
      (p1run msh N H n).visC = [] ∧
      (∀ w, w < n → TabInv msh H ((p1run msh N H n).tab w)
        ((p1run msh N H n).ColPos w) (Fw msh N w)) ∧
      (∀ w, w < n → ∀ g ∈ Fw msh N w,
        (∀ g' ∈ Fw msh N w, g' ≠ g → tripF msh g' ≠ tripF msh g) →
        ∃ s, ((((p1run msh N H n).tab w s).tet,
                ((p1run msh N H n).tab w s).voy) = g
          ∧ ((p1run msh N H n).tab w s).tet ≠ 0)) ∧
      (∀ w, w < n → ∀ f ∈ Fw msh N w, ∀ g ∈ Fw msh N w, g ≠ f →
        tripF msh g = tripF msh f → (p1run msh N H n).NgbTab f = g.1) ∧
      (∀ f, (∀ w, w < n → f ∈ Fw msh N w →
          ∀ g ∈ Fw msh N w, g ≠ f → tripF msh g ≠ tripF msh f) →
        (p1run msh N H n).NgbTab f = 0) ∧
      (∀ w, w < n → ∀ i', begOf msh.NmbTet N w ≤ i' → i' ≤ endOf msh.NmbTet N w →
        (p1run msh N H n).FlgTab i' = mCnt msh (Fw msh N w) i') ∧
      (∀ i', (∀ w, w < n →
          ¬(begOf msh.NmbTet N w ≤ i' ∧ i' ≤ endOf msh.NmbTet N w)) →
        (p1run msh N H n).FlgTab i' = 0) := by
  intro n
  induction n with
  | zero =>
    intro _
    exact ⟨fun _ _ => rfl, fun _ _ => rfl, rfl, rfl,
      fun w hw => absurd hw (by omega), fun w hw => absurd hw (by omega),
      fun w hw => absurd hw (by omega), fun f _ => rfl,
      fun w hw => absurd hw (by omega), fun _ _ => rfl⟩
  | succ n ih =>
    intro hn1
    have hnN : n < N := by omega
    obtain ⟨pr_tab, pr_col, pvp, pvc, ptinv, pstored, pgM, pgU, pgF1, pgF2⟩ :=
      ih (by omega)
    set r := p1run msh N H n with hr
    have hrw : p1run msh N H (n + 1) = (Fw msh N n).foldl (p1face msh H n) r := by
      rw [p1run_succ]
      rfl
    have htabn : r.tab n = fun _ => HshSct.zero := pr_tab n (le_refl n)
    have hcoln : r.ColPos n = H := pr_col n (le_refl n)
    have hinv0 : TabInv msh H (r.tab n) (r.ColPos n) [] := by
      rw [htabn, hcoln]
      exact TabInv_init msh H
    obtain ⟨ftab, fcol, fvp, fvc, finv, fstored, fminv⟩ :=
      p1fold_spec msh H n r hd h2 hH (Fw msh N n) [] r
        (by rw [List.nil_append]; exact facetsFromTo_nodup _ _)
        (by rw [List.nil_append]; exact Fw_subset msh N n hnN)
        hinv0 (fun g hg => absurd hg (List.not_mem_nil g)) (MInv_refl msh r)
    rw [List.nil_append] at finv fstored fminv
    rw [hrw]
    have hbegpos : ∀ w, 1 ≤ begOf msh.NmbTet N w := by
      intro w
      unfold begOf
      omega
    refine ⟨?_, ?_, ?_, ?_, ?_, ?_, ?_, ?_, ?_, ?_⟩
    · intro w hw
      rw [ftab w (by omega)]
      exact pr_tab w (by omega)
    · intro w hw
      rw [fcol w (by omega)]
      exact pr_col w (by omega)
    · exact fvp.trans pvp
    · exact fvc.trans pvc
    · intro w hw
      by_cases hwn : w = n
      · subst hwn
        exact finv
      · rw [ftab w hwn, fcol w hwn]
        exact ptinv w (by omega)
    · intro w hw
      by_cases hwn : w = n
      · subst hwn
        exact fstored
      · rw [ftab w hwn]
        exact pstored w (by omega)
    · intro w hw f hf g hg hne htr
      by_cases hwn : w = n
      · subst hwn
        exact fminv.ngbM f hf g hg hne htr
      · have hwlt : w < n := by omega
        have hfn : f ∉ Fw msh N n :=
          fun hfn => Fw_disjoint msh N w n hwn (by omega) hnN f hf hfn
        rw [fminv.ngbOut f hfn]
        exact pgM w hwlt f hf g hg hne htr
    · intro f hyp
      by_cases hfn : f ∈ Fw msh N n
      · rw [fminv.ngbUnm f hfn (hyp n (by omega) hfn)]
        refine pgU f ?_
        intro w hw hfw
        exact (Fw_disjoint msh N w n (by omega) (by omega) hnN f hfw hfn).elim
      · rw [fminv.ngbOut f hfn]
        refine pgU f ?_
        intro w hw hfw
        exact hyp w (by omega) hfw
    · intro w hw i' hb he
      rw [fminv.flg i']
      by_cases hwn : w = n
      · subst hwn
        have h0 : r.FlgTab i' = 0 := by
          refine pgF2 i' ?_
          rintro w' hw' ⟨hb', he'⟩
          exact ranges_disjoint msh.NmbTet N i' w' w
            (le_trans (hbegpos w) hb) hw' hnN he' hb
        rw [h0]
        omega
      · have hwlt : w < n := by omega
        have h0 : mCnt msh (Fw msh N n) i' = 0 := by
          refine mCnt_zero msh _ i' ?_
          intro j hj
          rw [Fw, mem_facetsFromTo] at hj
          exact ranges_disjoint msh.NmbTet N i' w n
            (le_trans (hbegpos w) hb) hwlt hnN he hj.1
        rw [h0, pgF1 w hwlt i' hb he]
        omega
    · intro i' hyp
      rw [fminv.flg i', pgF2 i' (fun w hw => hyp w (by omega))]
      have h0 : mCnt msh (Fw msh N n) i' = 0 := by
        refine mCnt_zero msh _ i' ?_
        intro j hj
        rw [Fw, mem_facetsFromTo] at hj
        exact hyp n (by omega) ⟨hj.1, hj.2.1⟩
      rw [h0]

/-- Case analysis of the phase-two chain walk inside worker n's table:
either some chained slot carries the probe facet's canonical triple, the
walk reports success and writes exactly NgbTab[i][j], or no chained
occupied slot matches, the walk reports failure and NgbTab is untouched.
The walk may start at an empty primary bucket: the all-zero slot never
matches a facet with pairwise-distinct canonical vertices. -/
theorem p2walk_cases (msh : MshSct) (H n i j : Nat) (F : List (Nat × Nat))
    (tb : Nat → HshSct) (col : Nat) (inv : TabInv msh H tb col F)
    (hdt : TetDistinct (msh.tet i)) (hj : j < 4) :
    ∀ (fuel : Nat), ∀ (key : Nat) (first : Bool) (st : GSt),
      st.tab n = tb → st.ColPos n = col → col ≤ key + fuel →
      (∃ s', SufReach tb key s' ∧ (tb s').tet ≠ 0 ∧
          tripF msh ((tb s').tet, (tb s').voy) = tripF msh (i, j) ∧
          (p2walk msh n i j (canonMM (msh.tet i) j).1 (canonMid (msh.tet i) j)
              (canonMM (msh.tet i) j).2 fuel key first st).2 = true ∧
          (p2walk msh n i j (canonMM (msh.tet i) j).1 (canonMid (msh.tet i) j)
              (canonMM (msh.tet i) j).2 fuel key first st).1.NgbTab
            = Function.update st.NgbTab (i, j) (tb s').tet)
      ∨ ((∀ s', SufReach tb key s' → (tb s').tet ≠ 0 →
            tripF msh ((tb s').tet, (tb s').voy) ≠ tripF msh (i, j)) ∧
         (p2walk msh n i j (canonMM (msh.tet i) j).1 (canonMid (msh.tet i) j)
             (canonMM (msh.tet i) j).2 fuel key first st).2 = false ∧
         (p2walk msh n i j (canonMM (msh.tet i) j).1 (canonMid (msh.tet i) j)
             (canonMM (msh.tet i) j).2 fuel key first st).1.NgbTab = st.NgbTab) := by
  intro fuel
  induction fuel with
  | zero =>
    intro key first st hst hcol hfuel
    right
    refine ⟨?_, rfl, rfl⟩
    intro s' hsuf hocc htr
    have hz : tb key = HshSct.zero := inv.zeroBeyond key (by omega)
    have hnex0 : (tb key).nex = 0 := by
      rw [hz]
      rfl
    have heqs := SufReach_end hnex0 hsuf
    subst heqs
    rw [hz] at hocc
    exact hocc rfl
  | succ fuel ih =>
    intro key first st hst hcol hfuel
    obtain ⟨et, ev, emn, emd, emx, enex, htab⟩ :
        ∃ et ev emn emd emx enex, tb key = HshSct.mk et ev emn emd emx enex :=
      ⟨_, _, _, _, _, _, rfl⟩
    have htab' : st.tab n key = HshSct.mk et ev emn emd emx enex := by rw [hst, htab]
    have htet : (tb key).tet = et := by rw [htab]
    have hvoy : (tb key).voy = ev := by rw [htab]
    have hnexv : (tb key).nex = enex := by rw [htab]
    have h1tab : (if first then pushP st et else pushC st et).tab = st.tab := by
      cases first <;> simp
    have h1col : (if first then pushP st et else pushC st et).ColPos = st.ColPos := by
      cases first <;> simp
    have h1ngb : (if first then pushP st et else pushC st et).NgbTab = st.NgbTab := by
      cases first <;> simp
    have hcan : et ≠ 0 →
        emn = (canonMM (msh.tet et) ev).1 ∧ emd = canonMid (msh.tet et) ev
          ∧ emx = (canonMM (msh.tet et) ev).2 := by
      intro hocc
      have hcontent := inv.content key (by rw [htet]; exact hocc)
      have c1 := hcontent.2.1
      have c2 := hcontent.2.2.1
      have c3 := hcontent.2.2.2
      rw [htab] at c1 c2 c3
      exact ⟨c1, c2, c3⟩
    by_cases hm : (msh.tet et).idx emn = (msh.tet i).idx (canonMM (msh.tet i) j).1
        ∧ (msh.tet et).idx emd = (msh.tet i).idx (canonMid (msh.tet i) j)
        ∧ (msh.tet et).idx emx = (msh.tet i).idx (canonMM (msh.tet i) j).2
    · have hocc : et ≠ 0 := by
        intro h0
        have hz : tb key = HshSct.zero := inv.emptyZero key (by rw [htet, h0])
        rw [htab] at hz
        rw [show HshSct.zero = HshSct.mk 0 0 0 0 0 0 from rfl, HshSct.mk.injEq] at hz
        obtain ⟨_, _, hmn0, hmd0, hmx0, _⟩ := hz
        rw [h0, hmn0, hmd0, hmx0] at hm
        exact zero_slot_no_match msh i j hdt hj hm
      obtain ⟨c1, c2, c3⟩ := hcan hocc
      have htrip : tripF msh ((tb key).tet, (tb key).voy) = tripF msh (i, j) := by
        rw [htet, hvoy, trip_eq_iff]
        simp only
        rw [← c1, ← c2, ← c3]
        exact hm
      have heq : (p2walk msh n i j (canonMM (msh.tet i) j).1 (canonMid (msh.tet i) j)
          (canonMM (msh.tet i) j).2 (fuel + 1) key first st)
          = (setNgb (if first then pushP st et else pushC st et) i j et, true) := by
        simp only [p2walk, htab', if_pos hm]
      left
      refine ⟨key, SufReach.refl, (by rw [htet]; exact hocc), htrip, ?_, ?_⟩
      · rw [heq]
      · rw [heq]
        simp only [setNgb_NgbTab]
        rw [h1ngb, htet]
    · by_cases hnx : enex ≠ 0
      · have hocck : et ≠ 0 := by
          intro h0
          have hz : (tb key).nex = 0 := inv.emptyNex key (by rw [htet, h0])
          rw [hnexv] at hz
          exact hnx hz
        obtain ⟨c1, c2, c3⟩ := hcan hocck
        have hnl := inv.nexLink key (by rw [hnexv]; exact hnx)
        rw [hnexv] at hnl
        have hfn : col ≤ enex + fuel := by
          have := hnl.2.1
          omega
        have heq : p2walk msh n i j (canonMM (msh.tet i) j).1 (canonMid (msh.tet i) j)
            (canonMM (msh.tet i) j).2 (fuel + 1) key first st
            = p2walk msh n i j (canonMM (msh.tet i) j).1 (canonMid (msh.tet i) j)
                (canonMM (msh.tet i) j).2 fuel enex false
                (if first then pushP st et else pushC st et) := by
          simp only [p2walk, htab', if_neg hm, if_pos hnx]
        have hstep : SufReach tb key enex := SufReach.tail SufReach.refl hnexv hnx
        rcases ih enex false (if first then pushP st et else pushC st et)
            (by rw [h1tab, hst]) (by rw [h1col, hcol]) hfn with
          ⟨s', ha, hb, hc2, htrue, hN⟩ | ⟨hnone, hfalse, hN⟩
        · left
          refine ⟨s', hstep.trans' ha, hb, hc2, ?_, ?_⟩
          · rw [heq]
            exact htrue
          · rw [heq, hN, h1ngb]
        · right
          refine ⟨?_, by rw [heq]; exact hfalse, by rw [heq, hN, h1ngb]⟩
          intro s' hsuf hocc' htr
          rcases SufReach_step_decomp hnexv hnx hsuf with heqs | hsuf'
          · apply hm
            rw [heqs, htet, hvoy, trip_eq_iff] at htr
            simp only at htr
            rw [c1, c2, c3]
            exact htr
          · exact hnone s' hsuf' hocc' htr
      · push_neg at hnx
        right
        have heq : p2walk msh n i j (canonMM (msh.tet i) j).1 (canonMid (msh.tet i) j)
            (canonMM (msh.tet i) j).2 (fuel + 1) key first st
            = ((if first then pushP st et else pushC st et), false) := by
          simp only [p2walk, htab', if_neg hm,
            if_neg (show ¬(enex ≠ 0) by omega)]
        refine ⟨?_, by rw [heq], by rw [heq]; exact h1ngb⟩
        intro s' hsuf hocc' htr
        have hnex0 : (tb key).nex = 0 := by rw [hnexv, hnx]
        have heqs := SufReach_end hnex0 hsuf
        subst heqs
        have hocc : et ≠ 0 := by rw [htet] at hocc'; exact hocc'
        obtain ⟨c1, c2, c3⟩ := hcan hocc
        apply hm
        rw [htet, hvoy, trip_eq_iff] at htr
        simp only at htr
        rw [c1, c2, c3]
        exact htr

/-- When no probed worker stores a facet with the probe facet's triple,
the whole probe loop leaves NgbTab untouched. -/
theorem p2probe_none (msh : MshSct) (H c i j : Nat) (Fof : Nat → List (Nat × Nat))
    (hdt : TetDistinct (msh.tet i)) (hj : j < 4) :
    ∀ (ns : List Nat) (st : GSt),
      (∀ n ∈ ns, n ≠ c → TabInv msh H (st.tab n) (st.ColPos n) (Fof n)) →
      (∀ n ∈ ns, n ≠ c → ∀ g' ∈ Fof n, tripF msh g' ≠ tripF msh (i, j)) →
      (p2probe msh c i j (canonMM (msh.tet i) j).1 (canonMid (msh.tet i) j)
          (canonMM (msh.tet i) j).2 (hshKey H (msh.tet i) j) ns st).NgbTab
        = st.NgbTab := by
  intro ns
  induction ns with
  | nil => intro st _ _; rfl
  | cons n ns ih =>
    intro st hinv hno
    by_cases hnc : n = c
    · have heq : p2probe msh c i j (canonMM (msh.tet i) j).1 (canonMid (msh.tet i) j)
          (canonMM (msh.tet i) j).2 (hshKey H (msh.tet i) j) (n :: ns) st
          = p2probe msh c i j (canonMM (msh.tet i) j).1 (canonMid (msh.tet i) j)
              (canonMM (msh.tet i) j).2 (hshKey H (msh.tet i) j) ns st := by
        simp only [p2probe, if_pos hnc]
      rw [heq]
      exact ih st (fun m hm => hinv m (List.mem_cons_of_mem n hm))
        (fun m hm => hno m (List.mem_cons_of_mem n hm))
    · have hinvn := hinv n (List.mem_cons_self n ns) hnc
      rcases p2walk_cases msh H n i j (Fof n) (st.tab n) (st.ColPos n) hinvn hdt hj
          (st.ColPos n + 1) (hshKey H (msh.tet i) j) true st rfl rfl (by omega) with
        ⟨s', hreach, hocc, htrip, _, _⟩ | ⟨_, hfalse, hN⟩
      · exfalso
        have hmem := (hinvn.content s' hocc).1
        exact hno n (List.mem_cons_self n ns) hnc _ hmem htrip
      · obtain ⟨w1, w2, w3, w4⟩ := p2walk_frame msh n i j (canonMM (msh.tet i) j).1
          (canonMid (msh.tet i) j) (canonMM (msh.tet i) j).2
          (st.ColPos n + 1) (hshKey H (msh.tet i) j) true st
        have heq : p2probe msh c i j (canonMM (msh.tet i) j).1 (canonMid (msh.tet i) j)
            (canonMM (msh.tet i) j).2 (hshKey H (msh.tet i) j) (n :: ns) st
            = p2probe msh c i j (canonMM (msh.tet i) j).1 (canonMid (msh.tet i) j)
                (canonMM (msh.tet i) j).2 (hshKey H (msh.tet i) j) ns
                (p2walk msh n i j (canonMM (msh.tet i) j).1 (canonMid (msh.tet i) j)
                  (canonMM (msh.tet i) j).2 (st.ColPos n + 1)
                  (hshKey H (msh.tet i) j) true st).1 := by
          simp only [p2probe, if_neg hnc, hfalse, if_neg (Bool.false_ne_true)]
        rw [heq]
        have hres := ih (p2walk msh n i j (canonMM (msh.tet i) j).1
            (canonMid (msh.tet i) j) (canonMM (msh.tet i) j).2 (st.ColPos n + 1)
            (hshKey H (msh.tet i) j) true st).1
          (fun m hm hmc => by rw [w1, w2]; exact hinv m (List.mem_cons_of_mem n hm) hmc)
          (fun m hm => hno m (List.mem_cons_of_mem n hm))
        rw [hres, hN]

/-- When the probe facet's unique partner g is stored in one of the probed
workers' tables, the probe loop writes exactly NgbTab[i][j] := g's tet. -/
theorem p2probe_found (msh : MshSct) (H c i j : Nat) (Fof : Nat → List (Nat × Nat))
    (g : Nat × Nat)
    (hdt : TetDistinct (msh.tet i)) (hj : j < 4)
    (htrg : tripF msh g = tripF msh (i, j)) :
    ∀ (ns : List Nat) (st : GSt),
      (∀ n ∈ ns, n ≠ c → TabInv msh H (st.tab n) (st.ColPos n) (Fof n)) →
      (∀ n ∈ ns, n ≠ c → ∀ g' ∈ Fof n, tripF msh g' = tripF msh (i, j) → g' = g) →
      (∃ m ∈ ns, m ≠ c ∧ ∃ s, (((st.tab m s).tet, (st.tab m s).voy) = g
        ∧ (st.tab m s).tet ≠ 0)) →
      (p2probe msh c i j (canonMM (msh.tet i) j).1 (canonMid (msh.tet i) j)
          (canonMM (msh.tet i) j).2 (hshKey H (msh.tet i) j) ns st).NgbTab
        = Function.update st.NgbTab (i, j) g.1 := by
  intro ns
  induction ns with
  | nil =>
    intro st _ _ hex
    obtain ⟨m, hm, _⟩ := hex
    exact absurd hm (List.not_mem_nil m)
  | cons n ns ih =>
    intro st hinv huniq hex
    by_cases hnc : n = c
    · have heq : p2probe msh c i j (canonMM (msh.tet i) j).1 (canonMid (msh.tet i) j)
          (canonMM (msh.tet i) j).2 (hshKey H (msh.tet i) j) (n :: ns) st
          = p2probe msh c i j (canonMM (msh.tet i) j).1 (canonMid (msh.tet i) j)
              (canonMM (msh.tet i) j).2 (hshKey H (msh.tet i) j) ns st := by
        simp only [p2probe, if_pos hnc]
      rw [heq]
      refine ih st (fun m hm => hinv m (List.mem_cons_of_mem n hm))
        (fun m hm => huniq m (List.mem_cons_of_mem n hm)) ?_
      obtain ⟨m, hm, hmc, hs⟩ := hex
      rcases List.mem_cons.mp hm with h | h
      · exact absurd (h.trans hnc) hmc
      · exact ⟨m, h, hmc, hs⟩
    · have hinvn := hinv n (List.mem_cons_self n ns) hnc
      rcases p2walk_cases msh H n i j (Fof n) (st.tab n) (st.ColPos n) hinvn hdt hj
          (st.ColPos n + 1) (hshKey H (msh.tet i) j) true st rfl rfl (by omega) with
        ⟨s', hreach, hocc, htrip, htrue, hN⟩ | ⟨hnone, hfalse, hN⟩
      · have hmem := (hinvn.content s' hocc).1
        have hgeq : ((st.tab n s').tet, (st.tab n s').voy) = g :=
          huniq n (List.mem_cons_self n ns) hnc _ hmem htrip
        have heq : p2probe msh c i j (canonMM (msh.tet i) j).1 (canonMid (msh.tet i) j)
            (canonMM (msh.tet i) j).2 (hshKey H (msh.tet i) j) (n :: ns) st
            = (p2walk msh n i j (canonMM (msh.tet i) j).1 (canonMid (msh.tet i) j)
                (canonMM (msh.tet i) j).2 (st.ColPos n + 1)
                (hshKey H (msh.tet i) j) true st).1 := by
          simp only [p2probe, if_neg hnc, htrue, if_pos]
        rw [heq, hN]
        have : (st.tab n s').tet = g.1 := by
          rw [← hgeq]
        rw [this]
      · 
        obtain ⟨w1, w2, w3, w4⟩ := p2walk_frame msh n i j (canonMM (msh.tet i) j).1
          (canonMid (msh.tet i) j) (canonMM (msh.tet i) j).2
          (st.ColPos n + 1) (hshKey H (msh.tet i) j) true st
        have hmnotn : ∀ s, ¬(((st.tab n s).tet, (st.tab n s).voy) = g
            ∧ (st.tab n s).tet ≠ 0) := by
          rintro s ⟨hfac, hocc⟩
          have hr := hinvn.reach s hocc
          have hkeq : hshKey H (msh.tet (st.tab n s).tet) (st.tab n s).voy
              = hshKey H (msh.tet i) j := by
            have := hshKey_congr H msh ((st.tab n s).tet, (st.tab n s).voy) (i, j)
              (by rw [hfac]; exact htrg)
            exact this
          rw [hkeq] at hr
          exact hnone s hr hocc (by rw [hfac]; exact htrg)
        have heq : p2probe msh c i j (canonMM (msh.tet i) j).1 (canonMid (msh.tet i) j)
            (canonMM (msh.tet i) j).2 (hshKey H (msh.tet i) j) (n :: ns) st
            = p2probe msh c i j (canonMM (msh.tet i) j).1 (canonMid (msh.tet i) j)
                (canonMM (msh.tet i) j).2 (hshKey H (msh.tet i) j) ns
                (p2walk msh n i j (canonMM (msh.tet i) j).1 (canonMid (msh.tet i) j)
                  (canonMM (msh.tet i) j).2 (st.ColPos n + 1)
                  (hshKey H (msh.tet i) j) true st).1 := by
          simp only [p2probe, if_neg hnc, hfalse, if_neg (Bool.false_ne_true)]
        rw [heq]
        have hres := ih (p2walk msh n i j (canonMM (msh.tet i) j).1
            (canonMid (msh.tet i) j) (canonMM (msh.tet i) j).2 (st.ColPos n + 1)
            (hshKey H (msh.tet i) j) true st).1
          (fun m hm hmc => by rw [w1, w2]; exact hinv m (List.mem_cons_of_mem n hm) hmc)
          (fun m hm => huniq m (List.mem_cons_of_mem n hm)) ?hex2
        case hex2 =>
          obtain ⟨m, hm, hmc, s, hs⟩ := hex
          have hmn : m ≠ n := by
            intro hmeq
            rw [hmeq] at hs
            exact hmnotn s hs
          rcases List.mem_cons.mp hm with h | h
          · exact absurd h hmn
          · exact ⟨m, h, hmc, s, by rw [w1]; exact hs⟩
        rw [hres, hN]

/-- Any partner facet realizes the specification-side adjacency value. -/
theorem mate_adj (msh : MshSct) (h2 : AtMostTwoPerFace msh) (f g : Nat × Nat)
    (hf : f ∈ facetsFromTo 1 msh.NmbTet) (hg : g ∈ facetsFromTo 1 msh.NmbTet)
    (hne : g ≠ f) (htr : tripF msh g = tripF msh f) : AdjOf msh f = g.1 := by
  have hsome : ∃ a, mateF msh f = some a := by
    rw [← Option.isSome_iff_exists, mateF, List.find?_isSome]
    refine ⟨g, hg, ?_⟩
    simp only [Bool.and_eq_true, decide_eq_true_eq]
    exact ⟨hne, htr⟩
  obtain ⟨a, ha⟩ := hsome
  have hpa := List.find?_some ha
  have hma := List.mem_of_find?_eq_some ha
  simp only [Bool.and_eq_true, decide_eq_true_eq] at hpa
  have hag : a = g := mate_unique msh h2 f a g hf hma hg hpa.1 hne hpa.2 htr
  simp only [AdjOf, ha, hag]

/-- A facet without a partner gets adjacency value zero. -/
theorem no_mate_adj (msh : MshSct) (f : Nat × Nat)
    (hno : ∀ g ∈ facetsFromTo 1 msh.NmbTet, g ≠ f → tripF msh g ≠ tripF msh f) :
    AdjOf msh f = 0 := by
  have hnone : mateF msh f = none := by
    rw [mateF, List.find?_eq_none]
    intro x hx
    simp only [Bool.and_eq_true, decide_eq_true_eq, not_and]
    intro hne htr
    exact absurd htr (hno x hx hne)
  simp only [AdjOf, hnone]

/-- Phase-two per-face correctness: a face that already has a neighbour
keeps its correct value, and a face without one gets its unique partner's
tet id from the cross-worker probe, or stays zero on a boundary face. -/
theorem p2face_spec (msh : MshSct) (H N c i j : Nat)
    (hd : MshDistinct msh) (h2 : AtMostTwoPerFace msh) (hN : 1 ≤ N) (hcN : c < N)
    (hfv : (i, j) ∈ facetsFromTo 1 msh.NmbTet)
    (hfc : (i, j) ∈ Fw msh N c)
    (st : GSt)
    (invs : ∀ w, w < N → w ≠ c → TabInv msh H (st.tab w) (st.ColPos w) (Fw msh N w))
    (storeds : ∀ w, w < N → w ≠ c → ∀ g ∈ Fw msh N w,
      (∀ g' ∈ Fw msh N w, g' ≠ g → tripF msh g' ≠ tripF msh g) →
      ∃ s, (((st.tab w s).tet, (st.tab w s).voy) = g ∧ (st.tab w s).tet ≠ 0))
    (hz : st.NgbTab (i, j) = 0 →
      ∀ g ∈ Fw msh N c, g ≠ (i, j) → tripF msh g ≠ tripF msh (i, j))
    (hnz : st.NgbTab (i, j) ≠ 0 → st.NgbTab (i, j) = AdjOf msh (i, j)) :
    (p2face msh H N c st (i, j)).NgbTab (i, j) = AdjOf msh (i, j) := by
  have hfv' := (mem_facetsFromTo _ _ _).mp hfv
  have hdt : TetDistinct (msh.tet i) := hd i (by omega) hfv'.1
  by_cases h0 : st.NgbTab (i, j) ≠ 0
  · have heq : p2face msh H N c st (i, j) = st := by
      simp only [p2face, if_pos h0]
    rw [heq]
    exact hnz h0
  · push_neg at h0
    have hnn : ¬st.NgbTab (i, j) ≠ 0 := by
      rw [h0]
      exact fun hh => hh rfl
    have heq : p2face msh H N c st (i, j)
        = p2probe msh c i j (canonMM (msh.tet i) j).1 (canonMid (msh.tet i) j)
            (canonMM (msh.tet i) j).2 (hshKey H (msh.tet i) j) (List.range N) st := by
      simp only [p2face, if_neg hnn]
    rw [heq]
    by_cases hmate : ∃ g ∈ facetsFromTo 1 msh.NmbTet, g ≠ (i, j)
        ∧ tripF msh g = tripF msh (i, j)
    · obtain ⟨g, hgval, hgne, htrg⟩ := hmate
      have hgnotc : g ∉ Fw msh N c := fun hgc => hz h0 g hgc hgne htrg
      have hgv := (mem_facetsFromTo _ _ _).mp hgval
      obtain ⟨m, hmN, hmb, hme⟩ := range_cover msh.NmbTet N g.1 hN hgv.1 hgv.2.1
      have hgm : g ∈ Fw msh N m := by
        rw [Fw, mem_facetsFromTo]
        exact ⟨hmb, hme, hgv.2.2⟩
      have hmc : m ≠ c := fun hh => hgnotc (hh ▸ hgm)
      have hgunm : ∀ g' ∈ Fw msh N m, g' ≠ g → tripF msh g' ≠ tripF msh g := by
        intro g' hg' hg'g htr'
        have hg'val := Fw_subset msh N m hmN g' hg'
        have hg'f : g' ≠ (i, j) :=
          fun hh => Fw_disjoint msh N m c hmc hmN hcN (i, j) (hh ▸ hg') hfc
        exact hg'g (mate_unique msh h2 (i, j) g' g hfv hg'val hgval hg'f hgne
          (htr'.trans htrg) htrg)
      have hres := p2probe_found msh H c i j (fun w => Fw msh N w) g hdt hfv'.2.2 htrg
        (List.range N) st
        (fun n hn hnc => invs n (List.mem_range.mp hn) hnc)
        (fun n hn hnc g' hg' htr' => by
          have hnN := List.mem_range.mp hn
          have hg'val := Fw_subset msh N n hnN g' hg'
          have hg'f : g' ≠ (i, j) :=
            fun hh => Fw_disjoint msh N n c hnc hnN hcN (i, j) (hh ▸ hg') hfc
          exact mate_unique msh h2 (i, j) g' g hfv hg'val hgval hg'f hgne htr' htrg)
        ⟨m, List.mem_range.mpr hmN, hmc, storeds m hmN hmc g hgm hgunm⟩
      rw [hres, Function.update_same]
      exact (mate_adj msh h2 (i, j) g hfv hgval hgne htrg).symm
    · push_neg at hmate
      have hres := p2probe_none msh H c i j (fun w => Fw msh N w) hdt hfv'.2.2
        (List.range N) st
        (fun n hn hnc => invs n (List.mem_range.mp hn) hnc)
        (fun n hn hnc g' hg' htr' => by
          have hnN := List.mem_range.mp hn
          have hg'val := Fw_subset msh N n hnN g' hg'
          have hg'f : g' ≠ (i, j) :=
            fun hh => Fw_disjoint msh N n c hnc hnN hcN (i, j) (hh ▸ hg') hfc
          exact hmate g' hg'val hg'f htr')
      rw [hres, h0]
      exact (no_mate_adj msh (i, j) hmate).symm

/-- Phase-two specification of a fold over pairwise distinct faces of the
caller's subdomain: every processed face ends at its adjacency value,
everything else is untouched. -/
theorem p2faces_fold_spec (msh : MshSct) (H N c : Nat)
    (hd : MshDistinct msh) (h2 : AtMostTwoPerFace msh) (hN : 1 ≤ N) (hcN : c < N) :
    ∀ (L : List (Nat × Nat)) (st : GSt),
      L.Nodup →
      (∀ f ∈ L, f ∈ facetsFromTo 1 msh.NmbTet) →
      (∀ f ∈ L, f ∈ Fw msh N c) →
      (∀ w, w < N → w ≠ c → TabInv msh H (st.tab w) (st.ColPos w) (Fw msh N w)) →
      (∀ w, w < N → w ≠ c → ∀ g ∈ Fw msh N w,
        (∀ g' ∈ Fw msh N w, g' ≠ g → tripF msh g' ≠ tripF msh g) →
        ∃ s, (((st.tab w s).tet, (st.tab w s).voy) = g ∧ (st.tab w s).tet ≠ 0)) →
      (∀ f ∈ L, st.NgbTab f = 0 →
        ∀ g ∈ Fw msh N c, g ≠ f → tripF msh g ≠ tripF msh f) →
      (∀ f ∈ L, st.NgbTab f ≠ 0 → st.NgbTab f = AdjOf msh f) →
      (L.foldl (p2face msh H N c) st).tab = st.tab ∧
      (L.foldl (p2face msh H N c) st).ColPos = st.ColPos ∧
      (L.foldl (p2face msh H N c) st).FlgTab = st.FlgTab ∧
      (∀ f ∈ L, (L.foldl (p2face msh H N c) st).NgbTab f = AdjOf msh f) ∧
      (∀ f', f' ∉ L → (L.foldl (p2face msh H N c) st).NgbTab f' = st.NgbTab f') := by
  intro L
  induction L with
  | nil =>
    intro st _ _ _ _ _ _ _
    exact ⟨rfl, rfl, rfl, fun f hf => absurd hf (List.not_mem_nil f),
      fun _ _ => rfl⟩
  | cons f L ih =>
    intro st hnd hval hown invs storeds hz hnz
    have hfL : f ∉ L := (List.nodup_cons.mp hnd).1
    obtain ⟨w1, w2, w3, w4⟩ := p2face_frame msh H N c st f
    have hface : (p2face msh H N c st f).NgbTab f = AdjOf msh f := by
      rcases f with ⟨i, j⟩
      exact p2face_spec msh H N c i j hd h2 hN hcN
        (hval _ (List.mem_cons_self _ _)) (hown _ (List.mem_cons_self _ _)) st
        invs storeds (hz _ (List.mem_cons_self _ _)) (hnz _ (List.mem_cons_self _ _))
    obtain ⟨a1, a2, a3, a4, a5⟩ := ih (p2face msh H N c st f)
      (List.nodup_cons.mp hnd).2
      (fun g hg => hval g (List.mem_cons_of_mem f hg))
      (fun g hg => hown g (List.mem_cons_of_mem f hg))
      (fun w hw hwc => by rw [w1, w2]; exact invs w hw hwc)
      (fun w hw hwc => by rw [w1]; exact storeds w hw hwc)
      (fun g hg => by
        rw [w4 g (fun hh => hfL (hh ▸ hg))]
        exact hz g (List.mem_cons_of_mem f hg))
      (fun g hg => by
        rw [w4 g (fun hh => hfL (hh ▸ hg))]
        exact hnz g (List.mem_cons_of_mem f hg))
    rw [List.foldl_cons]
    refine ⟨a1.trans w1, a2.trans w2, a3.trans w3, ?_, ?_⟩
    · intro g hg
      rcases List.mem_cons.mp hg with hgf | hgL
      · rw [hgf, a5 f hfL]
        exact hface
      · exact a4 g hgL
    · intro f' hf'
      have h1 : f' ∉ L := fun hh => hf' (List.mem_cons_of_mem f hh)
      have h2' : f' ≠ f := fun hh => hf' (hh ▸ List.mem_cons_self f L)
      rw [a5 f' h1, w4 f' h2']

/-- Phase-two specification of one subdomain tet: all four faces end at
their adjacency values (the FlgTab=4 fast path skips a tet whose faces are
all already linked), and nothing else moves. -/
theorem p2tet_spec (msh : MshSct) (H N c i : Nat)
    (hd : MshDistinct msh) (h2 : AtMostTwoPerFace msh) (hN : 1 ≤ N) (hcN : c < N)
    (st : GSt)
    (hown : ∀ j, j < 4 → (i, j) ∈ Fw msh N c)
    (invs : ∀ w, w < N → w ≠ c → TabInv msh H (st.tab w) (st.ColPos w) (Fw msh N w))
    (storeds : ∀ w, w < N → w ≠ c → ∀ g ∈ Fw msh N w,
      (∀ g' ∈ Fw msh N w, g' ≠ g → tripF msh g' ≠ tripF msh g) →
      ∃ s, (((st.tab w s).tet, (st.tab w s).voy) = g ∧ (st.tab w s).tet ≠ 0))
    (hz : ∀ j, j < 4 → st.NgbTab (i, j) = 0 →
      ∀ g ∈ Fw msh N c, g ≠ (i, j) → tripF msh g ≠ tripF msh (i, j))
    (hnz : ∀ j, j < 4 → st.NgbTab (i, j) ≠ 0 → st.NgbTab (i, j) = AdjOf msh (i, j))
    (hflg : st.FlgTab i = 4 → ∀ j, j < 4 → st.NgbTab (i, j) ≠ 0) :
    (p2tet msh H N c st i).tab = st.tab ∧
    (p2tet msh H N c st i).ColPos = st.ColPos ∧
    (p2tet msh H N c st i).FlgTab = st.FlgTab ∧
    (∀ j, j < 4 → (p2tet msh H N c st i).NgbTab (i, j) = AdjOf msh (i, j)) ∧
    (∀ f', (∀ j, j < 4 → f' ≠ (i, j)) →
      (p2tet msh H N c st i).NgbTab f' = st.NgbTab f') := by
  have hvalid : ∀ j, j < 4 → (i, j) ∈ facetsFromTo 1 msh.NmbTet :=
    fun j hj => Fw_subset msh N c hcN (i, j) (hown j hj)
  by_cases hflg4 : st.FlgTab i = 4
  · have heq : p2tet msh H N c st i = st := by
      simp only [p2tet, if_pos hflg4]
    rw [heq]
    refine ⟨rfl, rfl, rfl, ?_, fun _ _ => rfl⟩
    intro j hj
    exact hnz j hj (hflg hflg4 j hj)
  · have heq : p2tet msh H N c st i
        = [(i, 0), (i, 1), (i, 2), (i, 3)].foldl (p2face msh H N c) st := by
      simp only [p2tet, if_neg hflg4]
    have hmemL : ∀ j, j < 4 → (i, j) ∈ [(i, 0), (i, 1), (i, 2), (i, 3)] := by
      intro j hj
      interval_cases j <;> simp
    have hLj : ∀ g ∈ [(i, 0), (i, 1), (i, 2), (i, 3)], ∃ j, j < 4 ∧ g = (i, j) := by
      intro g hg
      simp only [List.mem_cons, List.not_mem_nil, or_false] at hg
      rcases hg with h | h | h | h
      · exact ⟨0, by omega, h⟩
      · exact ⟨1, by omega, h⟩
      · exact ⟨2, by omega, h⟩
      · exact ⟨3, by omega, h⟩
    obtain ⟨a1, a2, a3, a4, a5⟩ := p2faces_fold_spec msh H N c hd h2 hN hcN
      [(i, 0), (i, 1), (i, 2), (i, 3)] st
      (by simp)
      (fun g hg => by
        obtain ⟨j, hj, hgj⟩ := hLj g hg
        rw [hgj]
        exact hvalid j hj)
      (fun g hg => by
        obtain ⟨j, hj, hgj⟩ := hLj g hg
        rw [hgj]
        exact hown j hj)
      invs storeds
      (fun g hg => by
        obtain ⟨j, hj, hgj⟩ := hLj g hg
        rw [hgj]
        exact hz j hj)
      (fun g hg => by
        obtain ⟨j, hj, hgj⟩ := hLj g hg
        rw [hgj]
        exact hnz j hj)
    rw [heq]
    refine ⟨a1, a2, a3, ?_, ?_⟩
    · intro j hj
      exact a4 (i, j) (hmemL j hj)
    · intro f' hf'
      refine a5 f' ?_
      intro hmem
      obtain ⟨j, hj, hgj⟩ := hLj f' hmem
      exact hf' j hj hgj

/-- Unfolding lemma: one more worker of phase two. -/
theorem p2run_succ (msh : MshSct) (N H n : Nat) (st : GSt) :
    p2run msh N H (n + 1) st
      = ParNgb2 msh H N (begOf msh.NmbTet N n) (endOf msh.NmbTet N n) n
          (p2run msh N H n st) := by
  unfold p2run
  rw [List.range_succ, List.foldl_append, List.foldl_cons, List.foldl_nil]

/-- Phase-two specification of a fold over pairwise distinct subdomain
tets: all their faces end at their adjacency values, everything else is
untouched. -/
theorem p2tets_fold_spec (msh : MshSct) (H N c : Nat)
    (hd : MshDistinct msh) (h2 : AtMostTwoPerFace msh) (hN : 1 ≤ N) (hcN : c < N) :
    ∀ (L : List Nat) (st : GSt),
      L.Nodup →
      (∀ i ∈ L, ∀ j, j < 4 → (i, j) ∈ Fw msh N c) →
      (∀ w, w < N → w ≠ c → TabInv msh H (st.tab w) (st.ColPos w) (Fw msh N w)) →
      (∀ w, w < N → w ≠ c → ∀ g ∈ Fw msh N w,
        (∀ g' ∈ Fw msh N w, g' ≠ g → tripF msh g' ≠ tripF msh g) →
        ∃ s, (((st.tab w s).tet, (st.tab w s).voy) = g ∧ (st.tab w s).tet ≠ 0)) →
      (∀ i ∈ L, ∀ j, j < 4 → st.NgbTab (i, j) = 0 →
        ∀ g ∈ Fw msh N c, g ≠ (i, j) → tripF msh g ≠ tripF msh (i, j)) →
      (∀ i ∈ L, ∀ j, j < 4 → st.NgbTab (i, j) ≠ 0 →
        st.NgbTab (i, j) = AdjOf msh (i, j)) →
      (∀ i ∈ L, st.FlgTab i = 4 → ∀ j, j < 4 → st.NgbTab (i, j) ≠ 0) →
      (L.foldl (p2tet msh H N c) st).tab = st.tab ∧
      (L.foldl (p2tet msh H N c) st).ColPos = st.ColPos ∧
      (L.foldl (p2tet msh H N c) st).FlgTab = st.FlgTab ∧
      (∀ i ∈ L, ∀ j, j < 4 →
        (L.foldl (p2tet msh H N c) st).NgbTab (i, j) = AdjOf msh (i, j)) ∧
      (∀ f', (∀ i ∈ L, ∀ j, j < 4 → f' ≠ (i, j)) →
        (L.foldl (p2tet msh H N c) st).NgbTab f' = st.NgbTab f') := by
  intro L
  induction L with
  | nil =>
    intro st _ _ _ _ _ _ _
    exact ⟨rfl, rfl, rfl, fun i hi => absurd hi (List.not_mem_nil i), fun _ _ => rfl⟩
  | cons i L ih =>
    intro st hnd hown invs storeds hz hnz hflg
    have hiL : i ∉ L := (List.nodup_cons.mp hnd).1
    obtain ⟨t1, t2, t3, t4, t5⟩ := p2tet_spec msh H N c i hd h2 hN hcN st
      (hown i (List.mem_cons_self i L))
      invs storeds
      (hz i (List.mem_cons_self i L))
      (hnz i (List.mem_cons_self i L))
      (hflg i (List.mem_cons_self i L))
    have hne : ∀ i', i' ∈ L → ∀ j', j' < 4 → ∀ j, j < 4 → (i', j') ≠ (i, j) := by
      intro i' hi' j' _ j _ hh
      rw [Prod.mk.injEq] at hh
      exact hiL (hh.1 ▸ hi')
    obtain ⟨a1, a2, a3, a4, a5⟩ := ih (p2tet msh H N c st i)
      (List.nodup_cons.mp hnd).2
      (fun i' hi' => hown i' (List.mem_cons_of_mem i hi'))
      (fun w hw hwc => by rw [t1, t2]; exact invs w hw hwc)
      (fun w hw hwc => by rw [t1]; exact storeds w hw hwc)
      (fun i' hi' j hj => by
        rw [t5 (i', j) (hne i' hi' j hj)]
        exact hz i' (List.mem_cons_of_mem i hi') j hj)
      (fun i' hi' j hj => by
        rw [t5 (i', j) (hne i' hi' j hj)]
        exact hnz i' (List.mem_cons_of_mem i hi') j hj)
      (fun i' hi' hf4 j hj => by
        rw [t5 (i', j) (hne i' hi' j hj)]
        rw [t3] at hf4
        exact hflg i' (List.mem_cons_of_mem i hi') hf4 j hj)
    rw [List.foldl_cons]
    refine ⟨a1.trans t1, a2.trans t2, a3.trans t3, ?_, ?_⟩
    · intro i' hi' j hj
      rcases List.mem_cons.mp hi' with hii | hiL'
      · rw [hii, a5 (i, j) (fun i'' hi'' j' hj' hh => by
          rw [Prod.mk.injEq] at hh
          exact hiL (hh.1 ▸ hi''))]
        exact t4 j hj
      · exact a4 i' hiL' j hj
    · intro f' hf'
      rw [a5 f' (fun i' hi' j hj => hf' i' (List.mem_cons_of_mem i hi') j hj),
        t5 f' (hf' i (List.mem_cons_self i L))]

/-- Global induction over the workers of phase two: hash tables, cursors
and flags never move, processed workers' facets hold their adjacency
values, and untouched facets keep their phase-one values. -/
theorem phase2_fold_spec (msh : MshSct) (N H : Nat)
    (hd : MshDistinct msh) (h2 : AtMostTwoPerFace msh) (hN : 1 ≤ N)
    (st1 : GSt)
    (invs1 : ∀ w, w < N → TabInv msh H (st1.tab w) (st1.ColPos w) (Fw msh N w))
    (storeds1 : ∀ w, w < N → ∀ g ∈ Fw msh N w,
      (∀ g' ∈ Fw msh N w, g' ≠ g → tripF msh g' ≠ tripF msh g) →
      ∃ s, (((st1.tab w s).tet, (st1.tab w s).voy) = g ∧ (st1.tab w s).tet ≠ 0))
    (G1 : ∀ w, w < N → ∀ f ∈ Fw msh N w, st1.NgbTab f = 0 →
      ∀ g ∈ Fw msh N w, g ≠ f → tripF msh g ≠ tripF msh f)
    (G2 : ∀ f, st1.NgbTab f ≠ 0 → st1.NgbTab f = AdjOf msh f)
    (G3 : ∀ w, w < N → ∀ i, begOf msh.NmbTet N w ≤ i → i ≤ endOf msh.NmbTet N w →
      st1.FlgTab i = 4 → ∀ j, j < 4 → st1.NgbTab (i, j) ≠ 0) :
    ∀ n, n ≤ N →
      (p2run msh N H n st1).tab = st1.tab ∧
      (p2run msh N H n st1).ColPos = st1.ColPos ∧
      (p2run msh N H n st1).FlgTab = st1.FlgTab ∧
      (∀ w, w < n → ∀ f ∈ Fw msh N w,
        (p2run msh N H n st1).NgbTab f = AdjOf msh f) ∧
      (∀ f, (∀ w, w < n → f ∉ Fw msh N w) →
        (p2run msh N H n st1).NgbTab f = st1.NgbTab f) := by
  intro n
  induction n with
  | zero =>
    intro _
    exact ⟨rfl, rfl, rfl, fun w hw => absurd hw (by omega), fun _ _ => rfl⟩
  | succ n ih =>
    intro hn1
    have hnN : n < N := by omega
    obtain ⟨r1, r2, r3, rdone, rrest⟩ := ih (by omega)
    set r := p2run msh N H n st1 with hr
    set L := List.range' (begOf msh.NmbTet N n)
      (endOf msh.NmbTet N n + 1 - begOf msh.NmbTet N n) with hL
    have hrw : p2run msh N H (n + 1) st1 = L.foldl (p2tet msh H N n) r := by
      rw [p2run_succ]
      rfl
    have hmemL : ∀ i, i ∈ L →
        begOf msh.NmbTet N n ≤ i ∧ i ≤ endOf msh.NmbTet N n := by
      intro i hi
      rw [hL, List.mem_range'_1] at hi
      omega
    have hFwmem : ∀ i j, begOf msh.NmbTet N n ≤ i → i ≤ endOf msh.NmbTet N n →
        j < 4 → (i, j) ∈ Fw msh N n := by
      intro i j hb he hj
      rw [Fw, mem_facetsFromTo]
      exact ⟨hb, he, hj⟩
    have hinL : ∀ i j, i ∈ L → j < 4 → (i, j) ∈ Fw msh N n :=
      fun i j hi hj => hFwmem i j (hmemL i hi).1 (hmemL i hi).2 hj
    have hfresh : ∀ i j, i ∈ L → j < 4 → r.NgbTab (i, j) = st1.NgbTab (i, j) := by
      intro i j hi hj
      refine rrest (i, j) ?_
      intro w hw hmem
      exact Fw_disjoint msh N w n (by omega) (by omega) hnN (i, j) hmem (hinL i j hi hj)
    obtain ⟨a1, a2, a3, a4, a5⟩ := p2tets_fold_spec msh H N n hd h2 hN hnN L r
      (by rw [hL]; exact List.nodup_range' _ _)
      (fun i hi j hj => hinL i j hi hj)
      (fun w hw hwc => by rw [r1, r2]; exact invs1 w hw)
      (fun w hw hwc => by rw [r1]; exact storeds1 w hw)
      (fun i hi j hj h0 => by
        rw [hfresh i j hi hj] at h0
        exact G1 n hnN (i, j) (hinL i j hi hj) h0)
      (fun i hi j hj h0 => by
        rw [hfresh i j hi hj] at h0 ⊢
        exact G2 (i, j) h0)
      (fun i hi hf4 j hj => by
        rw [r3] at hf4
        rw [hfresh i j hi hj]
        exact G3 n hnN i (hmemL i hi).1 (hmemL i hi).2 hf4 j hj)
    rw [hrw]
    refine ⟨a1.trans r1, a2.trans r2, a3.trans r3, ?_, ?_⟩
    · intro w hw f hf
      by_cases hwn : w = n
      · subst hwn
        have hfm := hf
        rw [Fw, mem_facetsFromTo] at hfm
        have hfL : f.1 ∈ L := by
          rw [hL, List.mem_range'_1]
          omega
        have := a4 f.1 hfL f.2 hfm.2.2
        rw [Prod.mk.eta] at this
        exact this
      · have hwlt : w < n := by omega
        have hframe := a5 f ?_
        · rw [hframe]
          exact rdone w hwlt f hf
        · intro i hi j hj hh
          exact Fw_disjoint msh N w n hwn (by omega) hnN f (hf)
            (by rw [hh]; exact hinL i j hi hj)
    · intro f hout
      have hframe := a5 f ?_
      · rw [hframe]
        exact rrest f (fun w hw => hout w (by omega))
      · intro i hi j hj hh
        exact hout n (by omega) (by rw [hh]; exact hinL i j hi hj)

/-- A full match counter means all four faces are matched in the list. -/
theorem mCnt_four (msh : MshSct) (P : List (Nat × Nat)) (i : Nat)
    (h : mCnt msh P i = 4) :
    ∀ j, j < 4 → (i, j) ∈ P ∧ MatedIn msh P (i, j) := by
  intro j hj
  have hall : ∀ a ∈ List.range 4,
      (decide ((i, a) ∈ P ∧ MatedIn msh P (i, a))) = true := by
    refine List.countP_eq_length.mp ?_
    have hlen : (List.range 4).length = 4 := by simp
    rw [hlen]
    exact h
  exact of_decide_eq_true (hall j (List.mem_range.mpr hj))

/-- Master characterization: after both phases of SetNgb, the neighbour
table holds exactly the specification-side adjacency on mesh facets and
zero everywhere else, for every worker count. -/
theorem SetNgb_NgbTab (msh : MshSct) (N : Nat) (hd : MshDistinct msh)
    (h2 : AtMostTwoPerFace msh) (hN : 1 ≤ N) :
    ∀ f, (SetNgb msh N).1.NgbTab f
      = if f ∈ facetsFromTo 1 msh.NmbTet then AdjOf msh f else 0 := by
  intro f
  have hH : 1 ≤ hshSiz msh.NmbTet N := Nat.one_le_two_pow
  obtain ⟨_, _, _, _, tinv, tstored, gM, gU, gF1, gF2⟩ :=
    phase1_fold_spec msh N (hshSiz msh.NmbTet N) hd h2 hH N (le_refl N)
  have hbeg1 : ∀ w, 1 ≤ begOf msh.NmbTet N w := by
    intro w
    unfold begOf
    omega
  have hFw1 : ∀ w (f' : Nat × Nat), f' ∈ Fw msh N w → 1 ≤ f'.1 := by
    intro w f' hf'
    rw [Fw, mem_facetsFromTo] at hf'
    exact le_trans (hbeg1 w) hf'.1
  have G1 : ∀ w, w < N → ∀ f' ∈ Fw msh N w,
      (p1run msh N (hshSiz msh.NmbTet N) N).NgbTab f' = 0 →
      ∀ g ∈ Fw msh N w, g ≠ f' → tripF msh g ≠ tripF msh f' := by
    intro w hw f' hf' h0 g hg hgne htr
    have hv := gM w hw f' hf' g hg hgne htr
    rw [h0] at hv
    have := hFw1 w g hg
    omega
  have G2 : ∀ f', (p1run msh N (hshSiz msh.NmbTet N) N).NgbTab f' ≠ 0 →
      (p1run msh N (hshSiz msh.NmbTet N) N).NgbTab f' = AdjOf msh f' := by
    intro f' hnz
    by_cases hex : ∃ w, w < N ∧ f' ∈ Fw msh N w ∧ ∃ g ∈ Fw msh N w, g ≠ f'
        ∧ tripF msh g = tripF msh f'
    · obtain ⟨w, hw, hf', g, hg, hgne, htr⟩ := hex
      rw [gM w hw f' hf' g hg hgne htr]
      exact (mate_adj msh h2 f' g (Fw_subset msh N w hw f' hf')
        (Fw_subset msh N w hw g hg) hgne htr).symm
    · exfalso
      push_neg at hex
      refine hnz (gU f' ?_)
      intro w hw hfw g hg hgne htr
      exact hex w hw hfw g hg hgne htr
  have G3 : ∀ w, w < N → ∀ i, begOf msh.NmbTet N w ≤ i → i ≤ endOf msh.NmbTet N w →
      (p1run msh N (hshSiz msh.NmbTet N) N).FlgTab i = 4 →
      ∀ j, j < 4 → (p1run msh N (hshSiz msh.NmbTet N) N).NgbTab (i, j) ≠ 0 := by
    intro w hw i hb he hf4 j hj
    rw [gF1 w hw i hb he] at hf4
    obtain ⟨hmem, hmated⟩ := mCnt_four msh (Fw msh N w) i hf4 j hj
    rw [matedIn_iff] at hmated
    obtain ⟨g, hg, hgne, htr⟩ := hmated
    rw [gM w hw (i, j) hmem g hg hgne htr]
    have := hFw1 w g hg
    omega
  by_cases h1N : 1 < N
  · have hres : (SetNgb msh N).1 = p2run msh N (hshSiz msh.NmbTet N) N
        (p1run msh N (hshSiz msh.NmbTet N) N) := by
      simp only [SetNgb, if_pos h1N]
      rfl
    obtain ⟨q1, q2, q3, qdone, qrest⟩ := phase2_fold_spec msh N (hshSiz msh.NmbTet N)
      hd h2 hN (p1run msh N (hshSiz msh.NmbTet N) N) tinv tstored G1 G2 G3 N (le_refl N)
    by_cases hfval : f ∈ facetsFromTo 1 msh.NmbTet
    · rw [if_pos hfval, hres]
      have hfv := (mem_facetsFromTo _ _ _).mp hfval
      obtain ⟨w, hw, hb, he⟩ := range_cover msh.NmbTet N f.1 hN hfv.1 hfv.2.1
      have hfw : f ∈ Fw msh N w := by
        rw [Fw, mem_facetsFromTo]
        exact ⟨hb, he, hfv.2.2⟩
      exact qdone w hw f hfw
    · rw [if_neg hfval, hres,
        qrest f (fun w hw hmem => hfval (Fw_subset msh N w hw f hmem))]
      exact gU f (fun w hw hmem => absurd (Fw_subset msh N w hw f hmem) hfval)
  · have hres : (SetNgb msh N).1 = p1run msh N (hshSiz msh.NmbTet N) N := by
      simp only [SetNgb, if_neg h1N]
      rfl
    by_cases hfval : f ∈ facetsFromTo 1 msh.NmbTet
    · rw [if_pos hfval, hres]
      have hfv := (mem_facetsFromTo _ _ _).mp hfval
      obtain ⟨w, hw, hb, he⟩ := range_cover msh.NmbTet N f.1 hN hfv.1 hfv.2.1
      have hfw : f ∈ Fw msh N w := by
        rw [Fw, mem_facetsFromTo]
        exact ⟨hb, he, hfv.2.2⟩
      by_cases hmate : ∃ g ∈ facetsFromTo 1 msh.NmbTet, g ≠ f
          ∧ tripF msh g = tripF msh f
      · obtain ⟨g, hgval, hgne, htr⟩ := hmate
        have hgv := (mem_facetsFromTo _ _ _).mp hgval
        obtain ⟨w', hw', hb', he'⟩ := range_cover msh.NmbTet N g.1 hN hgv.1 hgv.2.1
        have hgw : g ∈ Fw msh N w' := by
          rw [Fw, mem_facetsFromTo]
          exact ⟨hb', he', hgv.2.2⟩
        have hww : w' = w := by omega
        rw [hww] at hgw
        rw [gM w hw f hfw g hgw hgne htr]
        exact (mate_adj msh h2 f g hfval hgval hgne htr).symm
      · push_neg at hmate
        rw [gU f (fun w'' hw'' hfw'' g hg hgne htr =>
          hmate g (Fw_subset msh N w'' hw'' g hg) hgne htr)]
        exact (no_mate_adj msh f hmate).symm
    · rw [if_neg hfval, hres]
      exact gU f (fun w hw hmem => absurd (Fw_subset msh N w hw f hmem) hfval)

/-- A nonzero adjacency value comes from an actual partner facet. -/
theorem adj_mate (msh : MshSct) (f : Nat × Nat) (hnz : AdjOf msh f ≠ 0) :
    ∃ g, g ∈ facetsFromTo 1 msh.NmbTet ∧ g ≠ f ∧ tripF msh g = tripF msh f
      ∧ g.1 = AdjOf msh f := by
  rcases hg : mateF msh f with _ | g
  · exfalso
    refine hnz ?_
    simp only [AdjOf, hg]
  · have hval : AdjOf msh f = g.1 := by simp only [AdjOf, hg]
    have hg' := hg
    unfold mateF at hg'
    have hpa := List.find?_some hg'
    have hma := List.mem_of_find?_eq_some hg'
    simp only [Bool.and_eq_true, decide_eq_true_eq] at hpa
    exact ⟨g, hma, hpa.1, hpa.2, hval.symm⟩

/-- C2 (counterexample): for the mesh of two tets over the same four
vertices, every hypothesis of the claim holds, NgbTab[2][0] = 1, yet all
four entries NgbTab[1][j2] equal 2, so the claimed unique j2 with
NgbTab[m][j2] = i does not exist. -/
theorem C2_counterexample :
    MshDistinct mshDup ∧ AtMostTwoPerFace mshDup ∧
    (SetNgb mshDup 1).1.NgbTab (2, 0) = 1 ∧
    ¬(∃! j2, j2 < 4 ∧ (SetNgb mshDup 1).1.NgbTab (1, j2) = 2) := by
  refine ⟨by decide, by decide, by decide, ?_⟩
  rintro ⟨j2, ⟨hj2, hval⟩, huniq⟩
  have h0 : (0 : Nat) = j2 := huniq 0 ⟨by decide, by decide⟩
  have h1 : (1 : Nat) = j2 := huniq 1 ⟨by decide, by decide⟩
  omega

/-- C2 (amended): with the canonical-triple equality included in the
uniqueness property, the claim holds: for every mesh with
pairwise-distinct tet vertices and faces shared by at most two tets, for
every facet (i, j) of the mesh with NgbTab[i][j] = m nonzero, there is
exactly one face position j2 with NgbTab[m][j2] = i whose canonical triple
equals that of face j of tet i. -/
theorem C2_amended (msh : MshSct) (N : Nat) (hd : MshDistinct msh)
    (h2 : AtMostTwoPerFace msh) (hN : 1 ≤ N) (i j m : Nat)
    (hfv : (i, j) ∈ facetsFromTo 1 msh.NmbTet)
    (hm : (SetNgb msh N).1.NgbTab (i, j) = m) (hm0 : m ≠ 0) :
    ∃! j2, j2 < 4 ∧ (SetNgb msh N).1.NgbTab (m, j2) = i
      ∧ tripF msh (m, j2) = tripF msh (i, j) := by
  have hmaster := SetNgb_NgbTab msh N hd h2 hN
  have hadj : AdjOf msh (i, j) = m := by
    rw [← hm, hmaster (i, j), if_pos hfv]
  have hnz : AdjOf msh (i, j) ≠ 0 := by
    rw [hadj]
    exact hm0
  obtain ⟨g, hgval, hgne, htr, hg1⟩ := adj_mate msh (i, j) hnz
  rw [hadj] at hg1
  have hgv := (mem_facetsFromTo _ _ _).mp hgval
  have him : i ≠ m := by
    have hh := mate_ne_tet msh hd (i, j) g hfv hgval (Ne.symm hgne) htr.symm
    rw [hg1] at hh
    exact hh
  have hgeq : (m, g.2) = g := by
    rw [← hg1, Prod.mk.eta]
  refine ⟨g.2, ⟨hgv.2.2, ?_, ?_⟩, ?_⟩
  · rw [hgeq, hmaster g, if_pos hgval]
    exact mate_adj msh h2 g (i, j) hgval hfv (Ne.symm hgne) htr.symm
  · rw [hgeq]
    exact htr
  · rintro j2' ⟨hj2', hback, htr'⟩
    have hm1 : 1 ≤ m := by
      rw [← hg1]
      exact hgv.1
    have hmT : m ≤ msh.NmbTet := by
      rw [← hg1]
      exact hgv.2.1
    have hval' : (m, j2') ∈ facetsFromTo 1 msh.NmbTet := by
      rw [mem_facetsFromTo]
      exact ⟨hm1, hmT, hj2'⟩
    have hne' : (m, j2') ≠ (i, j) := by
      intro hh
      rw [Prod.mk.injEq] at hh
      exact him hh.1.symm
    have huq := mate_unique msh h2 (i, j) (m, j2') g hfv hval' hgval hne' hgne htr' htr
    rw [← hgeq, Prod.mk.injEq] at huq
    exact huq.2

/-- C2 witness: on the two-tet shared-face mesh, NgbTab[1][3] = 2 and the
amended unique back-link position exists. -/
theorem C2_amended_witness :
    MshDistinct mshS2 ∧ AtMostTwoPerFace mshS2 ∧
    (SetNgb mshS2 1).1.NgbTab (1, 3) = 2 ∧
    (∃! j2, j2 < 4 ∧ (SetNgb mshS2 1).1.NgbTab (2, j2) = 1
      ∧ tripF mshS2 (2, j2) = tripF mshS2 (1, 3)) :=
  ⟨by decide, by decide, by decide,
    C2_amended mshS2 1 (by decide) (by decide) (by decide) 1 3 2 (by decide)
      (by decide) (by decide)⟩

/-- C3: for every mesh with pairwise-distinct tet vertices and faces
shared by at most two tets, the neighbour tables produced with 1, 4 and 8
workers are identical. -/
theorem C3_determinism (msh : MshSct) (hd : MshDistinct msh)
    (h2 : AtMostTwoPerFace msh) :
    (SetNgb msh 1).1.NgbTab = (SetNgb msh 4).1.NgbTab
      ∧ (SetNgb msh 4).1.NgbTab = (SetNgb msh 8).1.NgbTab := by
  have h1 := SetNgb_NgbTab msh 1 hd h2 (by omega)
  have h4 := SetNgb_NgbTab msh 4 hd h2 (by omega)
  have h8 := SetNgb_NgbTab msh 8 hd h2 (by omega)
  constructor
  · funext g
    rw [h1 g, h4 g]
  · funext g
    rw [h4 g, h8 g]

/-- C3 witness: the three runs coincide on the two-tet shared-face mesh. -/
theorem C3_witness :
    MshDistinct mshS2 ∧ AtMostTwoPerFace mshS2 ∧
    ((SetNgb mshS2 1).1.NgbTab = (SetNgb mshS2 4).1.NgbTab
      ∧ (SetNgb mshS2 4).1.NgbTab = (SetNgb mshS2 8).1.NgbTab) :=
  ⟨by decide, by decide, C3_determinism mshS2 (by decide) (by decide)⟩

/-- Every chain-probe read of a phase-two walk is a nonzero tet id: a slot
reached through a nonzero nex link is occupied. -/
theorem p2walk_visC (msh : MshSct) (H n i j : Nat) (F : List (Nat × Nat))
    (tb : Nat → HshSct) (col : Nat) (inv : TabInv msh H tb col F) :
    ∀ (fuel key : Nat) (first : Bool) (st : GSt),
      st.tab n = tb →
      (first = false → (tb key).tet ≠ 0) →
      ∀ v ∈ (p2walk msh n i j (canonMM (msh.tet i) j).1 (canonMid (msh.tet i) j)
          (canonMM (msh.tet i) j).2 fuel key first st).1.visC,
        v ∈ st.visC ∨ v ≠ 0 := by
  intro fuel
  induction fuel with
  | zero =>
    intro key first st _ _ v hv
    exact Or.inl hv
  | succ fuel ih =>
    intro key first st hst hocc v hv
    obtain ⟨et, ev, emn, emd, emx, enex, htab⟩ :
        ∃ et ev emn emd emx enex, tb key = HshSct.mk et ev emn emd emx enex :=
      ⟨_, _, _, _, _, _, rfl⟩
    have htab' : st.tab n key = HshSct.mk et ev emn emd emx enex := by rw [hst, htab]
    have htet : (tb key).tet = et := by rw [htab]
    have hnexv : (tb key).nex = enex := by rw [htab]
    have hvc1 : ∀ w ∈ (if first then pushP st et else pushC st et).visC,
        w ∈ st.visC ∨ w ≠ 0 := by
      intro w hw
      cases hfst : first
      · rw [hfst] at hw
        simp only [if_neg Bool.false_ne_true, pushC_visC, List.mem_cons] at hw
        rcases hw with hw | hw
        · right
          rw [hw, ← htet]
          exact hocc hfst
        · exact Or.inl hw
      · rw [hfst] at hw
        simp only [if_pos trivial, pushP_visC] at hw
        exact Or.inl hw
    by_cases hm : (msh.tet et).idx emn = (msh.tet i).idx (canonMM (msh.tet i) j).1
        ∧ (msh.tet et).idx emd = (msh.tet i).idx (canonMid (msh.tet i) j)
        ∧ (msh.tet et).idx emx = (msh.tet i).idx (canonMM (msh.tet i) j).2
    · have heq : (p2walk msh n i j (canonMM (msh.tet i) j).1 (canonMid (msh.tet i) j)
          (canonMM (msh.tet i) j).2 (fuel + 1) key first st)
          = (setNgb (if first then pushP st et else pushC st et) i j et, true) := by
        simp only [p2walk, htab', if_pos hm]
      rw [heq] at hv
      exact hvc1 v hv
    · by_cases hnx : enex ≠ 0
      · have hnl := inv.nexLink key (by rw [hnexv]; exact hnx)
        rw [hnexv] at hnl
        have hoccn : (tb enex).tet ≠ 0 := inv.occBetween enex hnl.2.2.1 hnl.2.2.2
        have heq : p2walk msh n i j (canonMM (msh.tet i) j).1 (canonMid (msh.tet i) j)
            (canonMM (msh.tet i) j).2 (fuel + 1) key first st
            = p2walk msh n i j (canonMM (msh.tet i) j).1 (canonMid (msh.tet i) j)
                (canonMM (msh.tet i) j).2 fuel enex false
                (if first then pushP st et else pushC st et) := by
          simp only [p2walk, htab', if_neg hm, if_pos hnx]
        rw [heq] at hv
        have h1tab : (if first then pushP st et else pushC st et).tab = st.tab := by
          cases first <;> simp
        rcases ih enex false (if first then pushP st et else pushC st et)
            (by rw [h1tab, hst]) (fun _ => hoccn) v hv with hmem | hne
        · exact hvc1 v hmem
        · exact Or.inr hne
      · have heq : p2walk msh n i j (canonMM (msh.tet i) j).1 (canonMid (msh.tet i) j)
            (canonMM (msh.tet i) j).2 (fuel + 1) key first st
            = ((if first then pushP st et else pushC st et), false) := by
          simp only [p2walk, htab', if_neg hm,
            if_neg (show ¬(enex ≠ 0) by omega)]
        rw [heq] at hv
        exact hvc1 v hv

/-- Chain-probe reads stay nonzero across the probe loop. -/
theorem p2probe_visC (msh : MshSct) (H c i j key : Nat)
    (Fof : Nat → List (Nat × Nat)) :
    ∀ (ns : List Nat) (st : GSt),
      (∀ n ∈ ns, n ≠ c → TabInv msh H (st.tab n) (st.ColPos n) (Fof n)) →
      ∀ v ∈ (p2probe msh c i j (canonMM (msh.tet i) j).1 (canonMid (msh.tet i) j)
          (canonMM (msh.tet i) j).2 key ns st).visC, v ∈ st.visC ∨ v ≠ 0 := by
  intro ns
  induction ns with
  | nil => intro st _ v hv; exact Or.inl hv
  | cons n ns ih =>
    intro st hinv v hv
    by_cases hnc : n = c
    · have heq : p2probe msh c i j (canonMM (msh.tet i) j).1 (canonMid (msh.tet i) j)
          (canonMM (msh.tet i) j).2 key (n :: ns) st
          = p2probe msh c i j (canonMM (msh.tet i) j).1 (canonMid (msh.tet i) j)
              (canonMM (msh.tet i) j).2 key ns st := by
        simp only [p2probe, if_pos hnc]
      rw [heq] at hv
      exact ih st (fun m hm => hinv m (List.mem_cons_of_mem n hm)) v hv
    · have hinvn := hinv n (List.mem_cons_self n ns) hnc
      have hwalk := p2walk_visC msh H n i j (Fof n) (st.tab n) (st.ColPos n) hinvn
        (st.ColPos n + 1) key true st rfl (fun hh => Bool.noConfusion hh)
      obtain ⟨w1, w2, w3, w4⟩ := p2walk_frame msh n i j (canonMM (msh.tet i) j).1
        (canonMid (msh.tet i) j) (canonMM (msh.tet i) j).2
        (st.ColPos n + 1) key true st
      by_cases hflg : (p2walk msh n i j (canonMM (msh.tet i) j).1
          (canonMid (msh.tet i) j) (canonMM (msh.tet i) j).2
          (st.ColPos n + 1) key true st).2 = true
      · have heq : p2probe msh c i j (canonMM (msh.tet i) j).1 (canonMid (msh.tet i) j)
            (canonMM (msh.tet i) j).2 key (n :: ns) st
            = (p2walk msh n i j (canonMM (msh.tet i) j).1 (canonMid (msh.tet i) j)
                (canonMM (msh.tet i) j).2 (st.ColPos n + 1) key true st).1 := by
          simp only [p2probe, if_neg hnc, hflg, if_pos]
        rw [heq] at hv
        exact hwalk v hv
      · have heq : p2probe msh c i j (canonMM (msh.tet i) j).1 (canonMid (msh.tet i) j)
            (canonMM (msh.tet i) j).2 key (n :: ns) st
            = p2probe msh c i j (canonMM (msh.tet i) j).1 (canonMid (msh.tet i) j)
                (canonMM (msh.tet i) j).2 key ns
                (p2walk msh n i j (canonMM (msh.tet i) j).1 (canonMid (msh.tet i) j)
                  (canonMM (msh.tet i) j).2 (st.ColPos n + 1) key true st).1 := by
          simp only [p2probe, if_neg hnc, if_neg hflg]
        rw [heq] at hv
        rcases ih (p2walk msh n i j (canonMM (msh.tet i) j).1 (canonMid (msh.tet i) j)
            (canonMM (msh.tet i) j).2 (st.ColPos n + 1) key true st).1
            (fun m hm hmc => by rw [w1, w2]; exact hinv m (List.mem_cons_of_mem n hm) hmc)
            v hv with hmem | hne
        · exact hwalk v hmem
        · exact Or.inr hne

/-- Chain-probe reads stay nonzero across one face of phase two. -/
theorem p2face_visC (msh : MshSct) (H N c : Nat) (st : GSt) (f : Nat × Nat)
    (hinv : ∀ w, w < N → w ≠ c → TabInv msh H (st.tab w) (st.ColPos w) (Fw msh N w)) :
    ∀ v ∈ (p2face msh H N c st f).visC, v ∈ st.visC ∨ v ≠ 0 := by
  intro v hv
  by_cases hngb : st.NgbTab (f.1, f.2) ≠ 0
  · have heq : p2face msh H N c st f = st := by
      simp only [p2face, if_pos hngb]
    rw [heq] at hv
    exact Or.inl hv
  · have heq : p2face msh H N c st f
        = p2probe msh c f.1 f.2 (canonMM (msh.tet f.1) f.2).1 (canonMid (msh.tet f.1) f.2)
            (canonMM (msh.tet f.1) f.2).2 (hshKey H (msh.tet f.1) f.2)
            (List.range N) st := by
      simp only [p2face, if_neg hngb]
    rw [heq] at hv
    exact p2probe_visC msh H c f.1 f.2 (hshKey H (msh.tet f.1) f.2)
      (fun w => Fw msh N w) (List.range N) st
      (fun n hn hnc => hinv n (List.mem_range.mp hn) hnc) v hv

/-- Chain-probe reads stay nonzero across one tet of phase two. -/
theorem p2tet_visC (msh : MshSct) (H N c : Nat) (st : GSt) (i : Nat)
    (hinv : ∀ w, w < N → w ≠ c → TabInv msh H (st.tab w) (st.ColPos w) (Fw msh N w)) :
    ∀ v ∈ (p2tet msh H N c st i).visC, v ∈ st.visC ∨ v ≠ 0 := by
  intro v hv
  by_cases hflg : st.FlgTab i = 4
  · have heq : p2tet msh H N c st i = st := by
      simp only [p2tet, if_pos hflg]
    rw [heq] at hv
    exact Or.inl hv
  · have heq : p2tet msh H N c st i
        = [(i, 0), (i, 1), (i, 2), (i, 3)].foldl (p2face msh H N c) st := by
      simp only [p2tet, if_neg hflg]
    rw [heq] at hv
    obtain ⟨a1, a2, _, _⟩ := p2face_frame msh H N c st (i, 0)
    obtain ⟨b1, b2, _, _⟩ := p2face_frame msh H N c (p2face msh H N c st (i, 0)) (i, 1)
    obtain ⟨c1, c2, _, _⟩ := p2face_frame msh H N c
      (p2face msh H N c (p2face msh H N c st (i, 0)) (i, 1)) (i, 2)
    have h0 := p2face_visC msh H N c st (i, 0) hinv
    have h1 := p2face_visC msh H N c (p2face msh H N c st (i, 0)) (i, 1)
      (fun w hw hwc => by rw [a1, a2]; exact hinv w hw hwc)
    have h2V := p2face_visC msh H N c
      (p2face msh H N c (p2face msh H N c st (i, 0)) (i, 1)) (i, 2)
      (fun w hw hwc => by rw [b1, a1, b2, a2]; exact hinv w hw hwc)
    have h3 := p2face_visC msh H N c
      (p2face msh H N c (p2face msh H N c (p2face msh H N c st (i, 0)) (i, 1)) (i, 2))
      (i, 3)
      (fun w hw hwc => by rw [c1, b1, a1, c2, b2, a2]; exact hinv w hw hwc)
    simp only [List.foldl_cons, List.foldl_nil] at hv
    rcases h3 v hv with hm3 | hne
    · rcases h2V v hm3 with hm2 | hne
      · rcases h1 v hm2 with hm1 | hne
        · exact h0 v hm1
        · exact Or.inr hne
      · exact Or.inr hne
    · exact Or.inr hne

/-- Chain-probe reads stay nonzero across a tet-list fold of phase two. -/
theorem p2tets_visC (msh : MshSct) (H N c : Nat) :
    ∀ (L : List Nat) (st : GSt),
      (∀ w, w < N → w ≠ c → TabInv msh H (st.tab w) (st.ColPos w) (Fw msh N w)) →
      ∀ v ∈ (L.foldl (p2tet msh H N c) st).visC, v ∈ st.visC ∨ v ≠ 0 := by
  intro L
  induction L with
  | nil => intro st _ v hv; exact Or.inl hv
  | cons i L ih =>
    intro st hinv v hv
    obtain ⟨t1, t2, _, _⟩ := p2tet_frame msh H N c st i
    rw [List.foldl_cons] at hv
    rcases ih (p2tet msh H N c st i)
        (fun w hw hwc => by rw [t1, t2]; exact hinv w hw hwc) v hv with hmem | hne
    · exact p2tet_visC msh H N c st i hinv v hmem
    · exact Or.inr hne

/-- Phase two never moves the hash tables or cursors, for any number of
processed workers. -/
theorem p2run_frame (msh : MshSct) (N H : Nat) :
    ∀ (n : Nat) (st : GSt),
      (p2run msh N H n st).tab = st.tab ∧ (p2run msh N H n st).ColPos = st.ColPos := by
  intro n
  induction n with
  | zero => intro st; exact ⟨rfl, rfl⟩
  | succ n ih =>
    intro st
    rw [p2run_succ]
    have hP2 : ParNgb2 msh H N (begOf msh.NmbTet N n) (endOf msh.NmbTet N n) n
        (p2run msh N H n st)
        = (List.range' (begOf msh.NmbTet N n)
            (endOf msh.NmbTet N n + 1 - begOf msh.NmbTet N n)).foldl
            (p2tet msh H N n) (p2run msh N H n st) := rfl
    rw [hP2]
    obtain ⟨f1, f2, _, _⟩ := p2fold_frame msh H N n
      (List.range' (begOf msh.NmbTet N n)
        (endOf msh.NmbTet N n + 1 - begOf msh.NmbTet N n)) (p2run msh N H n st)
    exact ⟨f1.trans (ih st).1, f2.trans (ih st).2⟩

/-- Chain-probe reads stay nonzero across all workers of phase two. -/
theorem p2run_visC (msh : MshSct) (N H : Nat) :
    ∀ (n : Nat) (st : GSt),
      (∀ w, w < N → TabInv msh H (st.tab w) (st.ColPos w) (Fw msh N w)) →
      ∀ v ∈ (p2run msh N H n st).visC, v ∈ st.visC ∨ v ≠ 0 := by
  intro n
  induction n with
  | zero => intro st _ v hv; exact Or.inl hv
  | succ n ih =>
    intro st hinv v hv
    rw [p2run_succ] at hv
    have hP2 : ParNgb2 msh H N (begOf msh.NmbTet N n) (endOf msh.NmbTet N n) n
        (p2run msh N H n st)
        = (List.range' (begOf msh.NmbTet N n)
            (endOf msh.NmbTet N n + 1 - begOf msh.NmbTet N n)).foldl
            (p2tet msh H N n) (p2run msh N H n st) := rfl
    rw [hP2] at hv
    have hframe := p2run_frame msh N H n st
    rcases p2tets_visC msh H N n
        (List.range' (begOf msh.NmbTet N n)
          (endOf msh.NmbTet N n + 1 - begOf msh.NmbTet N n)) (p2run msh N H n st)
        (fun w hw hwc => by rw [hframe.1, hframe.2]; exact hinv w hw) v hv with
      hmem | hne
    · exact ih st hinv v hmem
    · exact Or.inr hne

/-- C10 (counterexample): phase two does visit empty primary buckets. On
two disjoint tets split over two workers, a cross-worker primary probe
reads tet id 0, so the code dereferences the never-initialized
msh->tet[0]. -/
theorem C10_counterexample :
    MshDistinct mshDisj2 ∧ AtMostTwoPerFace mshDisj2 ∧
    0 ∈ (SetNgb mshDisj2 2).1.visP :=
  ⟨by decide, by decide, by decide⟩

/-- C10 (amended): only the chain part of the claim holds: every slot
phase two reaches through a nonzero nex link holds a nonzero tet id, and
every stored neighbour value is either zero or a nonzero tet id different
from the row's own tet. Primary probes may read tet id 0. -/
theorem C10_amended (msh : MshSct) (N : Nat) (hd : MshDistinct msh)
    (h2 : AtMostTwoPerFace msh) (hN : 1 ≤ N) :
    (∀ v ∈ (SetNgb msh N).1.visC, v ≠ 0) ∧
    (∀ f : Nat × Nat, (SetNgb msh N).1.NgbTab f = 0 ∨
      (1 ≤ (SetNgb msh N).1.NgbTab f ∧ (SetNgb msh N).1.NgbTab f ≠ f.1)) := by
  have hH : 1 ≤ hshSiz msh.NmbTet N := Nat.one_le_two_pow
  obtain ⟨_, _, _, pvc, tinv, _, _, _, _, _⟩ :=
    phase1_fold_spec msh N (hshSiz msh.NmbTet N) hd h2 hH N (le_refl N)
  constructor
  · intro v hv
    by_cases h1N : 1 < N
    · have hres : (SetNgb msh N).1 = p2run msh N (hshSiz msh.NmbTet N) N
          (p1run msh N (hshSiz msh.NmbTet N) N) := by
        simp only [SetNgb, if_pos h1N]
        rfl
      rw [hres] at hv
      rcases p2run_visC msh N (hshSiz msh.NmbTet N) N
          (p1run msh N (hshSiz msh.NmbTet N) N) tinv v hv with hmem | hne
      · rw [pvc] at hmem
        exact absurd hmem (List.not_mem_nil v)
      · exact hne
    · have hres : (SetNgb msh N).1 = p1run msh N (hshSiz msh.NmbTet N) N := by
        simp only [SetNgb, if_neg h1N]
        rfl
      rw [hres, pvc] at hv
      exact absurd hv (List.not_mem_nil v)
  · intro f
    have hmaster := SetNgb_NgbTab msh N hd h2 hN f
    by_cases hfval : f ∈ facetsFromTo 1 msh.NmbTet
    · rw [hmaster, if_pos hfval]
      by_cases hz : AdjOf msh f = 0
      · exact Or.inl hz
      · right
        obtain ⟨g, hgval, hgne, htr, hg1⟩ := adj_mate msh f hz
        have hgv := (mem_facetsFromTo _ _ _).mp hgval
        have hne := mate_ne_tet msh hd f g hfval hgval (Ne.symm hgne) htr.symm
        constructor
        · rw [← hg1]
          exact hgv.1
        · rw [← hg1]
          exact fun hh => hne hh.symm
    · rw [hmaster, if_neg hfval]
      exact Or.inl rfl

/-- C10 witness: on the two disjoint tets over two workers, every chain
read is nonzero and every stored neighbour value is zero or a foreign
nonzero tet id. -/
theorem C10_amended_witness :
    MshDistinct mshDisj2 ∧ AtMostTwoPerFace mshDisj2 ∧
    ((∀ v ∈ (SetNgb mshDisj2 2).1.visC, v ≠ 0) ∧
     (∀ f : Nat × Nat, (SetNgb mshDisj2 2).1.NgbTab f = 0 ∨
       (1 ≤ (SetNgb mshDisj2 2).1.NgbTab f ∧ (SetNgb mshDisj2 2).1.NgbTab f ≠ f.1))) :=
  ⟨by decide, by decide, C10_amended mshDisj2 2 (by decide) (by decide) (by decide)⟩

end LPlibNgb
